import Mathlib

/-!
Verification of the `fhe_strings` library (data-oblivious string operations
over homomorphic encryption).

We use a shallow embedding at the cleartext level: every ciphertext is
represented by the natural number it decrypts to, and every homomorphic
primitive by the arithmetic function it computes on cleartexts.  An
`FheString` is its vector of byte values together with the public `padded`
flag.  Radix ciphertexts used as indices and lengths in the library are
16-block (32-bit) integers, so their arithmetic is modelled modulo `2 ^ 32`.
-/

namespace Fhe

/-- An encrypted string: the cleartext byte value of each character slot plus
the public `padded` flag (`FheString` in the source). -/
structure FheString where
  chars : List Nat
  padded : Bool
deriving Repr, DecidableEq

/-- Modelled from the spec: encryption of a plaintext (client side,
`EncString::encrypt`, the `ciphertext` module is not part of the sources).
`padding` extra encrypted NULs are appended and the `padded` flag is
`padding > 0 OR str.is_empty()`. -/
def encrypt (w : List Nat) (padding : Nat) : FheString :=
  ⟨w ++ List.replicate padding 0, decide (0 < padding) || decide (w = [])⟩

/-- Modelled from the spec: decryption recovers the content before the
padding NULs (client side, not part of the sources). -/
def decrypt (fs : FheString) : List Nat :=
  fs.chars.takeWhile (fun c => !(c == 0))

/-- A valid plaintext: ASCII bytes with no interior NUL. -/
def ValidChars (w : List Nat) : Prop :=
  ∀ c ∈ w, c ≠ 0 ∧ c < 128

instance : DecidablePred ValidChars := fun w =>
  inferInstanceAs (Decidable (∀ c ∈ w, c ≠ 0 ∧ c < 128))

/-- The homomorphic count of non-NUL characters (`Σ [cᵢ ≠ 0]`), used by the
length oracle. -/
def countNonZero (l : List Nat) : Nat :=
  l.foldl (fun acc c => acc + (if c = 0 then 0 else 1)) 0

/-- `FheStringLen` of the source: a clear length for unpadded strings,
an encrypted count for padded ones. -/
inductive FheStringLen where
  | noPadding (n : Nat)
  | padding (n : Nat)
deriving Repr, DecidableEq

/-- `FheStringIsEmpty` of the source. -/
inductive FheStringIsEmpty where
  | noPadding (b : Bool)
  | padding (v : Nat)
deriving Repr, DecidableEq

/-- Modelled from the spec: `len(s)` returns `Clear(N)` for unpadded strings
and the homomorphic non-NUL count for padded ones (`ServerKey::len` lives in
the `no_patterns` module, absent from the sources). -/
def len (fs : FheString) : FheStringLen :=
  if fs.padded then .padding (countNonZero fs.chars)
  else .noPadding fs.chars.length

/-- Modelled from the spec: `is_empty(s)` is `Clear(N = 0)` for unpadded
strings and the encrypted predicate `len(s) = 0` for padded ones
(`ServerKey::is_empty` lives in the `no_patterns` module, absent from the
sources). -/
def is_empty (fs : FheString) : FheStringIsEmpty :=
  if fs.padded then .padding (if countNonZero fs.chars = 0 then 1 else 0)
  else .noPadding (fs.chars.length == 0)

/-- The numeric value carried by a `len` result (the source materialises the
`NoPadding` case with `create_trivial_radix`). -/
def lenVal (fs : FheString) : Nat :=
  match len fs with
  | .noPadding n => n
  | .padding n => n

/-- Modelled from the spec: `append_null` appends one encrypted NUL and marks
the string padded (the `ciphertext` module is absent from the sources). -/
def append_null (fs : FheString) : FheString :=
  ⟨fs.chars ++ [0], true⟩

/-- `if_then_else_parallelized` on cleartexts: the condition is a boolean
block, `0` selects the second operand. -/
def selectN (c a b : Nat) : Nat := if c = 0 then b else a

/-- `ServerKey::asciis_eq`: OR-accumulate the XOR of each zipped character
pair, then test the accumulator against zero.  Excess characters of the
longer iterator are ignored by `zip`. -/
def asciis_eq (xs ys : List Nat) : Nat :=
  if (xs.zip ys).foldl (fun acc p => acc ||| (p.1 ^^^ p.2)) 0 = 0 then 1 else 0

/-- `ServerKey::asciis_eq_ignore_pat_pad`: AND-accumulate
`(x = y) OR (y = 0)` over the zipped pairs, starting from `1`. -/
def asciis_eq_ignore_pat_pad (xs ys : List Nat) : Nat :=
  (xs.zip ys).foldl
    (fun acc p => acc &&& ((if p.1 = p.2 then 1 else 0) ||| (if p.2 = 0 then 1 else 0)))
    1

/-! ### Bitwise helper lemmas -/

theorem lor_eq_zero (a b : Nat) : a ||| b = 0 ↔ a = 0 ∧ b = 0 := by
  constructor
  · intro h
    refine ⟨Nat.zero_of_testBit_eq_false fun i => ?_, Nat.zero_of_testBit_eq_false fun i => ?_⟩ <;>
    · have := congrArg (fun x => Nat.testBit x i) h
      simp [Nat.testBit_or] at this
      tauto
  · rintro ⟨rfl, rfl⟩; rfl

theorem foldl_lor_eq_zero (l : List (Nat × Nat)) (acc : Nat) :
    l.foldl (fun acc p => acc ||| (p.1 ^^^ p.2)) acc = 0 ↔
      acc = 0 ∧ ∀ p ∈ l, p.1 = p.2 := by
  induction l generalizing acc with
  | nil => simp
  | cons q l ih =>
    rw [List.foldl_cons, ih]
    rw [lor_eq_zero, Nat.xor_eq_zero]
    constructor
    · rintro ⟨⟨h1, h2⟩, h3⟩
      refine ⟨h1, fun p hp => ?_⟩
      rcases List.mem_cons.1 hp with rfl | hp
      · exact h2
      · exact h3 p hp
    · rintro ⟨h1, h2⟩
      exact ⟨⟨h1, h2 q (List.mem_cons_self q l)⟩,
        fun p hp => h2 p (List.mem_cons_of_mem q hp)⟩

theorem asciis_eq_eq_one (xs ys : List Nat) :
    asciis_eq xs ys = 1 ↔ ∀ p ∈ xs.zip ys, p.1 = p.2 := by
  unfold asciis_eq
  split <;> rename_i h
  · rw [foldl_lor_eq_zero] at h
    exact iff_of_true rfl h.2
  · refine iff_of_false (by simp) fun hall => ?_
    exact h ((foldl_lor_eq_zero _ _).2 ⟨rfl, hall⟩)

theorem asciis_eq_zero_or_one (xs ys : List Nat) :
    asciis_eq xs ys = 0 ∨ asciis_eq xs ys = 1 := by
  unfold asciis_eq; split <;> simp

/-- `charAt l i` is the byte in slot `i`, `0` out of range (matching the fact
that a ciphertext beyond the capacity does not exist / contributes zero). -/
def charAt (l : List Nat) (i : Nat) : Nat := l.getD i 0

theorem zip_forall_iff_charAt (xs ys : List Nat) :
    (∀ p ∈ xs.zip ys, p.1 = p.2) ↔
      ∀ i < min xs.length ys.length, charAt xs i = charAt ys i := by
  induction xs generalizing ys with
  | nil => simp
  | cons x xs ih =>
    cases ys with
    | nil => simp
    | cons y ys =>
      rw [List.zip_cons_cons]
      simp only [List.mem_cons]
      constructor
      · rintro h i hi
        match i with
        | 0 => exact h (x, y) (Or.inl rfl)
        | i + 1 =>
          have := (ih ys).1 (fun p hp => h p (Or.inr hp)) i (by
            simp only [List.length_cons, min_def] at hi ⊢
            split <;> split at hi <;> omega)
          simpa [charAt] using this
      · intro h p hp
        rcases hp with rfl | hp
        · exact h 0 (by simp)
        · refine (ih ys).2 (fun i hi => ?_) p hp
          have := h (i + 1) (by
            simp only [List.length_cons, min_def] at hi ⊢
            split <;> split at hi <;> omega)
          simpa [charAt] using this

theorem asciis_eq_eq_one_iff_charAt (xs ys : List Nat) :
    asciis_eq xs ys = 1 ↔
      ∀ i < min xs.length ys.length, charAt xs i = charAt ys i := by
  rw [asciis_eq_eq_one, zip_forall_iff_charAt]

/-- **C9.** The equality kernel `asciis_eq` decrypts to `1` exactly when the
two character sequences agree at every index below the length of the shorter
one; characters of the longer sequence past that point are ignored, and with
an empty sequence on either side the result is always `1` (the OR
accumulator stays `0`). -/
theorem claim9_asciis_eq_kernel (xs ys : List Nat) :
    (asciis_eq xs ys = 0 ∨ asciis_eq xs ys = 1) ∧
    (asciis_eq xs ys = 1 ↔
      ∀ i < min xs.length ys.length, charAt xs i = charAt ys i) ∧
    (xs = [] ∨ ys = [] → asciis_eq xs ys = 1) := by
  refine ⟨asciis_eq_zero_or_one xs ys, asciis_eq_eq_one_iff_charAt xs ys, ?_⟩
  rintro (rfl | rfl) <;> simp [asciis_eq]

/-- Witness for C9 at a concrete input with one side empty. -/
theorem claim9_asciis_eq_kernel_witness :
    asciis_eq [104, 105] [104, 105, 0] = 1 :=
  (claim9_asciis_eq_kernel [104, 105] [104, 105, 0]).2.1.2 (by decide)

/-! ### The ignore-pattern-padding kernel -/

theorem foldl_land_eq_one (l : List (Nat × Nat)) (acc : Nat) (hacc : acc = 0 ∨ acc = 1) :
    (l.foldl
      (fun acc p => acc &&& ((if p.1 = p.2 then 1 else 0) ||| (if p.2 = 0 then 1 else 0)))
      acc = 1) ↔
      acc = 1 ∧ ∀ p ∈ l, p.2 ≠ 0 → p.1 = p.2 := by
  induction l generalizing acc with
  | nil => simp
  | cons q l ih =>
    rw [List.foldl_cons]
    have hstep : (acc &&& ((if q.1 = q.2 then 1 else 0) ||| (if q.2 = 0 then 1 else 0)))
        = if acc = 1 ∧ (q.2 ≠ 0 → q.1 = q.2) then 1 else 0 := by
      rcases hacc with rfl | rfl <;>
        by_cases h1 : q.1 = q.2 <;> by_cases h2 : q.2 = 0 <;> simp [h1, h2]
    rw [hstep]
    by_cases hq : acc = 1 ∧ (q.2 ≠ 0 → q.1 = q.2)
    · rw [if_pos hq, ih 1 (Or.inr rfl)]
      constructor
      · rintro ⟨-, h⟩
        refine ⟨hq.1, fun p hp => ?_⟩
        rcases List.mem_cons.1 hp with rfl | hp
        · exact hq.2
        · exact h p hp
      · rintro ⟨-, h⟩
        exact ⟨rfl, fun p hp => h p (List.mem_cons_of_mem q hp)⟩
    · rw [if_neg hq, ih 0 (Or.inl rfl)]
      constructor
      · rintro ⟨h, -⟩; exact absurd h one_ne_zero.symm
      · rintro ⟨h1, h2⟩
        exact absurd ⟨h1, fun h => h2 q (List.mem_cons_self q l) h⟩ hq

theorem foldl_land_zero_or_one (l : List (Nat × Nat)) (acc : Nat)
    (hacc : acc = 0 ∨ acc = 1) :
    (l.foldl
      (fun acc p => acc &&& ((if p.1 = p.2 then 1 else 0) ||| (if p.2 = 0 then 1 else 0)))
      acc = 0) ∨
    (l.foldl
      (fun acc p => acc &&& ((if p.1 = p.2 then 1 else 0) ||| (if p.2 = 0 then 1 else 0)))
      acc = 1) := by
  induction l generalizing acc with
  | nil => simpa using hacc
  | cons q l ih =>
    rw [List.foldl_cons]
    refine ih _ ?_
    rcases hacc with rfl | rfl <;>
      by_cases h1 : q.1 = q.2 <;> by_cases h2 : q.2 = 0 <;> simp [h1, h2]

theorem asciis_eq_ignore_pat_pad_eq_one (xs ys : List Nat) :
    asciis_eq_ignore_pat_pad xs ys = 1 ↔
      ∀ p ∈ xs.zip ys, p.2 ≠ 0 → p.1 = p.2 := by
  unfold asciis_eq_ignore_pat_pad
  rw [foldl_land_eq_one _ _ (Or.inr rfl)]
  simp

theorem asciis_eq_ignore_pat_pad_zero_or_one (xs ys : List Nat) :
    asciis_eq_ignore_pat_pad xs ys = 0 ∨ asciis_eq_ignore_pat_pad xs ys = 1 :=
  foldl_land_zero_or_one _ _ (Or.inr rfl)

/-! ### Facts about `encrypt`, `countNonZero`, `len`, `is_empty` -/

theorem encrypt_chars (w : List Nat) (p : Nat) :
    (encrypt w p).chars = w ++ List.replicate p 0 := rfl

theorem encrypt_padded_iff (w : List Nat) (p : Nat) :
    (encrypt w p).padded = true ↔ 0 < p ∨ w = [] := by
  simp [encrypt]

theorem countNonZero_go (l : List Nat) (acc : Nat) :
    l.foldl (fun acc c => acc + (if c = 0 then 0 else 1)) acc
      = acc + countNonZero l := by
  induction l generalizing acc with
  | nil => simp [countNonZero]
  | cons c l ih =>
    rw [countNonZero, List.foldl_cons, List.foldl_cons, ih, ih]
    omega

theorem countNonZero_append (l₁ l₂ : List Nat) :
    countNonZero (l₁ ++ l₂) = countNonZero l₁ + countNonZero l₂ := by
  rw [countNonZero, List.foldl_append, countNonZero_go, countNonZero_go]
  omega

theorem countNonZero_replicate_zero (p : Nat) :
    countNonZero (List.replicate p 0) = 0 := by
  induction p with
  | zero => rfl
  | succ p ih =>
    rw [List.replicate_succ, countNonZero, List.foldl_cons, countNonZero_go]
    simpa [countNonZero] using ih

theorem countNonZero_valid (w : List Nat) (hw : ValidChars w) :
    countNonZero w = w.length := by
  induction w with
  | nil => rfl
  | cons c l ih =>
    have hc := hw c (List.mem_cons_self c l)
    rw [countNonZero, List.foldl_cons, countNonZero_go]
    rw [ih (fun x hx => hw x (List.mem_cons_of_mem c hx))]
    rw [if_neg hc.1]
    simp [Nat.add_comm]

theorem countNonZero_encrypt (w : List Nat) (p : Nat) (hw : ValidChars w) :
    countNonZero (encrypt w p).chars = w.length := by
  rw [encrypt_chars, countNonZero_append, countNonZero_replicate_zero,
    countNonZero_valid w hw]
  omega

/-! ### C10: the clear-`n` guard of `SplitNInternal::next` -/

/-- `UIntArg` of the source: a clear or an encrypted (with public max) count. -/
inductive UIntArg where
  | Clear (n : Nat)
  | Enc (n : Nat) (max : Nat)
deriving Repr, DecidableEq

/-- The `uint_not_0` flag computed by `ServerKey::splitn_internal` and stored
as the iterator's initial `not_exceeded` value. -/
def uint_not_0 : UIntArg → Nat
  | .Clear v => if v ≠ 0 then 1 else 0
  | .Enc n _ => if n ≠ 0 then 1 else 0

/-- `u16` subtraction as evaluated in a checked (debug) build: `none` models
the underflow panic of `clear_n - 1`. -/
def checked_sub_u16 (a b : Nat) : Option Nat :=
  if b ≤ a then some (a - b) else none

/-- The guard `self.counter >= clear_n - 1` evaluated by
`SplitNInternal::next` in the `UIntArg::Clear` arm on every call. -/
def splitn_clear_guard (counter clear_n : Nat) : Option Bool :=
  (checked_sub_u16 clear_n 1).map (fun x => decide (x ≤ counter))

/-- **C10.** The guard `counter >= clear_n - 1` of `SplitNInternal::next`
evaluates without `u16` underflow exactly when `n ≥ 1`; for `n = 0` the
subtraction underflows (a panic in a checked build) even though
`splitn_internal` already initialised `not_exceeded` to an encrypted `0` for
`n = 0`, which forces every yielded present flag (`is_some AND not_exceeded`)
to `0`. -/
theorem claim10_splitn_clear_guard :
    (∀ counter n, 1 ≤ n →
      splitn_clear_guard counter n = some (decide (n - 1 ≤ counter))) ∧
    (∀ counter, splitn_clear_guard counter 0 = none) ∧
    uint_not_0 (UIntArg.Clear 0) = 0 ∧
    (∀ is_some : Nat, is_some &&& uint_not_0 (UIntArg.Clear 0) = 0) := by
  refine ⟨fun counter n hn => ?_, fun counter => rfl, rfl, fun i => ?_⟩
  · simp [splitn_clear_guard, checked_sub_u16, hn]
  · show i &&& 0 = 0
    simp

/-- Witness for C10 at `n = 3`, `counter = 0`. -/
theorem claim10_splitn_clear_guard_witness :
    splitn_clear_guard 0 3 = some (decide (3 - 1 ≤ 0)) :=
  claim10_splitn_clear_guard.1 0 3 (by decide)

/-! ### C6: the shared pattern pre-check `length_checks` -/

/-- `IsMatch` of the source (`Undecided` models the `IsMatch::None` arm). -/
inductive IsMatch where
  | Clear (b : Bool)
  | Cipher (v : Nat)
  | Undecided
deriving Repr, DecidableEq

/-- `ServerKey::length_checks`: decide a match from the public lengths and
padded flags alone, or hand over to the shifted compare (`Undecided`). -/
def length_checks (str pat : FheString) : IsMatch :=
  let patLen := pat.chars.length
  let strLen := str.chars.length
  if patLen = 0 ∨ (pat.padded = true ∧ patLen = 1) then .Clear true
  else if strLen = 0 ∨ (str.padded = true ∧ strLen = 1) then
    match is_empty pat with
    | .padding v => .Cipher v
    | .noPadding _ => .Clear false
  else if pat.padded = false then
    if str.padded = false ∧ strLen < patLen then .Clear false
    else if str.padded = true ∧ strLen ≤ patLen then .Clear false
    else .Undecided
  else .Undecided

/-- **C6.** `length_checks` decides from public data exactly as specified:
`Clear(true)` iff the pattern has capacity `0` or is padded with capacity
`1`; otherwise it delegates to `is_empty(pat)` (a `Cipher` when the pattern
is padded, `Clear(false)` otherwise) exactly when the string has capacity
`0` or is padded with capacity `1`; otherwise `Clear(false)` exactly when an
unpadded pattern is longer than an unpadded string or at least as long as a
padded string; `Undecided` (`IsMatch::None`) in every remaining case. -/
theorem claim6_length_checks (str pat : FheString) :
    (length_checks str pat = .Clear true ↔
      (pat.chars.length = 0 ∨ (pat.padded = true ∧ pat.chars.length = 1))) ∧
    (¬(pat.chars.length = 0 ∨ (pat.padded = true ∧ pat.chars.length = 1)) →
      (str.chars.length = 0 ∨ (str.padded = true ∧ str.chars.length = 1)) →
      length_checks str pat =
        (match is_empty pat with
         | .padding v => .Cipher v
         | .noPadding _ => .Clear false)) ∧
    ((∃ v, length_checks str pat = .Cipher v) ↔
      (¬(pat.chars.length = 0 ∨ (pat.padded = true ∧ pat.chars.length = 1)) ∧
       (str.chars.length = 0 ∨ (str.padded = true ∧ str.chars.length = 1)) ∧
       pat.padded = true)) ∧
    (¬(pat.chars.length = 0 ∨ (pat.padded = true ∧ pat.chars.length = 1)) →
      ¬(str.chars.length = 0 ∨ (str.padded = true ∧ str.chars.length = 1)) →
      (length_checks str pat = .Clear false ↔
        (pat.padded = false ∧
          ((str.padded = false ∧ str.chars.length < pat.chars.length) ∨
           (str.padded = true ∧ str.chars.length ≤ pat.chars.length))))) ∧
    (length_checks str pat = .Undecided ↔
      (¬(pat.chars.length = 0 ∨ (pat.padded = true ∧ pat.chars.length = 1)) ∧
       ¬(str.chars.length = 0 ∨ (str.padded = true ∧ str.chars.length = 1)) ∧
       ¬(pat.padded = false ∧
          ((str.padded = false ∧ str.chars.length < pat.chars.length) ∨
           (str.padded = true ∧ str.chars.length ≤ pat.chars.length))))) := by
  unfold length_checks
  by_cases hP : pat.chars.length = 0 ∨ (pat.padded = true ∧ pat.chars.length = 1)
  · rw [if_pos hP]
    refine ⟨iff_of_true rfl hP, fun h => absurd hP h, ?_, fun h => absurd hP h, ?_⟩
    · exact iff_of_false (by rintro ⟨v, h⟩; cases h) (by tauto)
    · exact iff_of_false (by rintro h; cases h) (by tauto)
  · rw [if_neg hP]
    by_cases hS : str.chars.length = 0 ∨ (str.padded = true ∧ str.chars.length = 1)
    · rw [if_pos hS]
      by_cases hpp : pat.padded = true
      · have hie : is_empty pat
            = .padding (if countNonZero pat.chars = 0 then 1 else 0) := by
          simp [is_empty, hpp]
        rw [hie]
        refine ⟨iff_of_false (by rintro h; cases h) (by tauto),
          fun _ _ => rfl, ?_, fun _ h => absurd hS h, ?_⟩
        · exact iff_of_true ⟨_, rfl⟩ ⟨hP, hS, hpp⟩
        · exact iff_of_false (by rintro h; cases h) (by tauto)
      · have hpf : pat.padded = false := by
          revert hpp; cases pat.padded <;> simp
        have hie : is_empty pat = .noPadding (pat.chars.length == 0) := by
          simp [is_empty, hpf]
        rw [hie]
        refine ⟨iff_of_false (by rintro h; cases h) (by tauto),
          fun _ _ => rfl, ?_, fun _ h => absurd hS h, ?_⟩
        · exact iff_of_false (by rintro ⟨v, h⟩; cases h) (by tauto)
        · exact iff_of_false (by rintro h; cases h) (by tauto)
    · rw [if_neg hS]
      by_cases hpp : pat.padded = false
      · rw [if_pos hpp]
        by_cases h1 : str.padded = false ∧ str.chars.length < pat.chars.length
        · rw [if_pos h1]
          refine ⟨iff_of_false (by rintro h; cases h) (by tauto),
            fun _ h => absurd h hS, ?_, fun _ _ => ?_, ?_⟩
          · exact iff_of_false (by rintro ⟨v, h⟩; cases h) (by tauto)
          · exact iff_of_true rfl ⟨hpp, Or.inl h1⟩
          · exact iff_of_false (by rintro h; cases h) (by tauto)
        · rw [if_neg h1]
          by_cases h2 : str.padded = true ∧ str.chars.length ≤ pat.chars.length
          · rw [if_pos h2]
            refine ⟨iff_of_false (by rintro h; cases h) (by tauto),
              fun _ h => absurd h hS, ?_, fun _ _ => ?_, ?_⟩
            · exact iff_of_false (by rintro ⟨v, h⟩; cases h) (by tauto)
            · exact iff_of_true rfl ⟨hpp, Or.inr h2⟩
            · exact iff_of_false (by rintro h; cases h) (by tauto)
          · rw [if_neg h2]
            refine ⟨iff_of_false (by rintro h; cases h) (by tauto),
              fun _ h => absurd h hS, ?_, fun _ _ => ?_, ?_⟩
            · exact iff_of_false (by rintro ⟨v, h⟩; cases h) (by tauto)
            · exact iff_of_false (by rintro h; cases h) (by tauto)
            · exact iff_of_true rfl ⟨hP, hS, by tauto⟩
      · have hpp' : pat.padded = true := by
          cases h : pat.padded
          · exact absurd h hpp
          · rfl
        rw [if_neg hpp]
        refine ⟨iff_of_false (by rintro h; cases h) (by tauto),
          fun _ h => absurd h hS, ?_, fun _ _ => ?_, ?_⟩
        · exact iff_of_false (by rintro ⟨v, h⟩; cases h) (by tauto)
        · exact iff_of_false (by rintro h; cases h) (by simp [hpp'])
        · exact iff_of_true rfl ⟨hP, hS, by simp [hpp']⟩

/-- Witness for C6 on concrete strings exercising the guarded conjuncts. -/
theorem claim6_length_checks_witness :
    length_checks ⟨[97], false⟩ ⟨[98, 99], false⟩ = .Clear false :=
  ((claim6_length_checks ⟨[97], false⟩ ⟨[98, 99], false⟩).2.2.2.1
    (by decide) (by decide)).2 (by decide)

/-! ### `charAt` shape lemmas -/

theorem charAt_append_replicate (w : List Nat) (p i : Nat) :
    charAt (w ++ List.replicate p 0) i = if i < w.length then charAt w i else 0 := by
  unfold charAt
  by_cases h : i < w.length
  · rw [List.getD_append _ _ _ _ h, if_pos h]
  · rw [if_neg h, List.getD_append_right _ _ _ _ (le_of_not_lt h)]
    rw [List.getD_eq_getElem?_getD, List.getElem?_replicate]
    split <;> simp

theorem charAt_append_null (w : List Nat) (i : Nat) :
    charAt (w ++ [0]) i = if i < w.length then charAt w i else 0 := by
  have : w ++ [0] = w ++ List.replicate 1 0 := rfl
  rw [this, charAt_append_replicate]

theorem charAt_of_length_le (l : List Nat) (i : Nat) (h : l.length ≤ i) :
    charAt l i = 0 :=
  List.getD_eq_default _ _ h

theorem charAt_eq_getElem (l : List Nat) (i : Nat) (h : i < l.length) :
    charAt l i = l[i] := by
  unfold charAt
  rw [List.getD_eq_getElem?_getD, List.getElem?_eq_getElem h]
  rfl

theorem charAt_valid_ne_zero (w : List Nat) (hw : ValidChars w) (i : Nat)
    (h : i < w.length) : charAt w i ≠ 0 := by
  rw [charAt_eq_getElem w i h]
  exact (hw _ (List.getElem_mem h)).1

theorem eq_of_charAt_eq (w v : List Nat) (hlen : w.length = v.length)
    (h : ∀ i < w.length, charAt w i = charAt v i) : w = v := by
  apply List.ext_getElem hlen
  intro i h1 h2
  have := h i h1
  rwa [charAt_eq_getElem w i h1, charAt_eq_getElem v i h2] at this

/-- Agreement of two NUL-extended views on their zipped prefix is equivalent
to equality of the underlying contents, as long as at least one of the views
sticks out past its content (or both contents fit the compared prefix). -/
theorem content_eq_iff (w v X Y : List Nat) (hw : ValidChars w) (hv : ValidChars v)
    (hX : ∀ i, charAt X i = if i < w.length then charAt w i else 0)
    (hY : ∀ i, charAt Y i = if i < v.length then charAt v i else 0)
    (hK : (w.length ≤ min X.length Y.length ∧ v.length ≤ min X.length Y.length) ∨
          w.length < min X.length Y.length ∨ v.length < min X.length Y.length) :
    (∀ i < min X.length Y.length, charAt X i = charAt Y i) ↔ w = v := by
  constructor
  · intro h
    rcases lt_trichotomy w.length v.length with hlt | heq | hgt
    · exfalso
      have hiK : w.length < min X.length Y.length := by
        rcases hK with ⟨h1, h2⟩ | h1 | h1 <;> omega
      have hc := h w.length hiK
      rw [hX, hY, if_neg (lt_irrefl _), if_pos hlt] at hc
      exact charAt_valid_ne_zero v hv _ hlt hc.symm
    · apply eq_of_charAt_eq w v heq
      intro i hi
      have hiK : i < min X.length Y.length := by
        rcases hK with ⟨h1, h2⟩ | h1 | h1 <;> omega
      have hc := h i hiK
      rwa [hX, hY, if_pos hi, if_pos (heq ▸ hi)] at hc
    · exfalso
      have hiK : v.length < min X.length Y.length := by
        rcases hK with ⟨h1, h2⟩ | h1 | h1 <;> omega
      have hc := h v.length hiK
      rw [hX, hY, if_pos hgt, if_neg (lt_irrefl _)] at hc
      exact charAt_valid_ne_zero w hw _ hgt hc
  · rintro rfl i hi
    rw [hX, hY]

/-! ### C1: `ServerKey::eq` and `ServerKey::ne` -/

/-- `ServerKey::eq_length_checks`: decide equality from the public lengths
and padded flags when possible. -/
def eq_length_checks (lhs rhs : FheString) : Option Nat :=
  if lhs.chars.length = 0 ∨ (lhs.padded = true ∧ lhs.chars.length = 1) then
    match is_empty rhs with
    | .padding v => some v
    | .noPadding b => some (if b then 1 else 0)
  else if rhs.chars.length = 0 ∨ (rhs.padded = true ∧ rhs.chars.length = 1) then
    match is_empty lhs with
    | .padding v => some v
    | .noPadding _ => some 0
  else if (lhs.padded = false ∧ rhs.padded = false) ∧ lhs.chars.length ≠ rhs.chars.length then
    some 0
  else if ((lhs.padded = false ∧ rhs.padded = true) ∧ rhs.chars.length ≤ lhs.chars.length) ∨
          ((rhs.padded = false ∧ lhs.padded = true) ∧ lhs.chars.length ≤ rhs.chars.length) then
    some 0
  else
    none

/-- `ServerKey::eq`: run the public pre-checks, then compare character-wise,
appending one NUL to an unpadded side that is strictly shorter than the
other side minus one. -/
def eq (lhs rhs : FheString) : Nat :=
  match eq_length_checks lhs rhs with
  | some v => v
  | none =>
    asciis_eq
      (if lhs.padded = false ∧ lhs.chars.length < rhs.chars.length - 1
        then lhs.chars ++ [0] else lhs.chars)
      (if rhs.padded = false ∧ rhs.chars.length < lhs.chars.length - 1
        then rhs.chars ++ [0] else rhs.chars)

/-- `ServerKey::ne`: `eq XOR 1`. -/
def ne (lhs rhs : FheString) : Nat :=
  eq lhs rhs ^^^ 1

theorem is_empty_padding_val (fs : FheString) (v : Nat)
    (h : is_empty fs = .padding v) : v = 0 ∨ v = 1 := by
  unfold is_empty at h
  split at h
  · cases h
    split <;> simp
  · cases h

theorem eq_length_checks_values (lhs rhs : FheString) (v : Nat)
    (h : eq_length_checks lhs rhs = some v) : v = 0 ∨ v = 1 := by
  unfold eq_length_checks at h
  split_ifs at h
  · cases he : is_empty rhs with
    | noPadding b => rw [he] at h; cases h; split <;> simp
    | padding u =>
      rw [he] at h
      cases h
      exact is_empty_padding_val rhs _ he
  · cases he : is_empty lhs with
    | noPadding b => rw [he] at h; cases h; simp
    | padding u =>
      rw [he] at h
      cases h
      exact is_empty_padding_val lhs _ he
  · cases h; simp
  · cases h; simp

theorem eq_zero_or_one (lhs rhs : FheString) :
    eq lhs rhs = 0 ∨ eq lhs rhs = 1 := by
  unfold eq
  cases h : eq_length_checks lhs rhs with
  | none => exact asciis_eq_zero_or_one _ _
  | some v => exact eq_length_checks_values lhs rhs v h

theorem ne_negation (lhs rhs : FheString) : ne lhs rhs = 1 - eq lhs rhs := by
  unfold ne
  rcases eq_zero_or_one lhs rhs with h | h <;> rw [h] <;> rfl

theorem encrypt_length (w : List Nat) (p : Nat) :
    (encrypt w p).chars.length = w.length + p := by
  simp [encrypt]

theorem encrypt_chars_zero (w : List Nat) : (encrypt w 0).chars = w := by
  simp [encrypt]

theorem encrypt_padded_false_iff (w : List Nat) (p : Nat) :
    (encrypt w p).padded = false ↔ p = 0 ∧ w ≠ [] := by
  simp [encrypt]

theorem encrypt_charAt (w : List Nat) (p : Nat) :
    ∀ i, charAt (encrypt w p).chars i = if i < w.length then charAt w i else 0 :=
  fun i => charAt_append_replicate w p i

theorem charAt_self_shape (w : List Nat) :
    ∀ i, charAt w i = if i < w.length then charAt w i else 0 := by
  intro i
  by_cases h : i < w.length
  · rw [if_pos h]
  · rw [if_neg h, charAt_of_length_le w i (le_of_not_lt h)]

theorem is_empty_encrypt_of_padded (w : List Nat) (p : Nat) (hw : ValidChars w)
    (hp : (encrypt w p).padded = true) :
    is_empty (encrypt w p) = .padding (if w.length = 0 then 1 else 0) := by
  unfold is_empty
  rw [hp, if_pos rfl, countNonZero_encrypt w p hw]

theorem is_empty_encrypt_of_unpadded (w : List Nat) (p : Nat)
    (hp : (encrypt w p).padded = false) :
    is_empty (encrypt w p) = .noPadding ((w.length + p) == 0) := by
  unfold is_empty
  rw [hp]
  simp [encrypt_length]

/-- The character-compare step of the main `eq` path decides plaintext
equality, provided the two compared views have the shapes guaranteed by the
pre-checks. -/
theorem asciis_eq_decides (s t X Y : List Nat) (hs : ValidChars s)
    (ht : ValidChars t)
    (hX : ∀ i, charAt X i = if i < s.length then charAt s i else 0)
    (hY : ∀ i, charAt Y i = if i < t.length then charAt t i else 0)
    (hK : (s.length ≤ min X.length Y.length ∧ t.length ≤ min X.length Y.length) ∨
          s.length < min X.length Y.length ∨ t.length < min X.length Y.length) :
    asciis_eq X Y = if s = t then 1 else 0 := by
  have hiff := (asciis_eq_eq_one_iff_charAt X Y).trans
    (content_eq_iff s t X Y hs ht hX hY hK)
  by_cases hst : s = t
  · rw [if_pos hst]
    exact hiff.2 hst
  · rw [if_neg hst]
    rcases asciis_eq_zero_or_one X Y with h | h
    · exact h
    · exact absurd (hiff.1 h) hst

/-- **C1.** For all ASCII plaintexts without interior NULs and all padding
choices, `eq` on the encryptions decrypts to exactly `s = t` (including the
NUL-extension cases for an unpadded side strictly shorter than the padded
side minus one), and `ne` always decrypts to the negation of `eq`. -/
theorem claim1_eq_exact (s t : List Nat) (hs : ValidChars s) (ht : ValidChars t)
    (ps pt : Nat) :
    eq (encrypt s ps) (encrypt t pt) = (if s = t then 1 else 0) ∧
    ne (encrypt s ps) (encrypt t pt) = 1 - eq (encrypt s ps) (encrypt t pt) := by
  refine ⟨?_, ne_negation _ _⟩
  by_cases hA : (encrypt s ps).chars.length = 0 ∨
      ((encrypt s ps).padded = true ∧ (encrypt s ps).chars.length = 1)
  · -- the left side is an empty plaintext
    have hsnil : s = [] := by
      rcases hA with h | ⟨hp, h1⟩
      · rw [encrypt_length] at h
        exact List.length_eq_zero.1 (by omega)
      · rw [encrypt_padded_iff] at hp
        rw [encrypt_length] at h1
        rcases hp with hp | hp
        · exact List.length_eq_zero.1 (by omega)
        · exact hp
    subst hsnil
    have heq : eq (encrypt [] ps) (encrypt t pt)
        = match is_empty (encrypt t pt) with
          | .padding v => v
          | .noPadding b => if b then 1 else 0 := by
      unfold eq
      have h2 : eq_length_checks (encrypt [] ps) (encrypt t pt)
          = match is_empty (encrypt t pt) with
            | .padding v => some v
            | .noPadding b => some (if b then 1 else 0) := by
        unfold eq_length_checks
        rw [if_pos hA]
      rw [h2]
      cases is_empty (encrypt t pt) <;> rfl
    rw [heq]
    by_cases hYp : (encrypt t pt).padded = true
    · rw [is_empty_encrypt_of_padded t pt ht hYp]
      by_cases htnil : t = []
      · subst htnil; simp
      · rw [if_neg (fun h : t.length = 0 => htnil (List.length_eq_zero.1 h)),
          if_neg (fun h : ([] : List Nat) = t => htnil h.symm)]
    · have hYf : (encrypt t pt).padded = false := by
        cases h : (encrypt t pt).padded
        · rfl
        · exact absurd h hYp
      have hpt := (encrypt_padded_false_iff t pt).1 hYf
      rw [is_empty_encrypt_of_unpadded t pt hYf]
      have htne : t ≠ [] := hpt.2
      have hb : ((t.length + pt) == 0) = false := by
        have ht0 : t.length ≠ 0 := fun h => htne (List.length_eq_zero.1 h)
        exact beq_eq_false_iff_ne.2 (by omega)
      rw [hb, if_neg (fun h : ([] : List Nat) = t => htne h.symm)]
      rfl
  · by_cases hB : (encrypt t pt).chars.length = 0 ∨
        ((encrypt t pt).padded = true ∧ (encrypt t pt).chars.length = 1)
    · -- the right side is an empty plaintext, the left is not length-empty
      have htnil : t = [] := by
        rcases hB with h | ⟨hp, h1⟩
        · rw [encrypt_length] at h
          exact List.length_eq_zero.1 (by omega)
        · rw [encrypt_padded_iff] at hp
          rw [encrypt_length] at h1
          rcases hp with hp | hp
          · exact List.length_eq_zero.1 (by omega)
          · exact hp
      subst htnil
      have heq : eq (encrypt s ps) (encrypt [] pt)
          = match is_empty (encrypt s ps) with
            | .padding v => v
            | .noPadding _ => 0 := by
        unfold eq
        have h2 : eq_length_checks (encrypt s ps) (encrypt [] pt)
            = match is_empty (encrypt s ps) with
              | .padding v => some v
              | .noPadding _ => some 0 := by
          unfold eq_length_checks
          rw [if_neg hA, if_pos hB]
        rw [h2]
        cases is_empty (encrypt s ps) <;> rfl
      rw [heq]
      by_cases hXp : (encrypt s ps).padded = true
      · rw [is_empty_encrypt_of_padded s ps hs hXp]
        by_cases hsnil : s = []
        · subst hsnil; simp
        · rw [if_neg (fun h : s.length = 0 => hsnil (List.length_eq_zero.1 h)),
            if_neg hsnil]
      · have hXf : (encrypt s ps).padded = false := by
          cases h : (encrypt s ps).padded
          · rfl
          · exact absurd h hXp
        have hps := (encrypt_padded_false_iff s ps).1 hXf
        rw [is_empty_encrypt_of_unpadded s ps hXf]
        rw [if_neg hps.2]
    · -- neither side is an empty plaintext: the remaining pre-checks
      by_cases hC : ((encrypt s ps).padded = false ∧ (encrypt t pt).padded = false) ∧
          (encrypt s ps).chars.length ≠ (encrypt t pt).chars.length
      · -- both unpadded with different capacities: clearly unequal
        have heq : eq (encrypt s ps) (encrypt t pt) = 0 := by
          unfold eq
          have h2 : eq_length_checks (encrypt s ps) (encrypt t pt) = some 0 := by
            unfold eq_length_checks
            rw [if_neg hA, if_neg hB, if_pos hC]
          rw [h2]
        rw [heq]
        have hps0 := ((encrypt_padded_false_iff s ps).1 hC.1.1).1
        have hpt0 := ((encrypt_padded_false_iff t pt).1 hC.1.2).1
        have hlen := hC.2
        rw [encrypt_length, encrypt_length, hps0, hpt0] at hlen
        rw [if_neg (fun h : s = t => hlen (by rw [h]))]
      · by_cases hD : (((encrypt s ps).padded = false ∧ (encrypt t pt).padded = true) ∧
            (encrypt t pt).chars.length ≤ (encrypt s ps).chars.length) ∨
            (((encrypt t pt).padded = false ∧ (encrypt s ps).padded = true) ∧
            (encrypt s ps).chars.length ≤ (encrypt t pt).chars.length)
        · -- one unpadded, the other padded but not longer: clearly unequal
          have heq : eq (encrypt s ps) (encrypt t pt) = 0 := by
            unfold eq
            have h2 : eq_length_checks (encrypt s ps) (encrypt t pt) = some 0 := by
              unfold eq_length_checks
              rw [if_neg hA, if_neg hB, if_neg hC, if_pos hD]
            rw [h2]
          rw [heq]
          have hne : s.length ≠ t.length := by
            rcases hD with ⟨⟨hxf, hyp⟩, hle⟩ | ⟨⟨hyf, hxp⟩, hle⟩
            · have hps0 := ((encrypt_padded_false_iff s ps).1 hxf).1
              have hy := (encrypt_padded_iff t pt).1 hyp
              rw [encrypt_length, encrypt_length, hps0] at hle
              have hB1 : (encrypt t pt).chars.length ≠ 0 := fun h => hB (Or.inl h)
              rw [encrypt_length] at hB1
              rcases hy with hy | hy
              · omega
              · subst hy
                have hsne := ((encrypt_padded_false_iff s ps).1 hxf).2
                have hs0 : s.length ≠ 0 := fun h => hsne (List.length_eq_zero.1 h)
                simpa using hs0
            · have hpt0 := ((encrypt_padded_false_iff t pt).1 hyf).1
              have hx := (encrypt_padded_iff s ps).1 hxp
              rw [encrypt_length, encrypt_length, hpt0] at hle
              have hA1 : (encrypt s ps).chars.length ≠ 0 := fun h => hA (Or.inl h)
              rw [encrypt_length] at hA1
              rcases hx with hx | hx
              · omega
              · subst hx
                have htne := ((encrypt_padded_false_iff t pt).1 hyf).2
                have ht0 : t.length ≠ 0 := fun h => htne (List.length_eq_zero.1 h)
                simpa using fun h => ht0 h.symm
          rw [if_neg (fun h : s = t => hne (by rw [h]))]
        · -- main path: character compare with the pre-check facts
          have hnone : eq_length_checks (encrypt s ps) (encrypt t pt) = none := by
            unfold eq_length_checks
            rw [if_neg hA, if_neg hB, if_neg hC, if_neg hD]
          unfold eq
          rw [hnone]
          show asciis_eq _ _ = _
          have hA1 : (encrypt s ps).chars.length ≠ 0 := fun h => hA (Or.inl h)
          have hB1 : (encrypt t pt).chars.length ≠ 0 := fun h => hB (Or.inl h)
          by_cases px : (encrypt s ps).padded = true
          · by_cases py : (encrypt t pt).padded = true
            · -- both padded: no NUL extension on either side
              rw [if_neg (by rw [px]; rintro ⟨h, -⟩; cases h),
                if_neg (by rw [py]; rintro ⟨h, -⟩; cases h)]
              have hsx : s.length < (encrypt s ps).chars.length := by
                rcases (encrypt_padded_iff s ps).1 px with h | h
                · rw [encrypt_length]; omega
                · subst h; rw [encrypt_length] at hA1 ⊢; simp at *; omega
              have htx : t.length < (encrypt t pt).chars.length := by
                rcases (encrypt_padded_iff t pt).1 py with h | h
                · rw [encrypt_length]; omega
                · subst h; rw [encrypt_length] at hB1 ⊢; simp at *; omega
              exact asciis_eq_decides s t _ _ hs ht (encrypt_charAt s ps)
                (encrypt_charAt t pt) (by omega)
            · -- s padded, t unpadded: only t may get the extra NUL
              have hyf : (encrypt t pt).padded = false := by
                cases h : (encrypt t pt).padded
                · rfl
                · exact absurd h py
              have hpt := (encrypt_padded_false_iff t pt).1 hyf
              have l2 : (encrypt t pt).chars.length = t.length := by
                rw [encrypt_length, hpt.1]
                omega
              have hgt : (encrypt s ps).chars.length > (encrypt t pt).chars.length := by
                have h2 : ¬((encrypt s ps).chars.length ≤ (encrypt t pt).chars.length) :=
                  fun hle => hD (Or.inr ⟨⟨hyf, px⟩, hle⟩)
                omega
              have hsx : s.length < (encrypt s ps).chars.length := by
                rcases (encrypt_padded_iff s ps).1 px with h | h
                · rw [encrypt_length]; omega
                · subst h; rw [encrypt_length] at hA1 ⊢; simp at *; omega
              rw [if_neg (by rw [px]; rintro ⟨h, -⟩; cases h)]
              by_cases he2 : (encrypt t pt).padded = false ∧
                  (encrypt t pt).chars.length < (encrypt s ps).chars.length - 1
              · rw [if_pos he2]
                refine asciis_eq_decides s t _ _ hs ht (encrypt_charAt s ps)
                  (fun i => ?_) ?_
                · have hch : (encrypt t pt).chars ++ [0] = t ++ [0] := by
                    rw [hpt.1, encrypt_chars_zero]
                  rw [hch, charAt_append_null]
                · have hcond := he2.2
                  rw [l2] at hcond
                  simp only [List.length_append, List.length_singleton, l2]
                  omega
              · rw [if_neg he2]
                refine asciis_eq_decides s t _ _ hs ht (encrypt_charAt s ps)
                  (fun i => ?_) ?_
                · rw [hpt.1, encrypt_chars_zero, ← charAt_self_shape]
                · have hcond : ¬((encrypt t pt).chars.length <
                      (encrypt s ps).chars.length - 1) := fun h => he2 ⟨hyf, h⟩
                  rw [hpt.1, encrypt_chars_zero]
                  rw [l2] at hcond hgt
                  omega
          · have hxf : (encrypt s ps).padded = false := by
              cases h : (encrypt s ps).padded
              · rfl
              · exact absurd h px
            have hps := (encrypt_padded_false_iff s ps).1 hxf
            have l1 : (encrypt s ps).chars.length = s.length := by
              rw [encrypt_length, hps.1]
              omega
            by_cases py : (encrypt t pt).padded = true
            · -- s unpadded, t padded: only s may get the extra NUL
              have hgt2 : (encrypt s ps).chars.length < (encrypt t pt).chars.length := by
                have h2 : ¬((encrypt t pt).chars.length ≤ (encrypt s ps).chars.length) :=
                  fun hle => hD (Or.inl ⟨⟨hxf, py⟩, hle⟩)
                omega
              have htlen : 0 < pt ∨ t.length = 0 := by
                rcases (encrypt_padded_iff t pt).1 py with h | h
                · exact Or.inl h
                · exact Or.inr (by rw [h]; rfl)
              have hne2 : ¬((encrypt t pt).padded = false ∧
                  (encrypt t pt).chars.length < (encrypt s ps).chars.length - 1) := by
                rw [py]; rintro ⟨h, -⟩; cases h
              rw [if_neg hne2]
              by_cases he1 : (encrypt s ps).padded = false ∧
                  (encrypt s ps).chars.length < (encrypt t pt).chars.length - 1
              · rw [if_pos he1]
                refine asciis_eq_decides s t _ _ hs ht (fun i => ?_) 
                  (encrypt_charAt t pt) ?_
                · have hch : (encrypt s ps).chars ++ [0] = s ++ [0] := by
                    rw [hps.1, encrypt_chars_zero]
                  rw [hch, charAt_append_null]
                · have hcond := he1.2
                  rw [l1, encrypt_length] at hcond
                  simp only [List.length_append, List.length_singleton, l1,
                    encrypt_length]
                  omega
              · rw [if_neg he1]
                refine asciis_eq_decides s t _ _ hs ht (fun i => ?_)
                  (encrypt_charAt t pt) ?_
                · rw [hps.1, encrypt_chars_zero, ← charAt_self_shape]
                · have hcond : ¬((encrypt s ps).chars.length <
                      (encrypt t pt).chars.length - 1) := fun h => he1 ⟨hxf, h⟩
                  rw [hps.1, encrypt_chars_zero]
                  rw [l1, encrypt_length] at hcond hgt2
                  rw [encrypt_length]
                  omega
            · -- both unpadded: equal capacities, no extensions
              have hyf : (encrypt t pt).padded = false := by
                cases h : (encrypt t pt).padded
                · rfl
                · exact absurd h py
              have hpt := (encrypt_padded_false_iff t pt).1 hyf
              have l2 : (encrypt t pt).chars.length = t.length := by
                rw [encrypt_length, hpt.1]
                omega
              have hlen : (encrypt s ps).chars.length = (encrypt t pt).chars.length := by
                have h2 : ¬((encrypt s ps).chars.length ≠ (encrypt t pt).chars.length) :=
                  fun hne => hC ⟨⟨hxf, hyf⟩, hne⟩
                omega
              rw [if_neg (by rintro ⟨-, h⟩; omega), if_neg (by rintro ⟨-, h⟩; omega)]
              refine asciis_eq_decides s t _ _ hs ht (fun i => ?_) (fun i => ?_) ?_
              · rw [hps.1, encrypt_chars_zero, ← charAt_self_shape]
              · rw [hpt.1, encrypt_chars_zero, ← charAt_self_shape]
              · rw [hps.1, encrypt_chars_zero, hpt.1, encrypt_chars_zero]
                rw [l1, l2] at hlen
                omega

/-! ### C5: whole-string shifts by an encrypted number of characters -/

/-- MSB-first base-256 packing of a character list. -/
def packList (l : List Nat) : Nat :=
  l.foldl (fun acc c => acc * 256 + c) 0

/-- Modelled from the spec: `to_uint` packs the characters MSB-first into one
wide integer (the `ciphertext` module is absent from the sources). -/
def to_uint (fs : FheString) : Nat :=
  packList fs.chars

/-- Modelled from the spec: `from_uint` unpacks a wide integer of `n · 4`
blocks back into `n` characters, MSB-first, with the `padded` flag unset
(the `ciphertext` module is absent from the sources). -/
def from_uint (v : Nat) (n : Nat) : FheString :=
  ⟨(List.range n).map (fun i => v / 256 ^ (n - 1 - i) % 256), false⟩

/-- `ServerKey::pad_or_trim_ciphertext` on cleartext values: trimming MSB
blocks reduces the value modulo the remaining width (2 bits per block),
extending with trivial zero blocks keeps it. -/
def pad_or_trim_val (v : Nat) (fromBlocks toBlocks : Nat) : Nat :=
  if toBlocks < fromBlocks then v % 2 ^ (2 * toBlocks) else v

/-- `ServerKey::left_shift_chars`: multiply the shift by 8 in its own
`2·B`-bit width (`B` blocks, 16 throughout the library), pad or trim it to
the packed width, shift, and zero the result when the reduced amount reaches
the packed bit length. -/
def left_shift_chars (str : FheString) (shift : Nat) (B : Nat) : FheString :=
  if 8 * str.chars.length ≤
      pad_or_trim_val (8 * shift % 2 ^ (2 * B)) B (4 * str.chars.length) then
    from_uint 0 str.chars.length
  else
    from_uint
      (to_uint str *
        2 ^ pad_or_trim_val (8 * shift % 2 ^ (2 * B)) B (4 * str.chars.length) %
        2 ^ (8 * str.chars.length))
      str.chars.length

/-- `ServerKey::right_shift_chars`: as `left_shift_chars` with the packed
integer shifted right. -/
def right_shift_chars (str : FheString) (shift : Nat) (B : Nat) : FheString :=
  if 8 * str.chars.length ≤
      pad_or_trim_val (8 * shift % 2 ^ (2 * B)) B (4 * str.chars.length) then
    from_uint 0 str.chars.length
  else
    from_uint
      (to_uint str /
        2 ^ pad_or_trim_val (8 * shift % 2 ^ (2 * B)) B (4 * str.chars.length))
      str.chars.length

/-- **C5 (counterexample).** With capacity `N = 1` and the library's 16-block
shift amount, `k = 32 ≥ N` does not saturate to the all-zero string: the
scaled amount `8·32 = 256` wraps to `0` when trimmed to the packed 8-bit
width, so the string comes back unchanged. -/
theorem claim5_counterexample :
    (encrypt [65] 0).chars.length ≤ 32 ∧
    left_shift_chars (encrypt [65] 0) 32 16
      ≠ from_uint 0 (encrypt [65] 0).chars.length := by
  decide

/-- The reduced shift amount equals `8·k` whenever the scaled amount fits
both the shift ciphertext width and the packed width. -/
theorem pad_or_trim_val_small (k B n : Nat)
    (hk : 8 * k < 2 ^ min (2 * B) (8 * n)) :
    pad_or_trim_val (8 * k % 2 ^ (2 * B)) B (4 * n) = 8 * k := by
  have h2B : 8 * k < 2 ^ (2 * B) :=
    lt_of_lt_of_le hk (Nat.pow_le_pow_right (by omega) (min_le_left _ _))
  have h8n : 8 * k < 2 ^ (8 * n) :=
    lt_of_lt_of_le hk (Nat.pow_le_pow_right (by omega) (min_le_right _ _))
  rw [Nat.mod_eq_of_lt h2B]
  unfold pad_or_trim_val
  split
  · have : 2 * (4 * n) = 8 * n := by omega
    rw [this, Nat.mod_eq_of_lt h8n]
  · rfl

/-- The no-wrap behaviour of the two character shifts (shared helper). -/
theorem shift_chars_spec (str : FheString) (k B : Nat)
    (hk : 8 * k < 2 ^ min (2 * B) (8 * str.chars.length)) :
    left_shift_chars str k B =
      (if k < str.chars.length
        then from_uint (to_uint str * 2 ^ (8 * k) % 2 ^ (8 * str.chars.length))
          str.chars.length
        else from_uint 0 str.chars.length) ∧
    right_shift_chars str k B =
      (if k < str.chars.length
        then from_uint (to_uint str / 2 ^ (8 * k)) str.chars.length
        else from_uint 0 str.chars.length) := by
  have hv := pad_or_trim_val_small k B str.chars.length hk
  constructor
  · unfold left_shift_chars
    rw [hv]
    by_cases h : k < str.chars.length
    · rw [if_neg (by omega), if_pos h]
    · rw [if_pos (by omega), if_neg h]
  · unfold right_shift_chars
    rw [hv]
    by_cases h : k < str.chars.length
    · rw [if_neg (by omega), if_pos h]
    · rw [if_pos (by omega), if_neg h]

/-- **C5 (amended).** `left_shift_chars` and `right_shift_chars` return the
packed string shifted by `8·k` bits for `k < N` and the all-zero string for
`k ≥ N`, *provided* the scaled amount `8·k` does not wrap, i.e.
`8·k < 2^min(2·B, 8·N)`; beyond that bound the HE shift-amount arithmetic
wraps and saturation can fail (cf. the counterexample). -/
theorem claim5_shift_chars_amended (str : FheString) (k B : Nat)
    (hk : 8 * k < 2 ^ min (2 * B) (8 * str.chars.length)) :
    left_shift_chars str k B =
      (if k < str.chars.length
        then from_uint (to_uint str * 2 ^ (8 * k) % 2 ^ (8 * str.chars.length))
          str.chars.length
        else from_uint 0 str.chars.length) ∧
    right_shift_chars str k B =
      (if k < str.chars.length
        then from_uint (to_uint str / 2 ^ (8 * k)) str.chars.length
        else from_uint 0 str.chars.length) :=
  shift_chars_spec str k B hk

/-- Witness for the amended C5 at concrete inputs (both a proper shift and a
saturating one). -/
theorem claim5_shift_chars_amended_witness :
    left_shift_chars (encrypt [65, 66] 0) 1 16
      = from_uint (to_uint (encrypt [65, 66] 0) * 2 ^ 8 % 2 ^ 16) 2 ∧
    left_shift_chars (encrypt [65, 66] 0) 2 16 = from_uint 0 2 := by
  constructor
  · have h := (claim5_shift_chars_amended (encrypt [65, 66] 0) 1 16 (by decide)).1
    rw [h, if_pos (by decide)]
    rfl
  · have h := (claim5_shift_chars_amended (encrypt [65, 66] 0) 2 16 (by decide)).1
    rw [h, if_neg (by decide)]
    rfl

/-! ### C3/C4: the pattern-search kernel `find` / `rfind` -/

/-- `ServerKey::contains_cases`: the string view, the pattern view and the
enumerated alignments, by padding combination.  A padded pattern drops its
last (known-NUL) slot; an unpadded string compared against a padded pattern
is extended with one NUL. -/
def contains_cases (str pat : FheString) : List Nat × List Nat × List Nat :=
  if pat.padded = false then
    (str.chars, pat.chars,
      List.range (str.chars.length - pat.chars.length -
        (if str.padded then 1 else 0) + 1))
  else if str.padded = true then
    (str.chars, pat.chars.take (pat.chars.length - 1),
      List.range (str.chars.length - 1))
  else
    (str.chars ++ [0], pat.chars.take (pat.chars.length - 1),
      List.range str.chars.length)

/-- The per-alignment match bit of the shifted compare. -/
def matchBit (strV patV : List Nat) (ignorePatPad : Bool) (start : Nat) : Nat :=
  if ignorePatPad then asciis_eq_ignore_pat_pad (strV.drop start) patV
  else asciis_eq (strV.drop start) patV

theorem matchBit_zero_or_one (strV patV : List Nat) (ip : Bool) (start : Nat) :
    matchBit strV patV ip start = 0 ∨ matchBit strV patV ip start = 1 := by
  unfold matchBit
  cases ip
  · simpa using asciis_eq_zero_or_one (strV.drop start) patV
  · simpa using asciis_eq_ignore_pat_pad_zero_or_one (strV.drop start) patV

/-- `ServerKey::compare_shifted_index`: compute every per-alignment match
bit, then fold them in the given order, multiplexing the running index and
OR-ing the found bit. -/
def compare_shifted_index (strV patV : List Nat) (idxs : List Nat)
    (ignorePatPad : Bool) : Nat × Nat :=
  (idxs.map (fun start => (start, matchBit strV patV ignorePatPad start))).foldl
    (fun acc p => (selectN p.2 p.1 acc.1, acc.2 ||| p.2)) (0, 0)

/-- `ServerKey::find`: pre-checks, then the shifted compare over the
alignments in descending order (so the first match wins the multiplexing). -/
def find (str pat : FheString) : Nat × Nat :=
  match length_checks str pat with
  | .Clear v => (0, if v then 1 else 0)
  | .Cipher v => (0, v)
  | .Undecided =>
    compare_shifted_index (contains_cases str pat).1 (contains_cases str pat).2.1
      (contains_cases str pat).2.2.reverse pat.padded

/-- `ServerKey::rfind`: pre-checks, then the shifted compare in ascending
order (plus one extra alignment when only the pattern is padded), corrected
afterwards by a select on `is_empty(pat)` when both sides are padded. -/
def rfind (str pat : FheString) : Nat × Nat :=
  match length_checks str pat with
  | .Clear v => (if v then lenVal str else 0, if v then 1 else 0)
  | .Cipher v => (0, v)
  | .Undecided =>
    if str.padded = true ∧ pat.padded = true then
      (match is_empty pat with
       | .padding b =>
          (selectN b (lenVal str)
            (compare_shifted_index (contains_cases str pat).1
              (contains_cases str pat).2.1 (contains_cases str pat).2.2
              pat.padded).1,
           (compare_shifted_index (contains_cases str pat).1
              (contains_cases str pat).2.1 (contains_cases str pat).2.2
              pat.padded).2)
       | .noPadding _ =>
          compare_shifted_index (contains_cases str pat).1
            (contains_cases str pat).2.1 (contains_cases str pat).2.2 pat.padded)
    else
      compare_shifted_index (contains_cases str pat).1
        (contains_cases str pat).2.1
        (if str.padded = false ∧ pat.padded = true
          then List.range (str.chars.length + 1)
          else (contains_cases str pat).2.2)
        pat.padded

/-! ### The descending select/or fold computes the first match -/

theorem fold_select_desc (f : Nat → Nat) (hf : ∀ i, f i = 0 ∨ f i = 1)
    (k : Nat) (acc : Nat × Nat) :
    ((List.range k).reverse.map (fun i => (i, f i))).foldl
      (fun acc p => (selectN p.2 p.1 acc.1, acc.2 ||| p.2)) acc =
    (match (List.range k).find? (fun i => f i == 1) with
      | some i => i
      | none => acc.1,
     match (List.range k).find? (fun i => f i == 1) with
      | some _ => acc.2 ||| 1
      | none => acc.2) := by
  induction k generalizing acc with
  | zero => simp
  | succ k ih =>
    rw [List.range_succ, List.reverse_append]
    simp only [List.reverse_singleton, List.singleton_append, List.map_cons,
      List.foldl_cons]
    rw [ih]
    rw [List.find?_append]
    cases hfk : (List.range k).find? (fun i => f i == 1) with
    | some i =>
      simp only [Option.or_some]
      rcases hf k with h | h <;>
        simp [selectN, h, Nat.lor_assoc]
    | none =>
      simp only [Option.none_or]
      rcases hf k with h | h
      · have : (f k == 1) = false := by simp [h]
        simp [List.find?_singleton, this, selectN, h]
      · have : (f k == 1) = true := by simp [h]
        simp [List.find?_singleton, this, selectN, h]

theorem compare_shifted_index_desc (strV patV : List Nat) (k : Nat) (ip : Bool) :
    compare_shifted_index strV patV (List.range k).reverse ip =
    (match (List.range k).find? (fun i => matchBit strV patV ip i == 1) with
      | some i => i
      | none => 0,
     match (List.range k).find? (fun i => matchBit strV patV ip i == 1) with
      | some _ => 1
      | none => 0) := by
  unfold compare_shifted_index
  rw [fold_select_desc (matchBit strV patV ip) (matchBit_zero_or_one strV patV ip) k (0, 0)]
  cases (List.range k).find? (fun i => matchBit strV patV ip i == 1) <;> rfl

/-- The ascending fold when every alignment matches: the last one wins. -/
theorem fold_select_asc_all_one (f : Nat → Nat) (k : Nat) (acc : Nat × Nat)
    (hk : 0 < k) (hall : ∀ i < k, f i = 1) :
    ((List.range k).map (fun i => (i, f i))).foldl
      (fun acc p => (selectN p.2 p.1 acc.1, acc.2 ||| p.2)) acc =
    (k - 1, acc.2 ||| 1) := by
  induction k generalizing acc with
  | zero => omega
  | succ k ih =>
    rw [List.range_succ, List.map_append, List.foldl_append]
    by_cases hk0 : 0 < k
    · rw [ih acc hk0 (fun i hi => hall i (by omega))]
      simp only [List.map_cons, List.map_nil, List.foldl_cons, List.foldl_nil]
      rw [hall k (by omega)]
      simp [selectN, Nat.lor_assoc]
    · have : k = 0 := by omega
      subst this
      simp only [List.range_zero, List.map_nil, List.foldl_nil, List.map_cons,
        List.foldl_cons]
      rw [hall 0 (by omega)]
      simp [selectN]

/-! ### `find?` over `range` -/

theorem find?_range_ext (k : Nat) (p q : Nat → Bool) (h : ∀ i < k, p i = q i) :
    (List.range k).find? p = (List.range k).find? q := by
  induction k with
  | zero => simp
  | succ k ih =>
    rw [List.range_succ, List.find?_append, List.find?_append,
      ih (fun i hi => h i (by omega))]
    have := h k (by omega)
    simp [List.find?_singleton, this]

theorem find?_range_shrink (p : Nat → Bool) (k1 d : Nat)
    (h : ∀ i, p i = true → i < k1) :
    (List.range (k1 + d)).find? p = (List.range k1).find? p := by
  induction d with
  | zero => rfl
  | succ d ih =>
    have : k1 + (d + 1) = (k1 + d) + 1 := by omega
    rw [this, List.range_succ, List.find?_append, ih]
    have hpk : p (k1 + d) = false := by
      cases hp : p (k1 + d)
      · rfl
      · exact absurd (h _ hp) (by omega)
    simp [List.find?_singleton, hpk]

theorem find?_range_congr (p : Nat → Bool) (k1 k2 : Nat)
    (h : ∀ i, p i = true → i < k1 ∧ i < k2) :
    (List.range k1).find? p = (List.range k2).find? p := by
  rcases le_total k1 k2 with hle | hle
  · obtain ⟨d, rfl⟩ := Nat.exists_eq_add_of_le hle
    rw [find?_range_shrink p k1 d (fun i hi => (h i hi).1)]
  · obtain ⟨d, rfl⟩ := Nat.exists_eq_add_of_le hle
    rw [find?_range_shrink p k2 d (fun i hi => (h i hi).2)]

theorem find?_range_zero_true (p : Nat → Bool) (k : Nat) (hk : 0 < k)
    (hp : p 0 = true) : (List.range k).find? p = some 0 := by
  cases k with
  | zero => omega
  | succ k =>
    rw [List.range_succ_eq_map, List.find?_cons, hp]

/-! ### Characterising the per-alignment match bits -/

theorem charAt_drop (l : List Nat) (i j : Nat) :
    charAt (l.drop i) j = charAt l (i + j) := by
  unfold charAt
  rw [List.getD_eq_getElem?_getD, List.getD_eq_getElem?_getD, List.getElem?_drop]

theorem zip_forall_iff_charAt_gen (P : Nat → Nat → Prop) (xs ys : List Nat) :
    (∀ p ∈ xs.zip ys, P p.1 p.2) ↔
      ∀ i < min xs.length ys.length, P (charAt xs i) (charAt ys i) := by
  induction xs generalizing ys with
  | nil => simp
  | cons x xs ih =>
    cases ys with
    | nil => simp
    | cons y ys =>
      rw [List.zip_cons_cons]
      simp only [List.mem_cons]
      constructor
      · rintro h i hi
        match i with
        | 0 => exact h (x, y) (Or.inl rfl)
        | i + 1 =>
          have := (ih ys).1 (fun p hp => h p (Or.inr hp)) i (by
            simp only [List.length_cons, min_def] at hi ⊢
            split <;> split at hi <;> omega)
          simpa [charAt] using this
      · intro h p hp
        rcases hp with rfl | hp
        · exact h 0 (by simp)
        · refine (ih ys).2 (fun i hi => ?_) p hp
          have := h (i + 1) (by
            simp only [List.length_cons, min_def] at hi ⊢
            split <;> split at hi <;> omega)
          simpa [charAt] using this

theorem ignore_pat_pad_iff_charAt (xs ys : List Nat) :
    asciis_eq_ignore_pat_pad xs ys = 1 ↔
      ∀ i < min xs.length ys.length,
        charAt ys i ≠ 0 → charAt xs i = charAt ys i := by
  rw [asciis_eq_ignore_pat_pad_eq_one]
  exact zip_forall_iff_charAt_gen (fun a b => b ≠ 0 → a = b) xs ys

/-- Plaintext: `t` occurs in `s` at byte position `i`. -/
def MatchAt (s t : List Nat) (i : Nat) : Prop :=
  i + t.length ≤ s.length ∧ ∀ j < t.length, charAt s (i + j) = charAt t j

instance (s t : List Nat) (i : Nat) : Decidable (MatchAt s t i) :=
  inferInstanceAs (Decidable (_ ∧ _))

/-- Plaintext: the byte position of the first occurrence of `t` in `s`
(Rust's `str::find` on the decrypted contents). -/
def clear_find (s t : List Nat) : Option Nat :=
  (List.range (s.length - t.length + 1)).find? (fun i => decide (MatchAt s t i))

/-- In the plain-equality kernel, the match bit at alignment `i` decides a
plaintext match, for a string view that is the content followed by NULs and
an unpadded (exact) pattern view. -/
theorem matchBit_unpadded_pat (w t strV : List Nat) (ht : ValidChars t)
    (hXa : ∀ i, charAt strV i = if i < w.length then charAt w i else 0)
    (htlen : 1 ≤ t.length) (i : Nat) (hi : i + t.length ≤ strV.length) :
    (matchBit strV t false i = 1) ↔ MatchAt w t i := by
  unfold matchBit
  simp only [Bool.false_eq_true, if_false]
  rw [asciis_eq_eq_one_iff_charAt]
  have hdl : (strV.drop i).length = strV.length - i := List.length_drop i strV
  have hmin : min (strV.drop i).length t.length = t.length := by omega
  rw [hmin]
  have hstep : ∀ j, charAt (strV.drop i) j = charAt strV (i + j) := charAt_drop strV i
  constructor
  · intro h
    have hle : i + t.length ≤ w.length := by
      by_contra hcon
      have hj0 : t.length - 1 < t.length := by omega
      have := h (t.length - 1) hj0
      rw [hstep, hXa] at this
      rw [if_neg (by omega)] at this
      exact charAt_valid_ne_zero t ht _ hj0 this.symm
    refine ⟨hle, fun j hj => ?_⟩
    have := h j hj
    rwa [hstep, hXa, if_pos (by omega)] at this
  · rintro ⟨hle, hval⟩ j hj
    rw [hstep, hXa, if_pos (by omega)]
    exact hval j hj

/-- In the ignore-pattern-padding kernel, the match bit at alignment `i`
decides a plaintext match of the pattern's real content, for a string view
that sticks out past its content and a pattern view that is the content
followed by NULs. -/
theorem matchBit_ignore_pad (w v strV patV : List Nat) (hv : ValidChars v)
    (hXa : ∀ i, charAt strV i = if i < w.length then charAt w i else 0)
    (hwlt : w.length < strV.length)
    (hPa : ∀ j, charAt patV j = if j < v.length then charAt v j else 0)
    (hvlen : 1 ≤ v.length) (hvle : v.length ≤ patV.length)
    (i : Nat) (hi : i < strV.length) :
    (matchBit strV patV true i = 1) ↔ MatchAt w v i := by
  unfold matchBit
  simp only [if_true]
  rw [ignore_pat_pad_iff_charAt]
  have hdl : (strV.drop i).length = strV.length - i := List.length_drop i strV
  have hstep : ∀ j, charAt (strV.drop i) j = charAt strV (i + j) := charAt_drop strV i
  constructor
  · intro h
    have hle : i + v.length ≤ w.length := by
      by_contra hcon
      by_cases hiw : i ≤ w.length
      · have hj0 : w.length - i < v.length := by omega
        have hj0K : w.length - i < min (strV.drop i).length patV.length := by omega
        have hne : charAt patV (w.length - i) ≠ 0 := by
          rw [hPa, if_pos hj0]
          exact charAt_valid_ne_zero v hv _ hj0
        have := h (w.length - i) hj0K hne
        rw [hstep] at this
        have hiw' : i + (w.length - i) = w.length := by omega
        rw [hiw', hXa, if_neg (by omega)] at this
        rw [hPa, if_pos hj0] at this
        exact charAt_valid_ne_zero v hv _ hj0 this.symm
      · have h0K : 0 < min (strV.drop i).length patV.length := by omega
        have hne : charAt patV 0 ≠ 0 := by
          rw [hPa, if_pos (by omega)]
          exact charAt_valid_ne_zero v hv _ (by omega)
        have := h 0 h0K hne
        rw [hstep, Nat.add_zero, hXa, if_neg (by omega)] at this
        rw [hPa, if_pos (by omega)] at this
        exact charAt_valid_ne_zero v hv _ (by omega) this.symm
    refine ⟨hle, fun j hj => ?_⟩
    have hjK : j < min (strV.drop i).length patV.length := by omega
    have hne : charAt patV j ≠ 0 := by
      rw [hPa, if_pos hj]
      exact charAt_valid_ne_zero v hv _ hj
    have := h j hjK hne
    rw [hstep, hXa, if_pos (by omega), hPa, if_pos hj] at this
    exact this
  · rintro ⟨hle, hval⟩ j hjK hne
    have hj : j < v.length := by
      by_contra hjv
      rw [hPa, if_neg hjv] at hne
      exact hne rfl
    rw [hstep, hXa, if_pos (by omega), hPa, if_pos hj]
    exact hval j hj

/-- With an all-NUL pattern view the ignore-padding kernel always reports a
match. -/
theorem matchBit_ignore_pad_empty (strV patV : List Nat)
    (hPa : ∀ y ∈ patV, y = 0) (i : Nat) :
    matchBit strV patV true i = 1 := by
  unfold matchBit
  simp only [if_true]
  rw [asciis_eq_ignore_pat_pad_eq_one]
  intro p hp hne
  exact absurd (hPa p.2 (List.of_mem_zip hp).2) hne

/-! ### C3: `find` locates the first plaintext match -/

theorem charAt_take (l : List Nat) (m j : Nat) :
    charAt (l.take m) j = if j < m then charAt l j else 0 := by
  unfold charAt
  rw [List.getD_eq_getElem?_getD, List.getD_eq_getElem?_getD]
  by_cases h : j < m
  · rw [if_pos h]
    congr 1
    rw [List.getElem?_take]
    exact if_pos h
  · rw [if_neg h]
    have : (l.take m)[j]? = none := by
      rw [List.getElem?_take]
      exact if_neg h
    rw [this]
    rfl

theorem length_checks_undecided (str pat : FheString)
    (h : length_checks str pat = .Undecided) :
    pat.chars.length ≠ 0 ∧ ¬(pat.padded = true ∧ pat.chars.length = 1) ∧
    str.chars.length ≠ 0 ∧ ¬(str.padded = true ∧ str.chars.length = 1) ∧
    (pat.padded = false →
      (str.padded = false → pat.chars.length ≤ str.chars.length) ∧
      (str.padded = true → pat.chars.length < str.chars.length)) := by
  unfold length_checks at h
  by_cases hP : pat.chars.length = 0 ∨ (pat.padded = true ∧ pat.chars.length = 1)
  · rw [if_pos hP] at h
    simp at h
  · rw [if_neg hP] at h
    by_cases hS : str.chars.length = 0 ∨ (str.padded = true ∧ str.chars.length = 1)
    · rw [if_pos hS] at h
      exfalso
      cases he : is_empty pat with
      | noPadding b => rw [he] at h; simp at h
      | padding v => rw [he] at h; simp at h
    · rw [if_neg hS] at h
      refine ⟨fun hh => hP (Or.inl hh), fun hh => hP (Or.inr hh),
        fun hh => hS (Or.inl hh), fun hh => hS (Or.inr hh), fun hpf => ?_⟩
      rw [if_pos hpf] at h
      constructor
      · intro hsf
        by_contra hlt
        rw [if_pos ⟨hsf, by omega⟩] at h
        simp at h
      · intro hst
        by_contra hle
        rw [if_neg (by rw [hst]; rintro ⟨h1, -⟩; cases h1)] at h
        rw [if_pos ⟨hst, by omega⟩] at h
        simp at h

theorem find_undecided (str pat : FheString)
    (h : length_checks str pat = .Undecided) :
    find str pat = compare_shifted_index (contains_cases str pat).1
      (contains_cases str pat).2.1 (contains_cases str pat).2.2.reverse
      pat.padded := by
  unfold find
  rw [h]

theorem contains_cases_unpadded_pat (str pat : FheString) (h : pat.padded = false) :
    contains_cases str pat = (str.chars, pat.chars,
      List.range (str.chars.length - pat.chars.length -
        (if str.padded then 1 else 0) + 1)) := by
  unfold contains_cases
  rw [if_pos h]

theorem contains_cases_both_padded (str pat : FheString)
    (hs : str.padded = true) (hp : pat.padded = true) :
    contains_cases str pat = (str.chars, pat.chars.take (pat.chars.length - 1),
      List.range (str.chars.length - 1)) := by
  unfold contains_cases
  rw [if_neg (by simp [hp]), if_pos hs]

theorem contains_cases_only_pat_padded (str pat : FheString)
    (hs : str.padded = false) (hp : pat.padded = true) :
    contains_cases str pat = (str.chars ++ [0],
      pat.chars.take (pat.chars.length - 1), List.range str.chars.length) := by
  unfold contains_cases
  rw [if_neg (by simp [hp]), if_neg (by simp [hs])]

theorem beq_one_eq_decide (m : Nat) (P : Prop) [Decidable P] (hm : m = 0 ∨ m = 1)
    (hiff : m = 1 ↔ P) : (m == 1) = decide P := by
  by_cases hP : P
  · rcases hm with h | h
    · exact absurd (hiff.2 hP) (by omega)
    · simp [h, hP]
  · rcases hm with h | h
    · simp [h, hP]
    · exact absurd (hiff.1 h) hP

theorem clear_find_nil (s : List Nat) : clear_find s [] = some 0 := by
  unfold clear_find
  apply find?_range_zero_true
  · simp
  · simp [MatchAt]

/-- The shape of the truncated padded-pattern view. -/
theorem patView_shape (t : List Nat) (pt : Nat) (htne : 0 < pt) :
    ∀ j, charAt ((t ++ List.replicate pt 0).take (t.length + pt - 1)) j
      = if j < t.length then charAt t j else 0 := by
  intro j
  rw [charAt_take, charAt_append_replicate]
  split_ifs <;> first | rfl | omega

/-- Once the per-alignment bits decide plaintext matches and the enumeration
covers every possible match position, the descending fold result is the
first plaintext match. -/
theorem find_tail (s t strV patV : List Nat) (k : Nat) (ip : Bool)
    (hext : ∀ i < k, (matchBit strV patV ip i == 1) = decide (MatchAt s t i))
    (hcover : ∀ i, MatchAt s t i → i < k) :
    ((match (List.range k).find? (fun i => matchBit strV patV ip i == 1) with
      | some i => i
      | none => 0),
     (match (List.range k).find? (fun i => matchBit strV patV ip i == 1) with
      | some _ => 1
      | none => 0))
    = (match clear_find s t with
       | some i => (i, 1)
       | none => (0, 0)) := by
  have h1 : (List.range k).find? (fun i => matchBit strV patV ip i == 1)
      = (List.range k).find? (fun i => decide (MatchAt s t i)) :=
    find?_range_ext k _ _ hext
  have h2 : (List.range k).find? (fun i => decide (MatchAt s t i))
      = clear_find s t := by
    unfold clear_find
    apply find?_range_congr
    intro i hi
    have hM := of_decide_eq_true hi
    refine ⟨hcover i hM, ?_⟩
    have := hM.1
    omega
  rw [h1, h2]
  cases clear_find s t <;> rfl

/-- **C3.** Whenever the public pre-checks do not decide the search,
`find` returns the byte position of the first plaintext match together with
a found bit of `1`, and `(0, 0)` when no match exists.  (The fold visits the
alignments from largest to smallest, so the first match wins.) -/
theorem claim3_find_first_match (s t : List Nat) (hs : ValidChars s)
    (ht : ValidChars t) (ps pt : Nat)
    (hU : length_checks (encrypt s ps) (encrypt t pt) = .Undecided) :
    find (encrypt s ps) (encrypt t pt)
      = (match clear_find s t with
         | some i => (i, 1)
         | none => (0, 0)) := by
  obtain ⟨hP1, hP2, hS1, hS2, hLen⟩ := length_checks_undecided _ _ hU
  rw [find_undecided _ _ hU]
  by_cases hpf : (encrypt t pt).padded = false
  · -- unpadded pattern: exact compare over the full views
    obtain ⟨hpt0, htne⟩ := (encrypt_padded_false_iff t pt).1 hpf
    subst hpt0
    have hYc : (encrypt t 0).chars = t := encrypt_chars_zero t
    have htlen : 1 ≤ t.length := by
      have ht0 : t.length ≠ 0 := fun h => htne (List.length_eq_zero.1 h)
      omega
    rw [contains_cases_unpadded_pat _ _ hpf, hpf, hYc]
    show compare_shifted_index (encrypt s ps).chars t _ false = _
    rw [compare_shifted_index_desc]
    by_cases hsp : (encrypt s ps).padded = true
    · rw [if_pos hsp]
      have hpl : t.length < (encrypt s ps).chars.length := by
        have := (hLen hpf).2 hsp
        rwa [hYc] at this
      apply find_tail
      · intro i hi
        refine beq_one_eq_decide _ _ (matchBit_zero_or_one _ _ _ _) ?_
        exact matchBit_unpadded_pat s t (encrypt s ps).chars ht
          (encrypt_charAt s ps) htlen i (by omega)
      · intro i hM
        have h1 := hM.1
        have hsx : s.length < (encrypt s ps).chars.length := by
          rcases (encrypt_padded_iff s ps).1 hsp with h | h
          · rw [encrypt_length]; omega
          · subst h
            rw [encrypt_length] at hS1 ⊢
            simp only [List.length_nil] at *
            omega
        omega
    · have hsf : (encrypt s ps).padded = false := by
        cases h : (encrypt s ps).padded
        · rfl
        · exact absurd h hsp
      rw [if_neg hsp]
      obtain ⟨hps0, hsne⟩ := (encrypt_padded_false_iff s ps).1 hsf
      have hsl : (encrypt s ps).chars.length = s.length := by
        rw [encrypt_length, hps0]
        omega
      have hle : t.length ≤ (encrypt s ps).chars.length := by
        have := (hLen hpf).1 hsf
        rwa [hYc] at this
      apply find_tail
      · intro i hi
        refine beq_one_eq_decide _ _ (matchBit_zero_or_one _ _ _ _) ?_
        exact matchBit_unpadded_pat s t (encrypt s ps).chars ht
          (encrypt_charAt s ps) htlen i (by omega)
      · intro i hM
        have h1 := hM.1
        omega
  · -- padded pattern: the ignore-padding compare over the truncated view
    have hpp : (encrypt t pt).padded = true := by
      cases h : (encrypt t pt).padded
      · exact absurd h hpf
      · rfl
    by_cases hsp : (encrypt s ps).padded = true
    · -- both padded
      have hLX : 2 ≤ (encrypt s ps).chars.length := by
        have h2 : (encrypt s ps).chars.length ≠ 1 := fun h => hS2 ⟨hsp, h⟩
        omega
      rw [contains_cases_both_padded _ _ hsp hpp, hpp]
      show compare_shifted_index (encrypt s ps).chars
        ((encrypt t pt).chars.take ((encrypt t pt).chars.length - 1)) _ true = _
      rw [compare_shifted_index_desc]
      by_cases htnil : t = []
      · subst htnil
        have hall : ∀ i, (matchBit (encrypt s ps).chars
            ((encrypt [] pt).chars.take ((encrypt [] pt).chars.length - 1)) true i
              == 1) = true := by
          intro i
          have h1 := matchBit_ignore_pad_empty (encrypt s ps).chars
            ((encrypt [] pt).chars.take ((encrypt [] pt).chars.length - 1))
            (fun y hy => by
              have hy2 := List.take_subset _ _ hy
              have : (encrypt [] pt).chars = List.replicate pt 0 := by
                rw [encrypt_chars]
                rfl
              rw [this] at hy2
              exact List.eq_of_mem_replicate hy2) i
          simp [h1]
        rw [find?_range_zero_true _ _ (by omega) (hall 0), clear_find_nil]
      · have hpt1 : 0 < pt := by
          rcases (encrypt_padded_iff t pt).1 hpp with h | h
          · exact h
          · exact absurd h htnil
        have htlen : 1 ≤ t.length := by
          have ht0 : t.length ≠ 0 := fun h => htnil (List.length_eq_zero.1 h)
          omega
        have hsx : s.length < (encrypt s ps).chars.length := by
          rcases (encrypt_padded_iff s ps).1 hsp with h | h
          · rw [encrypt_length]; omega
          · subst h
            rw [encrypt_length] at hS1 ⊢
            simp only [List.length_nil] at *
            omega
        have hPa : ∀ j, charAt ((encrypt t pt).chars.take
            ((encrypt t pt).chars.length - 1)) j
            = if j < t.length then charAt t j else 0 := by
          have := patView_shape t pt hpt1
          intro j
          have hc : (encrypt t pt).chars = t ++ List.replicate pt 0 := encrypt_chars t pt
          have hl : (encrypt t pt).chars.length = t.length + pt := encrypt_length t pt
          rw [hc, hl] at *
          exact this j
        have hvle : t.length ≤ ((encrypt t pt).chars.take
            ((encrypt t pt).chars.length - 1)).length := by
          rw [List.length_take, encrypt_length]
          omega
        apply find_tail
        · intro i hi
          refine beq_one_eq_decide _ _ (matchBit_zero_or_one _ _ _ _) ?_
          exact matchBit_ignore_pad s t (encrypt s ps).chars _ ht
            (encrypt_charAt s ps) hsx hPa htlen hvle i (by omega)
        · intro i hM
          have h1 := hM.1
          omega
    · -- only the pattern padded: the string view gets one extra NUL
      have hsf : (encrypt s ps).padded = false := by
        cases h : (encrypt s ps).padded
        · rfl
        · exact absurd h hsp
      obtain ⟨hps0, hsne⟩ := (encrypt_padded_false_iff s ps).1 hsf
      subst hps0
      have hXc : (encrypt s 0).chars = s := encrypt_chars_zero s
      have hslen : 1 ≤ s.length := by
        have hs0 : s.length ≠ 0 := fun h => hsne (List.length_eq_zero.1 h)
        omega
      rw [contains_cases_only_pat_padded _ _ hsf hpp, hpp, hXc]
      show compare_shifted_index (s ++ [0])
        ((encrypt t pt).chars.take ((encrypt t pt).chars.length - 1)) _ true = _
      rw [compare_shifted_index_desc]
      by_cases htnil : t = []
      · subst htnil
        have hall : (matchBit (s ++ [0])
            ((encrypt [] pt).chars.take ((encrypt [] pt).chars.length - 1)) true 0
              == 1) = true := by
          have h1 := matchBit_ignore_pad_empty (s ++ [0])
            ((encrypt [] pt).chars.take ((encrypt [] pt).chars.length - 1))
            (fun y hy => by
              have hy2 := List.take_subset _ _ hy
              have : (encrypt [] pt).chars = List.replicate pt 0 := by
                rw [encrypt_chars]
                rfl
              rw [this] at hy2
              exact List.eq_of_mem_replicate hy2) 0
          simp [h1]
        rw [find?_range_zero_true _ _ (by omega) hall, clear_find_nil]
      · have hpt1 : 0 < pt := by
          rcases (encrypt_padded_iff t pt).1 hpp with h | h
          · exact h
          · exact absurd h htnil
        have htlen : 1 ≤ t.length := by
          have ht0 : t.length ≠ 0 := fun h => htnil (List.length_eq_zero.1 h)
          omega
        have hXa : ∀ i, charAt (s ++ [0]) i
            = if i < s.length then charAt s i else 0 := charAt_append_null s
        have hsx : s.length < (s ++ [0]).length := by
          rw [List.length_append]
          simp
        have hPa : ∀ j, charAt ((encrypt t pt).chars.take
            ((encrypt t pt).chars.length - 1)) j
            = if j < t.length then charAt t j else 0 := by
          have := patView_shape t pt hpt1
          intro j
          have hc : (encrypt t pt).chars = t ++ List.replicate pt 0 := encrypt_chars t pt
          have hl : (encrypt t pt).chars.length = t.length + pt := encrypt_length t pt
          rw [hc, hl] at *
          exact this j
        have hvle : t.length ≤ ((encrypt t pt).chars.take
            ((encrypt t pt).chars.length - 1)).length := by
          rw [List.length_take, encrypt_length]
          omega
        apply find_tail
        · intro i hi
          refine beq_one_eq_decide _ _ (matchBit_zero_or_one _ _ _ _) ?_
          refine matchBit_ignore_pad s t (s ++ [0]) _ ht hXa hsx hPa htlen hvle i ?_
          rw [List.length_append]
          simp only [List.length_singleton]
          omega
        · intro i hM
          have h1 := hM.1
          omega

/-- Witness for C3: `find("abcab", "ab")` with a padded pattern returns
`(0, 1)`. -/
theorem claim3_find_first_match_witness :
    find (encrypt [97, 98, 99, 97, 98] 0) (encrypt [97, 98] 2)
      = (match clear_find [97, 98, 99, 97, 98] [97, 98] with
         | some i => (i, 1)
         | none => (0, 0)) :=
  claim3_find_first_match [97, 98, 99, 97, 98] [97, 98] (by decide) (by decide)
    0 2 (by decide)

/-! ### C4: `rfind` with an empty pattern returns the true length -/

theorem compare_shifted_index_asc_all_one (strV patV : List Nat) (k : Nat)
    (ip : Bool) (hk : 0 < k)
    (hall : ∀ i < k, matchBit strV patV ip i = 1) :
    compare_shifted_index strV patV (List.range k) ip = (k - 1, 1) := by
  unfold compare_shifted_index
  rw [fold_select_asc_all_one (matchBit strV patV ip) k (0, 0) hk hall]
  rfl

theorem countNonZero_encrypt_nil (pt : Nat) :
    countNonZero (encrypt [] pt).chars = 0 :=
  countNonZero_encrypt [] pt (fun c hc => absurd hc (List.not_mem_nil c))

theorem is_empty_encrypt_nil (pt : Nat) :
    is_empty (encrypt [] pt) = .padding 1 := by
  unfold is_empty
  rw [show (encrypt [] pt).padded = true from
    (encrypt_padded_iff [] pt).2 (Or.inr rfl)]
  rw [countNonZero_encrypt_nil pt]
  rfl

/-- **C4.** For every padded string and every encryption of the empty
pattern, `rfind` returns the true (homomorphic) length of the string with a
found bit of `1`; in the main shifted-compare path this is exactly the
post-fold select gated on `is_empty(pat)`, overriding the largest enumerated
alignment. -/
theorem claim4_rfind_empty_pattern (w : List Nat) (hw : ValidChars w)
    (ps pt : Nat) (hpad : 1 ≤ ps ∨ w = []) :
    rfind (encrypt w ps) (encrypt [] pt) = (w.length, 1) := by
  have hXp : (encrypt w ps).padded = true := by
    rw [encrypt_padded_iff]
    rcases hpad with h | h
    · exact Or.inl h
    · exact Or.inr h
  have hYp : (encrypt [] pt).padded = true :=
    (encrypt_padded_iff [] pt).2 (Or.inr rfl)
  have hlenvalX : lenVal (encrypt w ps) = w.length := by
    unfold lenVal len
    rw [hXp]
    simp only [if_true]
    exact countNonZero_encrypt w ps hw
  by_cases hP : (encrypt [] pt).chars.length = 0 ∨
      ((encrypt [] pt).padded = true ∧ (encrypt [] pt).chars.length = 1)
  · have hlc : length_checks (encrypt w ps) (encrypt [] pt) = .Clear true := by
      unfold length_checks
      rw [if_pos hP]
    unfold rfind
    rw [hlc]
    show (lenVal (encrypt w ps), 1) = _
    rw [hlenvalX]
  · by_cases hS : (encrypt w ps).chars.length = 0 ∨
        ((encrypt w ps).padded = true ∧ (encrypt w ps).chars.length = 1)
    · have hw0 : w.length = 0 := by
        rw [encrypt_length] at hS
        rcases hS with h | ⟨-, h⟩
        · omega
        · rcases hpad with hp | hp
          · omega
          · rw [hp]
            rfl
      have hlc : length_checks (encrypt w ps) (encrypt [] pt) = .Cipher 1 := by
        unfold length_checks
        rw [if_neg hP, if_pos hS, is_empty_encrypt_nil pt]
      unfold rfind
      rw [hlc, hw0]
    · have hU : length_checks (encrypt w ps) (encrypt [] pt) = .Undecided := by
        unfold length_checks
        rw [if_neg hP, if_neg hS, if_neg (by simp [hYp])]
      have hLX : 2 ≤ (encrypt w ps).chars.length := by
        have h1 : (encrypt w ps).chars.length ≠ 0 := fun h => hS (Or.inl h)
        have h2 : (encrypt w ps).chars.length ≠ 1 := fun h => hS (Or.inr ⟨hXp, h⟩)
        omega
      have hall : ∀ i < (encrypt w ps).chars.length - 1,
          matchBit (encrypt w ps).chars
            ((encrypt [] pt).chars.take ((encrypt [] pt).chars.length - 1))
            true i = 1 := by
        intro i _
        refine matchBit_ignore_pad_empty _ _ (fun y hy => ?_) i
        have hy2 := List.take_subset _ _ hy
        have hc : (encrypt [] pt).chars = List.replicate pt 0 := by
          rw [encrypt_chars]
          rfl
        rw [hc] at hy2
        exact List.eq_of_mem_replicate hy2
      unfold rfind
      rw [hU]
      show (if (encrypt w ps).padded = true ∧ (encrypt [] pt).padded = true
        then _ else _) = _
      rw [if_pos ⟨hXp, hYp⟩, is_empty_encrypt_nil pt]
      show (selectN 1 (lenVal (encrypt w ps))
        (compare_shifted_index (contains_cases (encrypt w ps) (encrypt [] pt)).1
          (contains_cases (encrypt w ps) (encrypt [] pt)).2.1
          (contains_cases (encrypt w ps) (encrypt [] pt)).2.2
          (encrypt [] pt).padded).1,
        (compare_shifted_index (contains_cases (encrypt w ps) (encrypt [] pt)).1
          (contains_cases (encrypt w ps) (encrypt [] pt)).2.1
          (contains_cases (encrypt w ps) (encrypt [] pt)).2.2
          (encrypt [] pt).padded).2) = _
      rw [contains_cases_both_padded _ _ hXp hYp, hYp]
      show (selectN 1 (lenVal (encrypt w ps))
        (compare_shifted_index (encrypt w ps).chars
          ((encrypt [] pt).chars.take ((encrypt [] pt).chars.length - 1))
          (List.range ((encrypt w ps).chars.length - 1)) true).1,
        (compare_shifted_index (encrypt w ps).chars
          ((encrypt [] pt).chars.take ((encrypt [] pt).chars.length - 1))
          (List.range ((encrypt w ps).chars.length - 1)) true).2) = _
      rw [compare_shifted_index_asc_all_one _ _ _ _ (by omega) hall]
      rw [hlenvalX]
      rfl

/-- Witness for C4: `rfind("ab" with one pad, "" with two pads)` gives
`(2, 1)`. -/
theorem claim4_rfind_empty_pattern_witness :
    rfind (encrypt [97, 98] 1) (encrypt [] 2) = (2, 1) :=
  claim4_rfind_empty_pattern [97, 98] (by decide) 1 2 (Or.inl (by decide))

/-! ### Packing and unpacking the wide integer -/

theorem packList_go (l : List Nat) (acc : Nat) :
    l.foldl (fun acc c => acc * 256 + c) acc = acc * 256 ^ l.length + packList l := by
  induction l generalizing acc with
  | nil => simp [packList]
  | cons c l ih =>
    rw [packList, List.foldl_cons, List.foldl_cons, ih, ih]
    simp only [List.length_cons, pow_succ]
    ring

theorem packList_append (l1 l2 : List Nat) :
    packList (l1 ++ l2) = packList l1 * 256 ^ l2.length + packList l2 := by
  rw [packList, List.foldl_append, packList_go]
  rfl

theorem packList_cons (c : Nat) (l : List Nat) :
    packList (c :: l) = c * 256 ^ l.length + packList l := by
  have := packList_append [c] l
  simpa [packList] using this

theorem packList_replicate_zero (k : Nat) : packList (List.replicate k 0) = 0 := by
  induction k with
  | zero => rfl
  | succ k ih =>
    rw [List.replicate_succ, packList_cons, ih]
    simp

theorem packList_lt (l : List Nat) (hl : ∀ c ∈ l, c < 256) :
    packList l < 256 ^ l.length := by
  induction l with
  | nil => simp [packList]
  | cons c l ih =>
    have hc := hl c (List.mem_cons_self c l)
    have h1 := ih (fun x hx => hl x (List.mem_cons_of_mem c hx))
    rw [packList_cons, List.length_cons, pow_succ]
    calc c * 256 ^ l.length + packList l
        < c * 256 ^ l.length + 256 ^ l.length := by omega
      _ = (c + 1) * 256 ^ l.length := by ring
      _ ≤ 256 * 256 ^ l.length := Nat.mul_le_mul_right _ (by omega)
      _ = 256 ^ l.length * 256 := by ring

theorem from_uint_packList (l : List Nat) (hl : ∀ c ∈ l, c < 256) :
    from_uint (packList l) l.length = ⟨l, false⟩ := by
  unfold from_uint
  congr 1
  apply List.ext_getElem
  · simp
  · intro i h1 h2
    simp only [List.getElem_map, List.getElem_range]
    have hsplit : l.take (i + 1) ++ l.drop (i + 1) = l := List.take_append_drop _ l
    have hlt : packList (l.drop (i + 1)) < 256 ^ (l.length - (i + 1)) := by
      have := packList_lt (l.drop (i + 1))
        (fun x hx => hl x (List.drop_subset _ l hx))
      rwa [List.length_drop] at this
    have htk : l.length - 1 - i = l.length - (i + 1) := by omega
    have hpl : packList l
        = packList (l.take (i + 1)) * 256 ^ (l.length - (i + 1))
          + packList (l.drop (i + 1)) := by
      conv_lhs => rw [← hsplit]
      rw [packList_append, List.length_drop]
    have hdiv : packList l / 256 ^ (l.length - (i + 1))
        = packList (l.take (i + 1)) := by
      rw [hpl, Nat.mul_comm, Nat.mul_add_div (by positivity),
        Nat.div_eq_of_lt hlt]
      omega
    have hitake : i < l.length := by simpa using h2
    have htake : l.take (i + 1) = l.take i ++ [l[i]] := by
      rw [← List.take_concat_get l i hitake, List.concat_eq_append]
    have hA : packList (l.take (i + 1)) = packList (l.take i) * 256 + l[i] := by
      rw [htake, packList_append]
      simp [packList]
    rw [htk, hdiv, hA, Nat.add_comm, Nat.add_mul_mod_self_right]
    exact Nat.mod_eq_of_lt (hl _ (l.getElem_mem hitake))

theorem from_uint_zero (n : Nat) : from_uint 0 n = ⟨List.replicate n 0, false⟩ := by
  have := from_uint_packList (List.replicate n 0)
    (by intro c hc; rw [List.eq_of_mem_replicate hc]; omega)
  rwa [packList_replicate_zero, List.length_replicate] at this

theorem shift_amount_ok (k n : Nat) (hkn : k ≤ n) (hcap : n < 2 ^ 16) :
    8 * k < 2 ^ min (2 * 16) (8 * n) := by
  rcases le_total 32 (8 * n) with h | h
  · rw [show (2 * 16) = 32 from rfl, min_eq_left h]
    have : 8 * k < 2 ^ 19 := by omega
    omega
  · rw [show (2 * 16) = 32 from rfl, min_eq_right h]
    have hn4 : n ≤ 4 := by omega
    interval_cases n <;> omega

/-- Shifting `k` characters left moves the `k` leading NULs to the back. -/
theorem left_shift_chars_shape (k : Nat) (rest : List Nat) (pad : Bool)
    (hrest : ∀ c ∈ rest, c < 256) (hcap : k + rest.length < 2 ^ 16) :
    left_shift_chars ⟨List.replicate k 0 ++ rest, pad⟩ k 16
      = ⟨rest ++ List.replicate k 0, false⟩ := by
  have hlen : (⟨List.replicate k 0 ++ rest, pad⟩ : FheString).chars.length
      = k + rest.length := by simp
  have hk8 : 8 * k < 2 ^ min (2 * 16)
      (8 * (⟨List.replicate k 0 ++ rest, pad⟩ : FheString).chars.length) := by
    rw [hlen]
    exact shift_amount_ok k (k + rest.length) (by omega) hcap
  have hspec := (shift_chars_spec ⟨List.replicate k 0 ++ rest, pad⟩ k 16 hk8).1
  by_cases hrest0 : rest = []
  · subst hrest0
    rw [hspec, if_neg (by rw [hlen]; simp), hlen]
    rw [from_uint_zero]
    simp
  · have hrl : 0 < rest.length := by
      cases rest
      · exact absurd rfl hrest0
      · simp
    rw [hspec, if_pos (by rw [hlen]; omega), hlen]
    have hto : to_uint ⟨List.replicate k 0 ++ rest, pad⟩ = packList rest := by
      unfold to_uint
      show packList (List.replicate k 0 ++ rest) = packList rest
      rw [packList_append, packList_replicate_zero]
      simp
    have h256 : (2 : Nat) ^ (8 * k) = 256 ^ k := by
      rw [pow_mul]
      norm_num
    have hmul : packList rest * 256 ^ k = packList (rest ++ List.replicate k 0) := by
      rw [packList_append, packList_replicate_zero, List.length_replicate]
      omega
    have hbound : packList (rest ++ List.replicate k 0) < 2 ^ (8 * (k + rest.length)) := by
      have := packList_lt (rest ++ List.replicate k 0) (by
        intro c hc
        rcases List.mem_append.1 hc with hc | hc
        · exact hrest c hc
        · rw [List.eq_of_mem_replicate hc]; omega)
      rw [List.length_append, List.length_replicate] at this
      calc packList (rest ++ List.replicate k 0) < 256 ^ (rest.length + k) := this
        _ = 2 ^ (8 * (k + rest.length)) := by
            rw [show (256 : Nat) = 2 ^ 8 from rfl, ← pow_mul]
            ring_nf
    rw [hto, h256, hmul, Nat.mod_eq_of_lt hbound]
    have := from_uint_packList (rest ++ List.replicate k 0) (by
      intro c hc
      rcases List.mem_append.1 hc with hc | hc
      · exact hrest c hc
      · rw [List.eq_of_mem_replicate hc]; omega)
    rw [List.length_append, List.length_replicate] at this
    rw [show k + rest.length = rest.length + k from by omega]
    exact this

/-! ### C7: trimming -/

/-- `ServerKey::is_whitespace` on a cleartext byte: the OR of the five ASCII
whitespace comparisons, optionally also matching NUL. -/
def is_whitespace (c : Nat) (or_null : Bool) : Nat :=
  if c = 0x20 ∨ c = 0x09 ∨ c = 0x0A ∨ c = 0x0C ∨ c = 0x0D ∨ (or_null = true ∧ c = 0)
  then 1 else 0

/-- `ServerKey::compare_and_trim`: walk the characters with the running
"still in leading whitespace" flag, overwriting flagged characters with NUL. -/
def compare_and_trim : List Nat → Nat → Bool → List Nat
  | [], _, _ => []
  | c :: rest, prev, withNull =>
    selectN (is_whitespace c withNull &&& prev) 0 c
      :: compare_and_trim rest (is_whitespace c withNull &&& prev) withNull

/-- 16-block (32-bit) wrapping subtraction (`sub_parallelized`). -/
def sub32 (a b : Nat) : Nat := (a + (2 ^ 32 - b % 2 ^ 32)) % 2 ^ 32

/-- `ServerKey::trim_start`: zero the leading whitespace, then shift left by
the length difference; the result is padded (with one extra NUL appended
when the input was unpadded). -/
def trim_start (str : FheString) : FheString :=
  if str.padded = false then
    append_null (left_shift_chars ⟨compare_and_trim str.chars 1 false, true⟩
      (sub32 (lenVal str) (countNonZero (compare_and_trim str.chars 1 false))) 16)
  else
    ⟨(left_shift_chars ⟨compare_and_trim str.chars 1 false, true⟩
        (sub32 (lenVal str) (countNonZero (compare_and_trim str.chars 1 false)))
        16).chars,
      true⟩

/-- `ServerKey::trim_end`: the same scan from the right, treating the NUL
padding of a padded input as continuation; an unpadded input gets one extra
NUL appended. -/
def trim_end (str : FheString) : FheString :=
  if str.padded = false then
    append_null ⟨(compare_and_trim str.chars.reverse 1 str.padded).reverse,
      str.padded⟩
  else
    ⟨(compare_and_trim str.chars.reverse 1 str.padded).reverse, str.padded⟩

/-- `ServerKey::trim` is literally `trim_end (trim_start str)`. -/
def trim (str : FheString) : FheString := trim_end (trim_start str)

/-- The whitespace test as a `Bool` predicate. -/
def wsB (wn : Bool) (c : Nat) : Bool := is_whitespace c wn == 1

theorem is_whitespace_zero_or_one (c : Nat) (wn : Bool) :
    is_whitespace c wn = 0 ∨ is_whitespace c wn = 1 := by
  unfold is_whitespace
  split <;> simp

theorem wsB_false_zero : wsB false 0 = false := by decide

theorem wsB_true_zero : wsB true 0 = true := by decide

theorem is_whitespace_true_of_ne (c : Nat) (hc : c ≠ 0) :
    is_whitespace c true = is_whitespace c false := by
  unfold is_whitespace
  by_cases h : c = 0x20 ∨ c = 0x09 ∨ c = 0x0A ∨ c = 0x0C ∨ c = 0x0D
  · rw [if_pos (by tauto), if_pos (by tauto)]
  · rw [if_neg (by rintro (h1 | h1 | h1 | h1 | h1 | ⟨-, h1⟩) <;> tauto),
      if_neg (by rintro (h1 | h1 | h1 | h1 | h1 | ⟨h1, -⟩) <;> tauto)]

theorem wsB_true_of_ne (c : Nat) (hc : c ≠ 0) : wsB true c = wsB false c := by
  unfold wsB
  rw [is_whitespace_true_of_ne c hc]

theorem compare_and_trim_flag_zero (l : List Nat) (wn : Bool) :
    compare_and_trim l 0 wn = l := by
  induction l with
  | nil => rfl
  | cons c l ih =>
    show selectN (is_whitespace c wn &&& 0) 0 c
      :: compare_and_trim l (is_whitespace c wn &&& 0) wn = c :: l
    rw [Nat.and_zero, ih]
    rfl

theorem compare_and_trim_flag_one (l : List Nat) (wn : Bool) :
    compare_and_trim l 1 wn =
      List.replicate (l.takeWhile (wsB wn)).length 0 ++ l.dropWhile (wsB wn) := by
  induction l with
  | nil => rfl
  | cons c l ih =>
    show selectN (is_whitespace c wn &&& 1) 0 c
      :: compare_and_trim l (is_whitespace c wn &&& 1) wn = _
    rcases is_whitespace_zero_or_one c wn with h | h
    · have hb : wsB wn c = false := by unfold wsB; rw [h]; rfl
      rw [h, List.takeWhile_cons, List.dropWhile_cons, hb]
      show selectN (0 &&& 1) 0 c :: compare_and_trim l (0 &&& 1) wn = _
      rw [show (0 &&& 1 : Nat) = 0 from rfl, compare_and_trim_flag_zero]
      simp [selectN]
    · have hb : wsB wn c = true := by unfold wsB; rw [h]; rfl
      rw [h, List.takeWhile_cons, List.dropWhile_cons, hb]
      show selectN (1 &&& 1) 0 c :: compare_and_trim l (1 &&& 1) wn = _
      rw [show (1 &&& 1 : Nat) = 1 from rfl, ih]
      simp [selectN, List.replicate_succ]

/-! ### `takeWhile`/`dropWhile` transfer lemmas -/

theorem takeWhile_append_rep (p : Nat → Bool) (hp : p 0 = false)
    (u : List Nat) (m : Nat) :
    (u ++ List.replicate m 0).takeWhile p = u.takeWhile p := by
  induction u with
  | nil =>
    cases m with
    | zero => rfl
    | succ m => simp [List.replicate_succ, List.takeWhile_cons, hp]
  | cons c u ih =>
    by_cases hc : p c
    · simp [List.takeWhile_cons, hc, ih]
    · simp [List.takeWhile_cons, hc]

theorem dropWhile_append_rep (p : Nat → Bool) (hp : p 0 = false)
    (u : List Nat) (m : Nat) :
    (u ++ List.replicate m 0).dropWhile p = u.dropWhile p ++ List.replicate m 0 := by
  induction u with
  | nil =>
    cases m with
    | zero => rfl
    | succ m => simp [List.replicate_succ, List.dropWhile_cons, hp]
  | cons c u ih =>
    by_cases hc : p c
    · simp [List.dropWhile_cons, hc, ih]
    · simp [List.dropWhile_cons, hc]

theorem takeWhile_append_all (p : Nat → Bool) (l1 l2 : List Nat)
    (h : ∀ x ∈ l1, p x = true) :
    (l1 ++ l2).takeWhile p = l1 ++ l2.takeWhile p := by
  induction l1 with
  | nil => rfl
  | cons c l1 ih =>
    have hc := h c (List.mem_cons_self c l1)
    simp [List.takeWhile_cons, hc, ih (fun x hx => h x (List.mem_cons_of_mem c hx))]

theorem dropWhile_append_all (p : Nat → Bool) (l1 l2 : List Nat)
    (h : ∀ x ∈ l1, p x = true) :
    (l1 ++ l2).dropWhile p = l2.dropWhile p := by
  induction l1 with
  | nil => rfl
  | cons c l1 ih =>
    have hc := h c (List.mem_cons_self c l1)
    simp [List.dropWhile_cons, hc, ih (fun x hx => h x (List.mem_cons_of_mem c hx))]

theorem takeWhile_congr_mem (p q : Nat → Bool) (l : List Nat)
    (h : ∀ x ∈ l, p x = q x) : l.takeWhile p = l.takeWhile q := by
  induction l with
  | nil => rfl
  | cons c l ih =>
    have hc := h c (List.mem_cons_self c l)
    rw [List.takeWhile_cons, List.takeWhile_cons, hc,
      ih (fun x hx => h x (List.mem_cons_of_mem c hx))]

theorem dropWhile_congr_mem (p q : Nat → Bool) (l : List Nat)
    (h : ∀ x ∈ l, p x = q x) : l.dropWhile p = l.dropWhile q := by
  induction l with
  | nil => rfl
  | cons c l ih =>
    have hc := h c (List.mem_cons_self c l)
    rw [List.dropWhile_cons, List.dropWhile_cons, hc,
      ih (fun x hx => h x (List.mem_cons_of_mem c hx))]

/-! ### Shapes of `trim_start` and `trim_end` -/

/-- Plaintext trailing-whitespace trim. -/
def trimEndP (l : List Nat) : List Nat :=
  (l.reverse.dropWhile (wsB false)).reverse

theorem valid_dropWhile (u : List Nat) (hu : ValidChars u) :
    ValidChars (u.dropWhile (wsB false)) :=
  fun c hc => hu c (List.dropWhile_subset _ hc)

theorem valid_trimEndP (u : List Nat) (hu : ValidChars u) :
    ValidChars (trimEndP u) := by
  intro c hc
  unfold trimEndP at hc
  rw [List.mem_reverse] at hc
  exact hu c (List.mem_reverse.1 (List.dropWhile_subset _ hc))

theorem tw_dw_length (p : Nat → Bool) (l : List Nat) :
    (l.takeWhile p).length + (l.dropWhile p).length = l.length := by
  rw [← List.length_append, List.takeWhile_append_dropWhile]

theorem sub32_eq (a b : Nat) (hb : b ≤ a) (ha : a < 2 ^ 32) :
    sub32 a b = a - b := by
  unfold sub32
  rw [Nat.mod_eq_of_lt (show b < 2 ^ 32 by omega)]
  have h1 : a + (2 ^ 32 - b) = (a - b) + 2 ^ 32 := by omega
  rw [h1, Nat.add_mod_right]
  exact Nat.mod_eq_of_lt (by omega)

theorem lenVal_shape (u : List Nat) (m : Nat) (pb : Bool) (hu : ValidChars u)
    (hpm : pb = true ∨ m = 0) :
    lenVal ⟨u ++ List.replicate m 0, pb⟩ = u.length := by
  unfold lenVal len
  cases pb with
  | true =>
    simp only [if_true]
    show countNonZero (u ++ List.replicate m 0) = u.length
    rw [countNonZero_append, countNonZero_replicate_zero, countNonZero_valid u hu]
    omega
  | false =>
    have hm : m = 0 := by
      rcases hpm with h | h
      · cases h
      · exact h
    subst hm
    simp

theorem trim_start_shape (u : List Nat) (m : Nat) (pb : Bool) (hu : ValidChars u)
    (hpm : pb = true ∨ m = 0) (hcap : u.length + m < 2 ^ 16) :
    trim_start ⟨u ++ List.replicate m 0, pb⟩
      = ⟨u.dropWhile (wsB false) ++
          List.replicate (m + (u.takeWhile (wsB false)).length +
            (if pb then 0 else 1)) 0, true⟩ := by
  have hct : compare_and_trim (u ++ List.replicate m 0) 1 false
      = List.replicate (u.takeWhile (wsB false)).length 0 ++
        (u.dropWhile (wsB false) ++ List.replicate m 0) := by
    rw [compare_and_trim_flag_one, takeWhile_append_rep _ wsB_false_zero,
      dropWhile_append_rep _ wsB_false_zero]
  have hcount : countNonZero (compare_and_trim (u ++ List.replicate m 0) 1 false)
      = (u.dropWhile (wsB false)).length := by
    rw [hct, countNonZero_append, countNonZero_append,
      countNonZero_replicate_zero, countNonZero_replicate_zero,
      countNonZero_valid _ (valid_dropWhile u hu)]
    omega
  have hlenval := lenVal_shape u m pb hu hpm
  have hdlen := tw_dw_length (wsB false) u
  have hsub : sub32 (lenVal ⟨u ++ List.replicate m 0, pb⟩)
      (countNonZero (compare_and_trim (u ++ List.replicate m 0) 1 false))
      = (u.takeWhile (wsB false)).length := by
    rw [hlenval, hcount, sub32_eq _ _ (by omega) (by omega)]
    omega
  have hshift : left_shift_chars ⟨compare_and_trim (u ++ List.replicate m 0) 1 false,
      true⟩ ((u.takeWhile (wsB false)).length) 16
      = ⟨(u.dropWhile (wsB false) ++ List.replicate m 0) ++
          List.replicate (u.takeWhile (wsB false)).length 0, false⟩ := by
    have := left_shift_chars_shape (u.takeWhile (wsB false)).length
      (u.dropWhile (wsB false) ++ List.replicate m 0) true
      (by
        intro c hc
        rcases List.mem_append.1 hc with hc | hc
        · have := valid_dropWhile u hu c hc
          omega
        · rw [List.eq_of_mem_replicate hc]; omega)
      (by
        rw [List.length_append, List.length_replicate]
        omega)
    rw [← hct] at this
    exact this
  have hrearr : (u.dropWhile (wsB false) ++ List.replicate m 0) ++
      List.replicate (u.takeWhile (wsB false)).length 0
      = u.dropWhile (wsB false) ++
        List.replicate (m + (u.takeWhile (wsB false)).length) 0 := by
    rw [List.append_assoc, List.replicate_add]
  cases pb with
  | true =>
    unfold trim_start
    rw [if_neg (by simp)]
    rw [hsub, hshift]
    simp only [if_true, Nat.add_zero]
    rw [hrearr]
  | false =>
    unfold trim_start
    rw [if_pos rfl]
    rw [hsub, hshift]
    unfold append_null
    simp only [Bool.false_eq_true, if_false]
    rw [hrearr, List.append_assoc,
      show (List.replicate (m + (u.takeWhile (wsB false)).length) 0 ++ [0] : List Nat)
        = List.replicate (m + (u.takeWhile (wsB false)).length + 1) 0 from
        (List.replicate_succ' _ 0).symm]

theorem trim_end_shape (u : List Nat) (m : Nat) (pb : Bool) (hu : ValidChars u)
    (hpm : pb = true ∨ m = 0) :
    trim_end ⟨u ++ List.replicate m 0, pb⟩
      = ⟨trimEndP u ++
          List.replicate (m + (u.reverse.takeWhile (wsB false)).length +
            (if pb then 0 else 1)) 0, true⟩ := by
  cases pb with
  | true =>
    unfold trim_end
    rw [if_neg (by simp)]
    have hrev : (u ++ List.replicate m 0).reverse
        = List.replicate m 0 ++ u.reverse := by
      rw [List.reverse_append, List.reverse_replicate]
    have hct : compare_and_trim (u ++ List.replicate m 0).reverse 1 true
        = List.replicate (m + (u.reverse.takeWhile (wsB false)).length) 0 ++
          u.reverse.dropWhile (wsB false) := by
      rw [hrev, compare_and_trim_flag_one]
      have htw : (List.replicate m 0 ++ u.reverse).takeWhile (wsB true)
          = List.replicate m 0 ++ u.reverse.takeWhile (wsB true) :=
        takeWhile_append_all _ _ _
          (fun x hx => by rw [List.eq_of_mem_replicate hx]; exact wsB_true_zero)
      have hdw : (List.replicate m 0 ++ u.reverse).dropWhile (wsB true)
          = u.reverse.dropWhile (wsB true) :=
        dropWhile_append_all _ _ _
          (fun x hx => by rw [List.eq_of_mem_replicate hx]; exact wsB_true_zero)
      have htrans : ∀ x ∈ u.reverse, wsB true x = wsB false x := by
        intro x hx
        exact wsB_true_of_ne x (hu x (List.mem_reverse.1 hx)).1
      rw [htw, hdw, takeWhile_congr_mem _ _ _ htrans, dropWhile_congr_mem _ _ _ htrans]
      rw [List.length_append, List.length_replicate, List.replicate_add]
    show (⟨(compare_and_trim (u ++ List.replicate m 0).reverse 1 true).reverse,
      true⟩ : FheString) = _
    rw [hct, List.reverse_append, List.reverse_replicate]
    unfold trimEndP
    rfl
  | false =>
    have hm : m = 0 := by
      rcases hpm with h | h
      · cases h
      · exact h
    subst hm
    unfold trim_end
    rw [if_pos rfl]
    have hchars : (u ++ List.replicate 0 0) = u := by simp
    have hct : compare_and_trim (u ++ List.replicate 0 0).reverse 1 false
        = List.replicate (u.reverse.takeWhile (wsB false)).length 0 ++
          u.reverse.dropWhile (wsB false) := by
      rw [hchars, compare_and_trim_flag_one]
    show append_null ⟨(compare_and_trim (u ++ List.replicate 0 0).reverse 1
      false).reverse, false⟩ = _
    rw [hct]
    unfold append_null trimEndP
    rw [List.reverse_append, List.reverse_replicate]
    simp only [Nat.zero_add, List.append_assoc]
    rw [show (List.replicate (u.reverse.takeWhile (wsB false)).length 0 ++ [0] : List Nat)
      = List.replicate ((u.reverse.takeWhile (wsB false)).length + 1) 0 from
      (List.replicate_succ' _ 0).symm]
    rfl

/-- Witness for C1 on a concrete pair exercising the NUL-extension branch. -/
theorem claim1_eq_exact_witness :
    eq (encrypt [97, 98] 0) (encrypt [97, 98] 3) = 1 ∧
    ne (encrypt [97, 98] 0) (encrypt [97, 98] 3)
      = 1 - eq (encrypt [97, 98] 0) (encrypt [97, 98] 3) := by
  have h := claim1_eq_exact [97, 98] [97, 98] (by decide) (by decide) 0 3
  refine ⟨?_, h.2⟩
  rw [h.1, if_pos rfl]

/-! ### C7: the two trimming orders agree after decryption -/

theorem trimEndP_cons (c : Nat) (u : List Nat) :
    trimEndP (c :: u)
      = if trimEndP u = [] then (if wsB false c = true then [] else [c])
        else c :: trimEndP u := by
  unfold trimEndP
  rw [List.reverse_cons, List.dropWhile_append]
  by_cases h : List.dropWhile (wsB false) u.reverse = []
  · rw [h]
    by_cases hc : wsB false c = true
    · simp [hc, List.dropWhile_cons]
    · simp [hc, List.dropWhile_cons]
  · have hie : (List.dropWhile (wsB false) u.reverse).isEmpty = false := by
      cases hdw : List.dropWhile (wsB false) u.reverse with
      | nil => exact absurd hdw h
      | cons a l => rfl
    have hEr : ¬ ((List.dropWhile (wsB false) u.reverse).reverse = []) := by
      rw [List.reverse_eq_nil_iff]
      exact h
    rw [hie, if_neg hEr]
    simp [List.reverse_append]

theorem dropWhile_trimEndP_comm (u : List Nat) :
    List.dropWhile (wsB false) (trimEndP u)
      = trimEndP (List.dropWhile (wsB false) u) := by
  induction u with
  | nil => rfl
  | cons c u ih =>
    rw [List.dropWhile_cons]
    by_cases hc : wsB false c = true
    · rw [if_pos hc, ← ih, trimEndP_cons]
      by_cases hE : trimEndP u = []
      · rw [if_pos hE, if_pos hc, hE]
      · rw [if_neg hE, List.dropWhile_cons, if_pos hc]
    · rw [if_neg hc, trimEndP_cons]
      by_cases hE : trimEndP u = []
      · rw [if_pos hE, if_neg hc, List.dropWhile_cons, if_neg hc]
      · rw [if_neg hE, List.dropWhile_cons, if_neg hc]

theorem decrypt_shape (v : List Nat) (k : Nat) (pb : Bool) (hv : ValidChars v) :
    decrypt ⟨v ++ List.replicate k 0, pb⟩ = v := by
  show (v ++ List.replicate k 0).takeWhile (fun c => !(c == 0)) = v
  rw [takeWhile_append_rep _ (by decide) v k]
  have h1 := takeWhile_append_all (fun c => !(c == 0)) v []
    (fun x hx => by simpa using (hv x hx).1)
  simpa using h1

theorem decrypt_trim_end_pad (u : List Nat) (m : Nat) (hu : ValidChars u) :
    decrypt (trim_end ⟨u ++ List.replicate m 0, true⟩) = trimEndP u := by
  rw [trim_end_shape u m true hu (Or.inl rfl)]
  exact decrypt_shape _ _ _ (valid_trimEndP u hu)

theorem decrypt_trim_start_pad (u : List Nat) (m : Nat) (hu : ValidChars u)
    (hcap : u.length + m < 2 ^ 16) :
    decrypt (trim_start ⟨u ++ List.replicate m 0, true⟩)
      = u.dropWhile (wsB false) := by
  rw [trim_start_shape u m true hu (Or.inl rfl) hcap]
  exact decrypt_shape _ _ _ (valid_dropWhile u hu)

/-- **C7.** For every encrypted string (valid ASCII content, any padding,
within the 2^16 length capacity of the homomorphic length arithmetic),
decrypting `trim` agrees with decrypting `trim_end (trim_start s)` and with
decrypting `trim_start (trim_end s)`: the two trimming orders commute as
decrypted strings, and `trim` equals either composition. -/
theorem claim7_trim (w : List Nat) (p : Nat) (hw : ValidChars w)
    (hcap : w.length + p + 1 < 2 ^ 16) :
    decrypt (trim (encrypt w p))
      = decrypt (trim_end (trim_start (encrypt w p))) ∧
    decrypt (trim (encrypt w p))
      = decrypt (trim_start (trim_end (encrypt w p))) := by
  refine ⟨rfl, ?_⟩
  show decrypt (trim_end (trim_start (encrypt w p)))
    = decrypt (trim_start (trim_end (encrypt w p)))
  rw [show encrypt w p
    = ⟨w ++ List.replicate p 0, decide (0 < p) || decide (w = [])⟩ from rfl]
  generalize hp : (decide (0 < p) || decide (w = [])) = pb
  have hpm : pb = true ∨ p = 0 := by
    by_cases h0 : 0 < p
    · left
      rw [← hp]
      simp [h0]
    · right
      omega
  rw [trim_start_shape w p pb hw hpm (by omega)]
  rw [decrypt_trim_end_pad _ _ (valid_dropWhile w hw)]
  rw [trim_end_shape w p pb hw hpm]
  rw [decrypt_trim_start_pad (trimEndP w)
    (p + (w.reverse.takeWhile (wsB false)).length + (if pb = true then 0 else 1))
    (valid_trimEndP w hw) (by
      have h1 := tw_dw_length (wsB false) w.reverse
      have h2 : (trimEndP w).length
          = (w.reverse.dropWhile (wsB false)).length := by
        unfold trimEndP
        rw [List.length_reverse]
      rw [List.length_reverse] at h1
      have hite : (if pb = true then (0 : Nat) else 1) ≤ 1 := by
        by_cases hb : pb = true
        · rw [if_pos hb]
          omega
        · rw [if_neg hb]
      omega)]
  exact (dropWhile_trimEndP_comm w).symm

/-- Witness for C7 on a concrete padded string with whitespace at both ends. -/
theorem claim7_trim_witness :
    decrypt (trim (encrypt [32, 97, 32] 2))
      = decrypt (trim_end (trim_start (encrypt [32, 97, 32] 2))) ∧
    decrypt (trim (encrypt [32, 97, 32] 2))
      = decrypt (trim_start (trim_end (encrypt [32, 97, 32] 2))) :=
  claim7_trim [32, 97, 32] 2 (by decide) (by decide)

/-! ### C2: the split iterator -/

/-- 16-block (32-bit) wrapping addition (`add_parallelized`). -/
def add32 (a b : Nat) : Nat := (a + b) % 2 ^ 32

/-- The right-shift amount of `split_pat_at_index`: the distance from the
index to the capacity, additionally reduced by the real pattern length in
the inclusive case. -/
def sp_rshift (strN patL index : Nat) (inclusive : Bool) : Nat :=
  if inclusive then sub32 (sub32 strN index) patL else sub32 strN index

/-- `ServerKey::split_pat_at_index`: cut the string at the given encrypted
index, zeroing the matched pattern; the left part comes from a right shift
followed by the reverse left shift, the right part from a left shift past
the pattern.  A padded input marks both halves padded, an unpadded one gets
a NUL appended to both. -/
def split_pat_at_index (str pat : FheString) (index : Nat) (inclusive : Bool) :
    FheString × FheString :=
  if str.padded = true then
    (⟨(left_shift_chars
        (right_shift_chars str (sp_rshift str.chars.length (lenVal pat) index inclusive) 16)
        (sp_rshift str.chars.length (lenVal pat) index inclusive) 16).chars, true⟩,
     ⟨(left_shift_chars str (add32 (lenVal pat) index) 16).chars, true⟩)
  else
    (append_null (left_shift_chars
        (right_shift_chars str (sp_rshift str.chars.length (lenVal pat) index inclusive) 16)
        (sp_rshift str.chars.length (lenVal pat) index inclusive) 16),
     append_null (left_shift_chars str (add32 (lenVal pat) index) 16))

/-- The packed value selected by `conditional_string`: both packed strings
are extended with trivial zero blocks at the least significant end to the
larger width before the homomorphic select. -/
def cs_val (cond : Nat) (t f : FheString) : Nat :=
  selectN cond
    (to_uint t * 256 ^ (max t.chars.length f.chars.length - t.chars.length))
    (to_uint f * 256 ^ (max t.chars.length f.chars.length - f.chars.length))

/-- `ServerKey::conditional_string`: select between the two packed strings;
the result is padded when both inputs are, gets one appended NUL when only
one might be, and is unpadded otherwise. -/
def conditional_string (cond : Nat) (true_ct false_ct : FheString) : FheString :=
  if true_ct.padded && false_ct.padded then
    ⟨(from_uint (cs_val cond true_ct false_ct)
        (max true_ct.chars.length false_ct.chars.length)).chars, true⟩
  else if true_ct.padded || false_ct.padded then
    append_null (from_uint (cs_val cond true_ct false_ct)
      (max true_ct.chars.length false_ct.chars.length))
  else
    from_uint (cs_val cond true_ct false_ct)
      (max true_ct.chars.length false_ct.chars.length)

inductive SplitType where
  | Split
  | RSplit
  | SplitInclusive
deriving Repr, DecidableEq

structure SplitInternalS where
  split_type : SplitType
  state : FheString
  pat : FheString
  prev_was_some : Nat
  counter : Nat
  max_counter : Nat
  counter_lt_max : Nat

/-- `ServerKey::split_internal`: the initial iterator state; `max_counter`
is the real string length plus one. -/
def split_internal (str pat : FheString) (st : SplitType) : SplitInternalS :=
  ⟨st, str, pat, 1, 0, add32 (lenVal str) 1, 1⟩

/-- The 16-block value of `is_empty(pat)` as used inside
`SplitInternal::next` (a padded result is extended with trivial zero
blocks, a clear one is trivially encrypted). -/
def pat_is_empty_val (pat : FheString) : Nat :=
  match is_empty pat with
  | .padding v => v
  | .noPadding b => if b then 1 else 0

/-- The `(index, is_some)` pair computed at the top of
`SplitInternal::next`: `rfind` for the reverse split, `find` otherwise. -/
def splitFound (s : SplitInternalS) : Nat × Nat :=
  match s.split_type with
  | .RSplit => rfind s.state s.pat
  | _ => find s.state s.pat

/-- The split index after the empty-pattern adjustment: from the second
call on, an empty pattern moves the cut by one (backwards for `RSplit`). -/
def splitIndex (s : SplitInternalS) : Nat :=
  if 0 < s.counter then
    match s.split_type with
    | .RSplit => sub32 (splitFound s).1 (pat_is_empty_val s.pat)
    | _ => add32 (splitFound s).1 (pat_is_empty_val s.pat)
  else (splitFound s).1

/-- The two halves cut by `SplitInternal::next`. -/
def splitLR (s : SplitInternalS) : FheString × FheString :=
  split_pat_at_index s.state s.pat (splitIndex s)
    (match s.split_type with | .SplitInclusive => true | _ => false)

/-- `SplitInternal::next`: return the cut half (or the wrapped remaining
state when there was no match), keep the other half as the new state, and
update the `prev_was_some` / `counter_lt_max` / `counter` bookkeeping. -/
def splitNext (s : SplitInternalS) : SplitInternalS × (FheString × Nat) :=
  (⟨s.split_type,
    (match s.split_type with | .RSplit => (splitLR s).1 | _ => (splitLR s).2),
    s.pat,
    (splitFound s).2,
    (s.counter + 1) % 2 ^ 16,
    s.max_counter,
    if s.counter < s.max_counter then 1 else 0⟩,
   ((match s.split_type with
     | .RSplit => conditional_string (splitFound s).2 (splitLR s).2 s.state
     | _ => conditional_string (splitFound s).2 (splitLR s).1 s.state),
    ((splitFound s).2 ||| s.prev_was_some) &&& s.counter_lt_max))

/-- Drive the iterator: the list of `(string, is_some)` outputs of the
given number of `next` calls. -/
def driveSplit : SplitInternalS → Nat → List (FheString × Nat)
  | _, 0 => []
  | s, n + 1 => (splitNext s).2 :: driveSplit (splitNext s).1 n

/-- The decrypted segments whose present flag is set. -/
def yielded (outs : List (FheString × Nat)) : List (List Nat) :=
  (outs.filter (fun o => decide (o.2 ≠ 0))).map (fun o => decrypt o.1)

/-- Concatenate segments interleaved with a separator. -/
def joinWith (sep : List Nat) : List (List Nat) → List Nat
  | [] => []
  | [x] => x
  | x :: y :: xs => x ++ sep ++ joinWith sep (y :: xs)

/-- Plaintext: the byte position of the last occurrence of `t` in `s`. -/
def clear_rfind (s t : List Nat) : Option Nat :=
  (List.range (s.length - t.length + 1)).reverse.find? (fun i => decide (MatchAt s t i))

/-- The plaintext forward split process (visible segments only). -/
def splitSegsF (t : List Nat) : List Nat → Nat → List (List Nat)
  | _, 0 => []
  | r, n + 1 =>
    match clear_find r t with
    | some i => r.take i :: splitSegsF t (r.drop (i + t.length)) n
    | none => [r]

/-- The plaintext reverse split process (visible segments only, in yield
order: rightmost first). -/
def splitSegsR (t : List Nat) : List Nat → Nat → List (List Nat)
  | _, 0 => []
  | r, n + 1 =>
    match clear_rfind r t with
    | some i => r.drop (i + t.length) :: splitSegsR t (r.take i) n
    | none => [r]

/-! ### General shape of the character shifts at arbitrary amounts -/

/-- The effective character shift: `8·j` wraps in the 16-block (32-bit)
shift register and is then reduced to the packed width, so the character
amount is `j` modulo `2^(min 32 (8N) - 3)`. -/
def redShift (j N : Nat) : Nat := j % 2 ^ (min 32 (8 * N) - 3)

theorem pad_or_trim_val_red (j N : Nat) (hN : 1 ≤ N) :
    pad_or_trim_val (8 * j % 2 ^ (2 * 16)) 16 (4 * N) = 8 * redShift j N := by
  unfold pad_or_trim_val redShift
  by_cases h4 : 4 * N < 16
  · rw [if_pos h4]
    have hmin : min 32 (8 * N) = 8 * N := min_eq_right (by omega)
    rw [hmin]
    have hdvd : (2 : Nat) ^ (2 * (4 * N)) ∣ 2 ^ (2 * 16) :=
      pow_dvd_pow 2 (by omega)
    rw [Nat.mod_mod_of_dvd _ hdvd]
    have h1 : (2 : Nat) ^ (2 * (4 * N)) = 8 * 2 ^ (8 * N - 3) := by
      rw [show (8 : Nat) = 2 ^ 3 from rfl, ← pow_add]
      congr 1
      omega
    rw [h1, Nat.mul_mod_mul_left]
  · rw [if_neg h4]
    have hmin : min 32 (8 * N) = 32 := min_eq_left (by omega)
    rw [hmin]
    have h1 : (2 : Nat) ^ (2 * 16) = 8 * 2 ^ (32 - 3) := by
      rw [show (8 : Nat) = 2 ^ 3 from rfl, ← pow_add]
    rw [h1, Nat.mul_mod_mul_left]

/-- `left_shift_chars` at an arbitrary amount: drop the effective number of
leading characters (or zero everything when it reaches the capacity). -/
theorem left_shift_chars_general (v : List Nat) (pad : Bool) (j : Nat)
    (hv : ∀ c ∈ v, c < 256) (hN : 1 ≤ v.length) :
    left_shift_chars ⟨v, pad⟩ j 16
      = if redShift j v.length < v.length
        then ⟨v.drop (redShift j v.length) ++ List.replicate (redShift j v.length) 0,
          false⟩
        else ⟨List.replicate v.length 0, false⟩ := by
  have hred := pad_or_trim_val_red j v.length hN
  unfold left_shift_chars
  rw [show (⟨v, pad⟩ : FheString).chars = v from rfl, hred]
  by_cases hlt : redShift j v.length < v.length
  · rw [if_neg (by omega : ¬ (8 * v.length ≤ 8 * redShift j v.length)), if_pos hlt]
    generalize hkk : redShift j v.length = k at hlt
    have hto : to_uint ⟨v, pad⟩ = packList v := rfl
    have hsplit : packList v
        = packList (v.take k) * 256 ^ (v.length - k) + packList (v.drop k) := by
      conv_lhs => rw [← List.take_append_drop k v]
      rw [packList_append, List.length_drop]
    have h256 : (2 : Nat) ^ (8 * k) = 256 ^ k := by
      rw [pow_mul]
      norm_num
    have h256N : (2 : Nat) ^ (8 * v.length) = 256 ^ v.length := by
      rw [pow_mul]
      norm_num
    have hdlt : packList (v.drop k) < 256 ^ (v.length - k) := by
      have := packList_lt (v.drop k) (fun c hc => hv c (List.drop_subset _ _ hc))
      rwa [List.length_drop] at this
    have hexp : (256 : Nat) ^ (v.length - k) * 256 ^ k = 256 ^ v.length := by
      rw [← pow_add]
      congr 1
      omega
    have hstep : packList v * 256 ^ k % 256 ^ v.length
        = packList (v.drop k) * 256 ^ k := by
      rw [hsplit]
      have hdist : (packList (v.take k) * 256 ^ (v.length - k) + packList (v.drop k))
            * 256 ^ k
          = packList (v.take k) * 256 ^ v.length + packList (v.drop k) * 256 ^ k := by
        calc (packList (v.take k) * 256 ^ (v.length - k) + packList (v.drop k))
              * 256 ^ k
            = packList (v.take k) * (256 ^ (v.length - k) * 256 ^ k)
              + packList (v.drop k) * 256 ^ k := by ring
          _ = _ := by rw [hexp]
      rw [hdist, Nat.add_comm, Nat.add_mul_mod_self_right]
      apply Nat.mod_eq_of_lt
      calc packList (v.drop k) * 256 ^ k
          < 256 ^ (v.length - k) * 256 ^ k := by
            exact (Nat.mul_lt_mul_right (Nat.pos_pow_of_pos _ (by omega))).mpr hdlt
        _ = 256 ^ v.length := hexp
    have hfinal : packList (v.drop k) * 256 ^ k
        = packList (v.drop k ++ List.replicate k 0) := by
      rw [packList_append, packList_replicate_zero, List.length_replicate]
      omega
    rw [hto, h256, h256N, hstep, hfinal]
    have hfu := from_uint_packList (v.drop k ++ List.replicate k 0) (by
      intro c hc
      rcases List.mem_append.1 hc with hc | hc
      · exact hv c (List.drop_subset _ _ hc)
      · rw [List.eq_of_mem_replicate hc]
        omega)
    rw [List.length_append, List.length_drop, List.length_replicate,
      show v.length - k + k = v.length from by omega] at hfu
    exact hfu
  · rw [if_neg hlt, if_pos (by omega : 8 * v.length ≤ 8 * redShift j v.length)]
    exact from_uint_zero v.length

/-- `right_shift_chars` at an arbitrary amount: keep the first characters,
pushed to the back behind the effective number of NULs (or zero everything
when it reaches the capacity). -/
theorem right_shift_chars_general (v : List Nat) (pad : Bool) (j : Nat)
    (hv : ∀ c ∈ v, c < 256) (hN : 1 ≤ v.length) :
    right_shift_chars ⟨v, pad⟩ j 16
      = if redShift j v.length < v.length
        then ⟨List.replicate (redShift j v.length) 0 ++
          v.take (v.length - redShift j v.length), false⟩
        else ⟨List.replicate v.length 0, false⟩ := by
  have hred := pad_or_trim_val_red j v.length hN
  unfold right_shift_chars
  rw [show (⟨v, pad⟩ : FheString).chars = v from rfl, hred]
  by_cases hlt : redShift j v.length < v.length
  · rw [if_neg (by omega : ¬ (8 * v.length ≤ 8 * redShift j v.length)), if_pos hlt]
    generalize hkk : redShift j v.length = k at hlt
    have hto : to_uint ⟨v, pad⟩ = packList v := rfl
    have hsplit : packList v
        = packList (v.take (v.length - k)) * 256 ^ k + packList (v.drop (v.length - k)) := by
      conv_lhs => rw [← List.take_append_drop (v.length - k) v]
      rw [packList_append, List.length_drop, show v.length - (v.length - k) = k from by omega]
    have h256 : (2 : Nat) ^ (8 * k) = 256 ^ k := by
      rw [pow_mul]
      norm_num
    have hdlt : packList (v.drop (v.length - k)) < 256 ^ k := by
      have := packList_lt (v.drop (v.length - k))
        (fun c hc => hv c (List.drop_subset _ _ hc))
      rwa [List.length_drop, show v.length - (v.length - k) = k from by omega] at this
    have hstep : packList v / 256 ^ k = packList (v.take (v.length - k)) := by
      rw [hsplit, Nat.mul_comm, Nat.mul_add_div (Nat.pos_pow_of_pos _ (by omega)),
        Nat.div_eq_of_lt hdlt]
      omega
    have hfinal : packList (v.take (v.length - k))
        = packList (List.replicate k 0 ++ v.take (v.length - k)) := by
      rw [packList_append, packList_replicate_zero]
      omega
    rw [hto, h256, hstep, hfinal]
    have hfu := from_uint_packList (List.replicate k 0 ++ v.take (v.length - k)) (by
      intro c hc
      rcases List.mem_append.1 hc with hc | hc
      · rw [List.eq_of_mem_replicate hc]
        omega
      · exact hv c (List.take_subset _ _ hc))
    rw [List.length_append, List.length_take, List.length_replicate,
      show k + min (v.length - k) v.length = v.length from by omega] at hfu
    exact hfu
  · rw [if_neg hlt, if_pos (by omega : 8 * v.length ≤ 8 * redShift j v.length)]
    exact from_uint_zero v.length

theorem left_shift_chars_nil (pad : Bool) (j : Nat) :
    left_shift_chars ⟨[], pad⟩ j 16 = ⟨[], false⟩ := by
  unfold left_shift_chars
  rw [if_pos (by simp)]
  rfl

theorem right_shift_chars_nil (pad : Bool) (j : Nat) :
    right_shift_chars ⟨[], pad⟩ j 16 = ⟨[], false⟩ := by
  unfold right_shift_chars
  rw [if_pos (by simp)]
  rfl

/-- Small shift amounts are not wrapped by the shift-register arithmetic. -/
theorem redShift_self (j N : Nat) (hj : j ≤ N + 1) (hN : 1 ≤ N)
    (hcap : N < 2 ^ 16) : redShift j N = j := by
  unfold redShift
  apply Nat.mod_eq_of_lt
  by_cases h3 : N ≤ 3
  · rw [min_eq_right (by omega : 8 * N ≤ 32)]
    have h5 : (2 : Nat) ^ 5 ≤ 2 ^ (8 * N - 3) := Nat.pow_le_pow_right (by omega) (by omega)
    have h5v : (2 : Nat) ^ 5 = 32 := by norm_num
    omega
  · rw [min_eq_left (by omega : 32 ≤ 8 * N)]
    have h29 : (2 : Nat) ^ 16 ≤ 2 ^ (32 - 3) := Nat.pow_le_pow_right (by omega) (by omega)
    omega

/-- The wrapped-to-`2^32 - 1` index (underflowed `0 - 1`) always reaches the
saturation branch. -/
theorem redShift_underflow (N : Nat) (hN : 1 ≤ N) (hcap : N < 2 ^ 16) :
    N ≤ redShift (2 ^ 32 - 1) N := by
  have key : ∀ a b : Nat, b ∣ a → 1 ≤ b → b ≤ a → (a - 1) % b = b - 1 := by
    rintro a b ⟨q, rfl⟩ hb hba
    have hq1 : 1 ≤ q := by
      by_contra hq
      have : q = 0 := by omega
      subst this
      simp at hba
      omega
    obtain ⟨q', rfl⟩ : ∃ q', q = q' + 1 := ⟨q - 1, by omega⟩
    have h2 : b * (q' + 1) - 1 = q' * b + (b - 1) := by
      have h3 : b * (q' + 1) = b * q' + b := by ring
      have h4 : b * q' = q' * b := by ring
      omega
    rw [h2, Nat.add_comm, Nat.add_mul_mod_self_right]
    exact Nat.mod_eq_of_lt (by omega)
  unfold redShift
  have he32 : min 32 (8 * N) - 3 ≤ 32 := by
    have := min_le_left 32 (8 * N)
    omega
  have hmod := key (2 ^ 32) (2 ^ (min 32 (8 * N) - 3))
    (pow_dvd_pow 2 he32) (Nat.one_le_two_pow)
    (Nat.pow_le_pow_right (by omega) he32)
  rw [hmod]
  by_cases h3 : N ≤ 3
  · rw [min_eq_right (by omega : 8 * N ≤ 32)]
    have h5 : (2 : Nat) ^ 5 ≤ 2 ^ (8 * N - 3) := Nat.pow_le_pow_right (by omega) (by omega)
    have h5v : (2 : Nat) ^ 5 = 32 := by norm_num
    omega
  · rw [min_eq_left (by omega : 32 ≤ 8 * N)]
    have h29 : (2 : Nat) ^ 16 ≤ 2 ^ (32 - 3) := Nat.pow_le_pow_right (by omega) (by omega)
    omega

/-! ### Shape of `split_pat_at_index` on shaped states -/

theorem add32_small (a b : Nat) (h : a + b < 2 ^ 32) : add32 a b = a + b :=
  Nat.mod_eq_of_lt h

theorem sub32_of_underflow (a : Nat) (ha : a + 1 < 2 ^ 32) :
    sub32 a (2 ^ 32 - 1) = a + 1 := by
  unfold sub32
  rw [Nat.mod_eq_of_lt (show 2 ^ 32 - 1 < 2 ^ 32 by omega)]
  rw [show a + (2 ^ 32 - (2 ^ 32 - 1)) = a + 1 from by omega]
  exact Nat.mod_eq_of_lt ha

theorem take_append_rep0 (r : List Nat) (m i : Nat) (hi : i ≤ r.length + m) :
    (r ++ List.replicate m 0).take i
      = r.take i ++ List.replicate (i - min i r.length) 0 := by
  rw [List.take_append_eq_append_take, List.take_replicate]
  rw [show min (i - r.length) m = i - min i r.length from by omega]

theorem drop_append_rep0 (r : List Nat) (m i : Nat) (hi : i ≤ r.length + m) :
    (r ++ List.replicate m 0).drop i
      = r.drop i ++ List.replicate (r.length + m - max i r.length) 0 := by
  rw [List.drop_append_eq_append_drop, List.drop_replicate]
  rw [show m - (i - r.length) = r.length + m - max i r.length from by omega]

/-- The right half of a split: the state with the effective number of
characters dropped from the front, or all NULs when the shift saturates. -/
def splitRhsChars (r : List Nat) (m L i : Nat) : List Nat :=
  if redShift (add32 L i) (r.length + m) < r.length + m
  then (r ++ List.replicate m 0).drop (redShift (add32 L i) (r.length + m))
    ++ List.replicate (redShift (add32 L i) (r.length + m)) 0
  else List.replicate (r.length + m) 0

theorem shaped_lt_256 (r : List Nat) (m : Nat) (hv : ValidChars r) :
    ∀ c ∈ r ++ List.replicate m 0, c < 256 := by
  intro c hc
  rcases List.mem_append.1 hc with hc | hc
  · have := hv c hc
    omega
  · rw [List.eq_of_mem_replicate hc]
    omega

theorem shaped_length (r : List Nat) (m : Nat) (pb : Bool) :
    (⟨r ++ List.replicate m 0, pb⟩ : FheString).chars.length = r.length + m := by
  simp

/-- The left half of a split at index `i ≤ N`: the first `i` character
slots followed by NULs. -/
theorem split_lhs_shape (r : List Nat) (m : Nat) (pb : Bool) (i : Nat)
    (hv : ValidChars r) (hN : 1 ≤ r.length + m) (hcap : r.length + m < 2 ^ 16)
    (hi : i ≤ r.length + m) :
    left_shift_chars
      (right_shift_chars ⟨r ++ List.replicate m 0, pb⟩
        (sub32 (r.length + m) i) 16)
      (sub32 (r.length + m) i) 16
    = ⟨(r ++ List.replicate m 0).take i
        ++ List.replicate (r.length + m - i) 0, false⟩ := by
  have hlt := shaped_lt_256 r m hv
  have hlen : (r ++ List.replicate m 0).length = r.length + m := by simp
  have hsub : sub32 (r.length + m) i = r.length + m - i :=
    sub32_eq _ _ (by omega) (by omega)
  have hredR : redShift (r.length + m - i) (r ++ List.replicate m 0).length
      = r.length + m - i := by
    rw [hlen]
    exact redShift_self _ _ (by omega) (by omega) hcap
  rw [hsub]
  rw [right_shift_chars_general _ pb _ hlt (by omega), hredR, hlen]
  by_cases hi0 : i = 0
  · subst hi0
    rw [if_neg (by omega)]
    rw [left_shift_chars_general _ false _
      (by
        intro c hc
        rw [List.eq_of_mem_replicate hc]
        omega)
      (by simp; omega)]
    rw [List.length_replicate]
    rw [show redShift (r.length + m - 0) (r.length + m) = r.length + m from by
      rw [Nat.sub_zero]
      exact redShift_self _ _ (by omega) (by omega) hcap]
    rw [if_neg (by omega)]
    simp
  · rw [if_pos (by omega)]
    rw [show r.length + m - (r.length + m - i) = i from by omega]
    have hlen2 : (List.replicate (r.length + m - i) 0
        ++ (r ++ List.replicate m 0).take i).length = r.length + m := by
      rw [List.length_append, List.length_replicate, List.length_take, hlen]
      omega
    rw [left_shift_chars_general _ false _
      (by
        intro c hc
        rcases List.mem_append.1 hc with hc | hc
        · rw [List.eq_of_mem_replicate hc]
          omega
        · exact hlt c (List.take_subset _ _ hc))
      (by rw [hlen2]; omega)]
    rw [hlen2]
    rw [show redShift (r.length + m - i) (r.length + m) = r.length + m - i from
      redShift_self _ _ (by omega) (by omega) hcap]
    rw [if_pos (by omega)]
    rw [List.drop_append_eq_append_drop, List.drop_replicate, List.length_replicate]
    simp

/-- The right half of a split: `left_shift_chars` past the pattern, at an
arbitrary 32-bit index. -/
theorem split_rhs_shape (r : List Nat) (m : Nat) (pb : Bool) (L i : Nat)
    (hv : ValidChars r) (hN : 1 ≤ r.length + m) :
    left_shift_chars ⟨r ++ List.replicate m 0, pb⟩ (add32 L i) 16
      = ⟨splitRhsChars r m L i, false⟩ := by
  have hlt := shaped_lt_256 r m hv
  have hlen : (r ++ List.replicate m 0).length = r.length + m := by simp
  rw [left_shift_chars_general _ pb _ hlt (by omega), hlen]
  unfold splitRhsChars
  split
  · rfl
  · rfl

/-- `split_pat_at_index` on a shaped state, at an index below the capacity. -/
theorem split_pat_at_index_shape (r : List Nat) (m : Nat) (pb : Bool)
    (pat : FheString) (i : Nat) (hv : ValidChars r)
    (hN : 1 ≤ r.length + m) (hcap : r.length + m < 2 ^ 16) (hi : i ≤ r.length + m) :
    split_pat_at_index ⟨r ++ List.replicate m 0, pb⟩ pat i false
      = if pb = true
        then (⟨(r ++ List.replicate m 0).take i
            ++ List.replicate (r.length + m - i) 0, true⟩,
          ⟨splitRhsChars r m (lenVal pat) i, true⟩)
        else (⟨((r ++ List.replicate m 0).take i
            ++ List.replicate (r.length + m - i) 0) ++ [0], true⟩,
          ⟨splitRhsChars r m (lenVal pat) i ++ [0], true⟩) := by
  have hsp : sp_rshift (⟨r ++ List.replicate m 0, pb⟩ : FheString).chars.length
      (lenVal pat) i false = sub32 (r.length + m) i := by
    unfold sp_rshift
    rw [if_neg (by simp), shaped_length]
  unfold split_pat_at_index
  rw [hsp]
  have hA := split_lhs_shape r m pb i hv hN hcap hi
  have hB := split_rhs_shape r m pb (lenVal pat) i hv hN
  cases pb with
  | true =>
    rw [if_pos rfl, if_pos rfl, hA, hB]
  | false =>
    rw [if_neg (by simp), if_neg (by simp), hA, hB]
    rfl

/-- `split_pat_at_index` on a shaped state at the underflowed index
`2^32 - 1` with an (actually) empty pattern: both halves are all NULs. -/
theorem split_pat_at_index_underflow (r : List Nat) (m : Nat) (pb : Bool)
    (pat : FheString) (hv : ValidChars r) (hL : lenVal pat = 0)
    (hN : 1 ≤ r.length + m) (hcap : r.length + m < 2 ^ 16) :
    split_pat_at_index ⟨r ++ List.replicate m 0, pb⟩ pat (2 ^ 32 - 1) false
      = if pb = true
        then (⟨List.replicate (r.length + m) 0, true⟩,
          ⟨List.replicate (r.length + m) 0, true⟩)
        else (⟨List.replicate (r.length + m) 0 ++ [0], true⟩,
          ⟨List.replicate (r.length + m) 0 ++ [0], true⟩) := by
  have hlt := shaped_lt_256 r m hv
  have hlen : (r ++ List.replicate m 0).length = r.length + m := by simp
  have hsp : sp_rshift (⟨r ++ List.replicate m 0, pb⟩ : FheString).chars.length
      (lenVal pat) (2 ^ 32 - 1) false = r.length + m + 1 := by
    unfold sp_rshift
    rw [if_neg (by simp), shaped_length]
    exact sub32_of_underflow _ (by omega)
  have hA : left_shift_chars
      (right_shift_chars ⟨r ++ List.replicate m 0, pb⟩ (r.length + m + 1) 16)
      (r.length + m + 1) 16 = ⟨List.replicate (r.length + m) 0, false⟩ := by
    rw [right_shift_chars_general _ pb _ hlt (by omega), hlen]
    rw [show redShift (r.length + m + 1) (r.length + m) = r.length + m + 1 from
      redShift_self _ _ (by omega) (by omega) hcap]
    rw [if_neg (by omega)]
    rw [left_shift_chars_general _ false _
      (by
        intro c hc
        rw [List.eq_of_mem_replicate hc]
        omega)
      (by simp; omega)]
    rw [List.length_replicate]
    rw [show redShift (r.length + m + 1) (r.length + m) = r.length + m + 1 from
      redShift_self _ _ (by omega) (by omega) hcap]
    rw [if_neg (by omega)]
  have hB : left_shift_chars ⟨r ++ List.replicate m 0, pb⟩
      (add32 (lenVal pat) (2 ^ 32 - 1)) 16
      = ⟨List.replicate (r.length + m) 0, false⟩ := by
    rw [hL, show add32 0 (2 ^ 32 - 1) = 2 ^ 32 - 1 from Nat.mod_eq_of_lt (by omega)]
    rw [left_shift_chars_general _ pb _ hlt (by omega), hlen]
    rw [if_neg (by
      have := redShift_underflow (r.length + m) (by omega) hcap
      omega)]
  unfold split_pat_at_index
  rw [hsp]
  cases pb with
  | true =>
    rw [if_pos rfl, if_pos rfl, hA, hB]
  | false =>
    rw [if_neg (by simp), if_neg (by simp), hA, hB]
    rfl

/-- `split_pat_at_index` on a capacity-0 state. -/
theorem split_pat_at_index_nil (pb : Bool) (pat : FheString) (i : Nat)
    (inc : Bool) :
    split_pat_at_index ⟨[], pb⟩ pat i inc
      = if pb = true then (⟨[], true⟩, ⟨[], true⟩)
        else (⟨[0], true⟩, ⟨[0], true⟩) := by
  unfold split_pat_at_index
  rw [right_shift_chars_nil, left_shift_chars_nil, left_shift_chars_nil]
  cases pb with
  | true => rw [if_pos rfl, if_pos rfl]
  | false =>
    rw [if_neg (by simp), if_neg (by simp)]
    rfl

/-! ### Decryption through `conditional_string` -/

theorem packList_pad (X : List Nat) (d : Nat) :
    packList X * 256 ^ d = packList (X ++ List.replicate d 0) := by
  rw [packList_append, packList_replicate_zero, List.length_replicate]
  omega

theorem decrypt_append_null_shape (v : List Nat) (k : Nat) (hv : ValidChars v) :
    decrypt (append_null ⟨v ++ List.replicate k 0, false⟩) = v := by
  unfold append_null
  show decrypt ⟨(v ++ List.replicate k 0) ++ [0], true⟩ = v
  rw [List.append_assoc,
    show (List.replicate k 0 ++ [0] : List Nat) = List.replicate (k + 1) 0 from
      (List.replicate_succ' _ _).symm]
  exact decrypt_shape v (k + 1) true hv

theorem shaped_valid_256 (a : List Nat) (K : Nat) (hva : ValidChars a) :
    ∀ c ∈ a ++ List.replicate K 0, c < 256 := by
  intro c hc
  rcases List.mem_append.1 hc with hc | hc
  · have := hva c hc
    omega
  · rw [List.eq_of_mem_replicate hc]
    omega

/-- Decrypting the result of `conditional_string` on two shaped inputs
gives the selected content. -/
theorem decrypt_conditional_string (cond : Nat) (tc fc : FheString)
    (a b : List Nat) (ka kb : Nat)
    (hta : tc.chars = a ++ List.replicate ka 0)
    (hfb : fc.chars = b ++ List.replicate kb 0)
    (hva : ValidChars a) (hvb : ValidChars b) :
    decrypt (conditional_string cond tc fc) = if cond = 0 then b else a := by
  have hla : tc.chars.length = a.length + ka := by
    rw [hta]
    simp
  have hlb : fc.chars.length = b.length + kb := by
    rw [hfb]
    simp
  have hlea : tc.chars.length ≤ max tc.chars.length fc.chars.length := le_max_left _ _
  have hleb : fc.chars.length ≤ max tc.chars.length fc.chars.length := le_max_right _ _
  have hfu : from_uint (cs_val cond tc fc) (max tc.chars.length fc.chars.length)
      = if cond = 0
        then (⟨b ++ List.replicate
            (kb + (max tc.chars.length fc.chars.length - fc.chars.length)) 0,
          false⟩ : FheString)
        else ⟨a ++ List.replicate
            (ka + (max tc.chars.length fc.chars.length - tc.chars.length)) 0,
          false⟩ := by
    unfold cs_val selectN to_uint
    by_cases hc : cond = 0
    · rw [if_pos hc, if_pos hc,
        show packList fc.chars = packList (b ++ List.replicate kb 0) from by rw [hfb]]
      rw [packList_pad, List.append_assoc, ← List.replicate_add]
      have hKlen : (b ++ List.replicate
          (kb + (max tc.chars.length fc.chars.length - fc.chars.length)) 0).length
          = max tc.chars.length fc.chars.length := by
        rw [List.length_append, List.length_replicate]
        omega
      have hfu2 := from_uint_packList
        (b ++ List.replicate
          (kb + (max tc.chars.length fc.chars.length - fc.chars.length)) 0)
        (shaped_valid_256 b _ hvb)
      rwa [hKlen] at hfu2
    · rw [if_neg hc, if_neg hc,
        show packList tc.chars = packList (a ++ List.replicate ka 0) from by rw [hta]]
      rw [packList_pad, List.append_assoc, ← List.replicate_add]
      have hKlen : (a ++ List.replicate
          (ka + (max tc.chars.length fc.chars.length - tc.chars.length)) 0).length
          = max tc.chars.length fc.chars.length := by
        rw [List.length_append, List.length_replicate]
        omega
      have hfu2 := from_uint_packList
        (a ++ List.replicate
          (ka + (max tc.chars.length fc.chars.length - tc.chars.length)) 0)
        (shaped_valid_256 a _ hva)
      rwa [hKlen] at hfu2
  unfold conditional_string
  rw [hfu]
  by_cases hc : cond = 0
  · rw [if_pos hc]
    cases htp : tc.padded <;> cases hfp : fc.padded
    · rw [if_neg (by simp), if_neg (by simp)]
      rw [if_pos hc]
      exact decrypt_shape b _ false hvb
    · rw [if_neg (by simp), if_pos (by simp)]
      rw [if_pos hc]
      exact decrypt_append_null_shape b _ hvb
    · rw [if_neg (by simp), if_pos (by simp)]
      rw [if_pos hc]
      exact decrypt_append_null_shape b _ hvb
    · rw [if_pos (by simp)]
      rw [if_pos hc]
      exact decrypt_shape b _ true hvb
  · rw [if_neg hc]
    cases htp : tc.padded <;> cases hfp : fc.padded
    · rw [if_neg (by simp), if_neg (by simp)]
      rw [if_neg hc]
      exact decrypt_shape a _ false hva
    · rw [if_neg (by simp), if_pos (by simp)]
      rw [if_neg hc]
      exact decrypt_append_null_shape a _ hva
    · rw [if_neg (by simp), if_pos (by simp)]
      rw [if_neg hc]
      exact decrypt_append_null_shape a _ hva
    · rw [if_pos (by simp)]
      rw [if_neg hc]
      exact decrypt_shape a _ true hva

/-! ### Decompositions of the split halves -/

theorem splitRhsChars_small (r : List Nat) (m L i : Nat)
    (hji : L + i ≤ r.length + m) (hN : 1 ≤ r.length + m)
    (hcap : r.length + m < 2 ^ 16) :
    splitRhsChars r m L i
      = (r ++ List.replicate m 0).drop (L + i) ++ List.replicate (L + i) 0 := by
  unfold splitRhsChars
  rw [add32_small L i (by omega)]
  rw [redShift_self _ _ (by omega) (by omega) hcap]
  by_cases hlt : L + i < r.length + m
  · rw [if_pos hlt]
  · rw [if_neg hlt]
    have hLi : L + i = r.length + m := by omega
    rw [hLi, List.drop_eq_nil_of_le (by simp), List.nil_append]

theorem splitRhs_decomp (r : List Nat) (m L i : Nat)
    (hji : L + i ≤ r.length + m) (hN : 1 ≤ r.length + m)
    (hcap : r.length + m < 2 ^ 16) :
    splitRhsChars r m L i
      = r.drop (L + i)
        ++ List.replicate (r.length + m - max (L + i) r.length + (L + i)) 0 := by
  rw [splitRhsChars_small r m L i hji hN hcap, drop_append_rep0 r m _ hji,
    List.append_assoc, ← List.replicate_add]

theorem split_lhs_decomp (r : List Nat) (m i : Nat) (hi : i ≤ r.length + m) :
    (r ++ List.replicate m 0).take i ++ List.replicate (r.length + m - i) 0
      = r.take i ++ List.replicate (r.length + m - min i r.length) 0 := by
  rw [take_append_rep0 _ _ _ hi, List.append_assoc, ← List.replicate_add]
  rw [show i - min i r.length + (r.length + m - i)
    = r.length + m - min i r.length from by omega]

/-! ### `find` and `rfind` on shaped states -/

/-- `find` on any state whose characters are a valid content followed by
NULs: whenever the pre-checks pass, the result is the first plaintext
match (as in C3, but for arbitrary shaped states). -/
theorem find_spec (X : FheString) (r t : List Nat) (m q : Nat)
    (hXc : X.chars = r ++ List.replicate m 0)
    (hr : ValidChars r) (ht : ValidChars t)
    (hpb1 : X.padded = true → 1 ≤ m ∨ r = [])
    (hpb2 : X.padded = false → m = 0)
    (hU : length_checks X (encrypt t q) = .Undecided) :
    find X (encrypt t q)
      = (match clear_find r t with
         | some i => (i, 1)
         | none => (0, 0)) := by
  obtain ⟨hP1, hP2, hS1, hS2, hLen⟩ := length_checks_undecided _ _ hU
  have hXa : ∀ i, charAt X.chars i = if i < r.length then charAt r i else 0 := by
    intro i
    rw [hXc]
    exact charAt_append_replicate r m i
  have hXlen : X.chars.length = r.length + m := by
    rw [hXc]
    simp
  rw [find_undecided _ _ hU]
  by_cases hpf : (encrypt t q).padded = false
  · -- unpadded pattern: exact compare over the full views
    obtain ⟨hq0, htne⟩ := (encrypt_padded_false_iff t q).1 hpf
    subst hq0
    have hYc : (encrypt t 0).chars = t := encrypt_chars_zero t
    have htlen : 1 ≤ t.length := by
      have ht0 : t.length ≠ 0 := fun h => htne (List.length_eq_zero.1 h)
      omega
    rw [contains_cases_unpadded_pat _ _ hpf, hpf, hYc]
    show compare_shifted_index X.chars t _ false = _
    rw [compare_shifted_index_desc]
    by_cases hsp : X.padded = true
    · rw [if_pos hsp]
      have hpl : t.length < X.chars.length := by
        have := (hLen hpf).2 hsp
        rwa [hYc] at this
      have hsx : r.length < X.chars.length := by
        rcases hpb1 hsp with h | h
        · rw [hXlen]
          omega
        · subst h
          rw [hXlen] at hS1 ⊢
          simp only [List.length_nil] at *
          omega
      apply find_tail
      · intro i hi
        refine beq_one_eq_decide _ _ (matchBit_zero_or_one _ _ _ _) ?_
        exact matchBit_unpadded_pat r t X.chars ht hXa htlen i (by omega)
      · intro i hM
        have h1 := hM.1
        omega
    · have hsf : X.padded = false := by
        cases h : X.padded
        · rfl
        · exact absurd h hsp
      rw [if_neg hsp]
      have hm0 : m = 0 := hpb2 hsf
      have hsl : X.chars.length = r.length := by
        rw [hXlen, hm0]
        omega
      have hle : t.length ≤ X.chars.length := by
        have := (hLen hpf).1 hsf
        rwa [hYc] at this
      apply find_tail
      · intro i hi
        refine beq_one_eq_decide _ _ (matchBit_zero_or_one _ _ _ _) ?_
        exact matchBit_unpadded_pat r t X.chars ht hXa htlen i (by omega)
      · intro i hM
        have h1 := hM.1
        omega
  · -- padded pattern: the ignore-padding compare over the truncated view
    have hpp : (encrypt t q).padded = true := by
      cases h : (encrypt t q).padded
      · exact absurd h hpf
      · rfl
    by_cases hsp : X.padded = true
    · -- both padded
      have hLX : 2 ≤ X.chars.length := by
        have h1 : X.chars.length ≠ 0 := hS1
        have h2 : X.chars.length ≠ 1 := fun h => hS2 ⟨hsp, h⟩
        omega
      rw [contains_cases_both_padded _ _ hsp hpp, hpp]
      show compare_shifted_index X.chars
        ((encrypt t q).chars.take ((encrypt t q).chars.length - 1)) _ true = _
      rw [compare_shifted_index_desc]
      by_cases htnil : t = []
      · subst htnil
        have hall : ∀ i, (matchBit X.chars
            ((encrypt [] q).chars.take ((encrypt [] q).chars.length - 1)) true i
              == 1) = true := by
          intro i
          have h1 := matchBit_ignore_pad_empty X.chars
            ((encrypt [] q).chars.take ((encrypt [] q).chars.length - 1))
            (fun y hy => by
              have hy2 := List.take_subset _ _ hy
              have hrep : (encrypt [] q).chars = List.replicate q 0 := by
                rw [encrypt_chars]
                rfl
              rw [hrep] at hy2
              exact List.eq_of_mem_replicate hy2) i
          simp [h1]
        rw [find?_range_zero_true _ _ (by omega) (hall 0), clear_find_nil]
      · have hq1 : 0 < q := by
          rcases (encrypt_padded_iff t q).1 hpp with h | h
          · exact h
          · exact absurd h htnil
        have htlen : 1 ≤ t.length := by
          have ht0 : t.length ≠ 0 := fun h => htnil (List.length_eq_zero.1 h)
          omega
        have hsx : r.length < X.chars.length := by
          rcases hpb1 hsp with h | h
          · rw [hXlen]
            omega
          · subst h
            rw [hXlen] at hS1 ⊢
            simp only [List.length_nil] at *
            omega
        have hPa : ∀ j, charAt ((encrypt t q).chars.take
            ((encrypt t q).chars.length - 1)) j
            = if j < t.length then charAt t j else 0 := by
          have := patView_shape t q hq1
          intro j
          have hc : (encrypt t q).chars = t ++ List.replicate q 0 := encrypt_chars t q
          have hl : (encrypt t q).chars.length = t.length + q := encrypt_length t q
          rw [hc, hl] at *
          exact this j
        have hvle : t.length ≤ ((encrypt t q).chars.take
            ((encrypt t q).chars.length - 1)).length := by
          rw [List.length_take, encrypt_length]
          omega
        apply find_tail
        · intro i hi
          refine beq_one_eq_decide _ _ (matchBit_zero_or_one _ _ _ _) ?_
          exact matchBit_ignore_pad r t X.chars _ ht hXa hsx hPa htlen hvle i (by omega)
        · intro i hM
          have h1 := hM.1
          omega
    · -- only the pattern padded: the string view gets one extra NUL
      have hsf : X.padded = false := by
        cases h : X.padded
        · rfl
        · exact absurd h hsp
      have hm0 : m = 0 := hpb2 hsf
      have hsl : X.chars.length = r.length := by
        rw [hXlen, hm0]
        omega
      rw [contains_cases_only_pat_padded _ _ hsf hpp, hpp]
      show compare_shifted_index (X.chars ++ [0])
        ((encrypt t q).chars.take ((encrypt t q).chars.length - 1)) _ true = _
      rw [compare_shifted_index_desc]
      by_cases htnil : t = []
      · subst htnil
        have hall : (matchBit (X.chars ++ [0])
            ((encrypt [] q).chars.take ((encrypt [] q).chars.length - 1)) true 0
              == 1) = true := by
          have h1 := matchBit_ignore_pad_empty (X.chars ++ [0])
            ((encrypt [] q).chars.take ((encrypt [] q).chars.length - 1))
            (fun y hy => by
              have hy2 := List.take_subset _ _ hy
              have hrep : (encrypt [] q).chars = List.replicate q 0 := by
                rw [encrypt_chars]
                rfl
              rw [hrep] at hy2
              exact List.eq_of_mem_replicate hy2) 0
          simp [h1]
        rw [find?_range_zero_true _ _ (by omega) hall, clear_find_nil]
      · have hq1 : 0 < q := by
          rcases (encrypt_padded_iff t q).1 hpp with h | h
          · exact h
          · exact absurd h htnil
        have htlen : 1 ≤ t.length := by
          have ht0 : t.length ≠ 0 := fun h => htnil (List.length_eq_zero.1 h)
          omega
        have hXa0 : ∀ i, charAt (X.chars ++ [0]) i
            = if i < r.length then charAt r i else 0 := by
          intro i
          rw [hXc, List.append_assoc,
            show (List.replicate m 0 ++ [0] : List Nat) = List.replicate (m + 1) 0 from
              (List.replicate_succ' _ _).symm]
          exact charAt_append_replicate r (m + 1) i
        have hsx : r.length < (X.chars ++ [0]).length := by
          rw [List.length_append, hsl]
          simp
        have hPa : ∀ j, charAt ((encrypt t q).chars.take
            ((encrypt t q).chars.length - 1)) j
            = if j < t.length then charAt t j else 0 := by
          have := patView_shape t q hq1
          intro j
          have hc : (encrypt t q).chars = t ++ List.replicate q 0 := encrypt_chars t q
          have hl : (encrypt t q).chars.length = t.length + q := encrypt_length t q
          rw [hc, hl] at *
          exact this j
        have hvle : t.length ≤ ((encrypt t q).chars.take
            ((encrypt t q).chars.length - 1)).length := by
          rw [List.length_take, encrypt_length]
          omega
        apply find_tail
        · intro i hi
          refine matchBit_ignore_pad r t (X.chars ++ [0]) _ ht hXa0 hsx hPa htlen hvle i ?_
            |> fun hiff => beq_one_eq_decide _ _ (matchBit_zero_or_one _ _ _ _) hiff
          rw [List.length_append, hsl]
          simp only [List.length_singleton]
          omega
        · intro i hM
          have h1 := hM.1
          omega

theorem is_empty_encrypt_ne (t : List Nat) (q : Nat) (ht : ValidChars t)
    (htne : t ≠ []) (hpp : (encrypt t q).padded = true) :
    is_empty (encrypt t q) = .padding 0 := by
  rw [is_empty_encrypt_of_padded t q ht hpp]
  rw [if_neg (fun h => htne (List.length_eq_zero.1 h))]

theorem pat_is_empty_val_encrypt (t : List Nat) (q : Nat) (ht : ValidChars t) :
    pat_is_empty_val (encrypt t q) = if t = [] then 1 else 0 := by
  unfold pat_is_empty_val
  by_cases hpp : (encrypt t q).padded = true
  · by_cases htne : t = []
    · subst htne
      rw [is_empty_encrypt_nil q, if_pos rfl]
    · rw [is_empty_encrypt_ne t q ht htne hpp, if_neg htne]
  · have hpf : (encrypt t q).padded = false := by
      cases h : (encrypt t q).padded
      · rfl
      · exact absurd h hpp
    obtain ⟨hq0, htne⟩ := (encrypt_padded_false_iff t q).1 hpf
    rw [is_empty_encrypt_of_unpadded t q hpf, if_neg htne]
    have htl : t.length + q ≠ 0 := by
      have : t.length ≠ 0 := fun h => htne (List.length_eq_zero.1 h)
      omega
    simp [htl]

theorem lenVal_encrypt (t : List Nat) (q : Nat) (ht : ValidChars t) :
    lenVal (encrypt t q) = t.length := by
  rw [show encrypt t q
    = ⟨t ++ List.replicate q 0, decide (0 < q) || decide (t = [])⟩ from rfl]
  apply lenVal_shape t q _ ht
  by_cases hq : 0 < q
  · left
    simp [hq]
  · right
    omega

/-- With a non-empty plaintext pattern and no plaintext match in the
residual content, `find` returns `(0, 0)` whatever pre-check branch is
taken. -/
theorem find_nomatch (r t : List Nat) (m : Nat) (pb : Bool) (q : Nat)
    (hr : ValidChars r) (ht : ValidChars t) (htne : t ≠ [])
    (hpb1 : pb = true → 1 ≤ m ∨ r = [])
    (hpb2 : pb = false → m = 0)
    (hnm : clear_find r t = none) :
    find ⟨r ++ List.replicate m 0, pb⟩ (encrypt t q) = (0, 0) := by
  have htlen : 1 ≤ t.length := by
    have : t.length ≠ 0 := fun h => htne (List.length_eq_zero.1 h)
    omega
  have hPnot : ¬((encrypt t q).chars.length = 0 ∨
      ((encrypt t q).padded = true ∧ (encrypt t q).chars.length = 1)) := by
    rw [encrypt_length]
    rintro (h | ⟨hp, h⟩)
    · omega
    · rcases (encrypt_padded_iff t q).1 hp with h1 | h1
      · omega
      · exact htne h1
  cases hlc : length_checks ⟨r ++ List.replicate m 0, pb⟩ (encrypt t q) with
  | Undecided =>
    rw [find_spec ⟨r ++ List.replicate m 0, pb⟩ r t m q rfl hr ht hpb1 hpb2 hlc,
      hnm]
  | Clear v =>
    have hv : v = false := by
      unfold length_checks at hlc
      rw [if_neg hPnot] at hlc
      by_cases hS : (⟨r ++ List.replicate m 0, pb⟩ : FheString).chars.length = 0 ∨
          ((⟨r ++ List.replicate m 0, pb⟩ : FheString).padded = true ∧
            (⟨r ++ List.replicate m 0, pb⟩ : FheString).chars.length = 1)
      · rw [if_pos hS] at hlc
        cases hie : is_empty (encrypt t q) with
        | padding w =>
          rw [hie] at hlc
          cases hlc
        | noPadding b =>
          rw [hie] at hlc
          cases hlc
          rfl
      · rw [if_neg hS] at hlc
        by_cases hpf : (encrypt t q).padded = false
        · rw [if_pos hpf] at hlc
          split_ifs at hlc <;> cases hlc <;> rfl
        · rw [if_neg hpf] at hlc
          cases hlc
    unfold find
    rw [hlc, hv]
    rfl
  | Cipher v =>
    have hv : v = 0 := by
      unfold length_checks at hlc
      rw [if_neg hPnot] at hlc
      by_cases hS : (⟨r ++ List.replicate m 0, pb⟩ : FheString).chars.length = 0 ∨
          ((⟨r ++ List.replicate m 0, pb⟩ : FheString).padded = true ∧
            (⟨r ++ List.replicate m 0, pb⟩ : FheString).chars.length = 1)
      · rw [if_pos hS] at hlc
        cases hie : is_empty (encrypt t q) with
        | padding w =>
          rw [hie] at hlc
          by_cases hpp : (encrypt t q).padded = true
          · rw [is_empty_encrypt_ne t q ht htne hpp] at hie
            cases hie
            cases hlc
            rfl
          · have hpf : (encrypt t q).padded = false := by
              cases h : (encrypt t q).padded
              · rfl
              · exact absurd h hpp
            rw [is_empty_encrypt_of_unpadded t q hpf] at hie
            cases hie
        | noPadding b =>
          rw [hie] at hlc
          cases hlc
      · rw [if_neg hS] at hlc
        by_cases hpf : (encrypt t q).padded = false
        · rw [if_pos hpf] at hlc
          split_ifs at hlc <;> cases hlc
        · rw [if_neg hpf] at hlc
          cases hlc
    unfold find
    rw [hlc, hv]

/-- With an (actually) empty plaintext pattern, `find` always returns
`(0, 1)` on a shaped state. -/
theorem find_empty_spec (r : List Nat) (m : Nat) (pb : Bool) (q : Nat)
    (hr : ValidChars r)
    (hpb1 : pb = true → 1 ≤ m ∨ r = [])
    (hpb2 : pb = false → m = 0) :
    find ⟨r ++ List.replicate m 0, pb⟩ (encrypt [] q) = (0, 1) := by
  have hppat : (encrypt [] q).padded = true := (encrypt_padded_iff [] q).2 (Or.inr rfl)
  by_cases hP : (encrypt [] q).chars.length = 0 ∨
      ((encrypt [] q).padded = true ∧ (encrypt [] q).chars.length = 1)
  · have hlc : length_checks ⟨r ++ List.replicate m 0, pb⟩ (encrypt [] q)
        = .Clear true := by
      unfold length_checks
      rw [if_pos hP]
    unfold find
    rw [hlc]
    rfl
  · by_cases hS : (⟨r ++ List.replicate m 0, pb⟩ : FheString).chars.length = 0 ∨
        ((⟨r ++ List.replicate m 0, pb⟩ : FheString).padded = true ∧
          (⟨r ++ List.replicate m 0, pb⟩ : FheString).chars.length = 1)
    · have hlc : length_checks ⟨r ++ List.replicate m 0, pb⟩ (encrypt [] q)
          = .Cipher 1 := by
        unfold length_checks
        rw [if_neg hP, if_pos hS, is_empty_encrypt_nil q]
      unfold find
      rw [hlc]
    · have hU : length_checks ⟨r ++ List.replicate m 0, pb⟩ (encrypt [] q)
          = .Undecided := by
        unfold length_checks
        rw [if_neg hP, if_neg hS, if_neg (by rw [hppat]; simp)]
      have hlen0 : (⟨r ++ List.replicate m 0, pb⟩ : FheString).chars.length ≠ 0 :=
        fun h => hS (Or.inl h)
      have hzeros : ∀ y ∈ (encrypt [] q).chars.take ((encrypt [] q).chars.length - 1),
          y = 0 := by
        intro y hy
        have hy2 := List.take_subset _ _ hy
        have hrep : (encrypt [] q).chars = List.replicate q 0 := by
          rw [encrypt_chars]
          rfl
        rw [hrep] at hy2
        exact List.eq_of_mem_replicate hy2
      rw [find_undecided _ _ hU]
      by_cases hsp : (⟨r ++ List.replicate m 0, pb⟩ : FheString).padded = true
      · have hLX : 2 ≤ (⟨r ++ List.replicate m 0, pb⟩ : FheString).chars.length := by
          have h2 : (⟨r ++ List.replicate m 0, pb⟩ : FheString).chars.length ≠ 1 :=
            fun h => hS (Or.inr ⟨hsp, h⟩)
          omega
        rw [contains_cases_both_padded _ _ hsp hppat, hppat]
        show compare_shifted_index (r ++ List.replicate m 0)
          ((encrypt [] q).chars.take ((encrypt [] q).chars.length - 1)) _ true = _
        rw [compare_shifted_index_desc]
        have hall : (matchBit (r ++ List.replicate m 0)
            ((encrypt [] q).chars.take ((encrypt [] q).chars.length - 1)) true 0
              == 1) = true := by
          have h1 := matchBit_ignore_pad_empty (r ++ List.replicate m 0)
            ((encrypt [] q).chars.take ((encrypt [] q).chars.length - 1)) hzeros 0
          simp [h1]
        rw [find?_range_zero_true _ _ (by
          rw [shaped_length] at hLX ⊢
          omega) hall]
      · have hsf : (⟨r ++ List.replicate m 0, pb⟩ : FheString).padded = false := by
          cases h : (⟨r ++ List.replicate m 0, pb⟩ : FheString).padded
          · rfl
          · exact absurd h hsp
        rw [contains_cases_only_pat_padded _ _ hsf hppat, hppat]
        show compare_shifted_index ((r ++ List.replicate m 0) ++ [0])
          ((encrypt [] q).chars.take ((encrypt [] q).chars.length - 1)) _ true = _
        rw [compare_shifted_index_desc]
        have hall : (matchBit ((r ++ List.replicate m 0) ++ [0])
            ((encrypt [] q).chars.take ((encrypt [] q).chars.length - 1)) true 0
              == 1) = true := by
          have h1 := matchBit_ignore_pad_empty ((r ++ List.replicate m 0) ++ [0])
            ((encrypt [] q).chars.take ((encrypt [] q).chars.length - 1)) hzeros 0
          simp only [beq_iff_eq]
          exact h1
        rw [find?_range_zero_true _ _ (by
          rw [shaped_length] at hlen0 ⊢
          omega) hall]

/-! ### The ascending select/or fold computes the last match -/

theorem fold_select_asc (f : Nat → Nat) (hf : ∀ i, f i = 0 ∨ f i = 1)
    (k : Nat) (acc : Nat × Nat) :
    ((List.range k).map (fun i => (i, f i))).foldl
      (fun acc p => (selectN p.2 p.1 acc.1, acc.2 ||| p.2)) acc =
    (match (List.range k).reverse.find? (fun i => f i == 1) with
      | some i => i
      | none => acc.1,
     match (List.range k).reverse.find? (fun i => f i == 1) with
      | some _ => acc.2 ||| 1
      | none => acc.2) := by
  induction k generalizing acc with
  | zero => simp
  | succ k ih =>
    rw [List.range_succ, List.map_append, List.foldl_append, ih, List.reverse_append]
    simp only [List.reverse_singleton, List.singleton_append, List.map_cons,
      List.map_nil, List.foldl_cons, List.foldl_nil]
    rcases hf k with h | h
    · rw [List.find?_cons_of_neg _ (by simp [h])]
      cases hfk : (List.range k).reverse.find? (fun i => f i == 1) with
      | some i => simp [selectN, h]
      | none => simp [selectN, h]
    · rw [List.find?_cons_of_pos _ (by simp [h])]
      cases hfk : (List.range k).reverse.find? (fun i => f i == 1) with
      | some i => simp [selectN, h, Nat.lor_assoc]
      | none => simp [selectN, h]

theorem compare_shifted_index_asc (strV patV : List Nat) (k : Nat) (ip : Bool) :
    compare_shifted_index strV patV (List.range k) ip =
    (match (List.range k).reverse.find? (fun i => matchBit strV patV ip i == 1) with
      | some i => i
      | none => 0,
     match (List.range k).reverse.find? (fun i => matchBit strV patV ip i == 1) with
      | some _ => 1
      | none => 0) := by
  unfold compare_shifted_index
  rw [fold_select_asc (matchBit strV patV ip) (matchBit_zero_or_one strV patV ip) k (0, 0)]
  cases (List.range k).reverse.find? (fun i => matchBit strV patV ip i == 1) <;> rfl

theorem rfind?_range_ext (k : Nat) (p q : Nat → Bool) (h : ∀ i < k, p i = q i) :
    (List.range k).reverse.find? p = (List.range k).reverse.find? q := by
  induction k with
  | zero => simp
  | succ k ih =>
    rw [List.range_succ, List.reverse_append]
    simp only [List.reverse_singleton, List.singleton_append]
    rw [List.find?_cons, List.find?_cons, h k (by omega),
      ih (fun i hi => h i (by omega))]

theorem rfind?_range_shrink (p : Nat → Bool) (k1 d : Nat)
    (h : ∀ i, p i = true → i < k1) :
    (List.range (k1 + d)).reverse.find? p = (List.range k1).reverse.find? p := by
  induction d with
  | zero => rfl
  | succ d ih =>
    have hstep : k1 + (d + 1) = (k1 + d) + 1 := by omega
    rw [hstep, List.range_succ, List.reverse_append]
    simp only [List.reverse_singleton, List.singleton_append]
    rw [List.find?_cons_of_neg _ (by
      cases hp : p (k1 + d)
      · simp
      · exact absurd (h _ hp) (by omega))]
    exact ih

theorem rfind?_range_congr (p : Nat → Bool) (k1 k2 : Nat)
    (h : ∀ i, p i = true → i < k1 ∧ i < k2) :
    (List.range k1).reverse.find? p = (List.range k2).reverse.find? p := by
  rcases le_total k1 k2 with hle | hle
  · obtain ⟨d, rfl⟩ := Nat.exists_eq_add_of_le hle
    rw [rfind?_range_shrink p k1 d (fun i hi => (h i hi).1)]
  · obtain ⟨d, rfl⟩ := Nat.exists_eq_add_of_le hle
    rw [rfind?_range_shrink p k2 d (fun i hi => (h i hi).2)]

/-- Once the per-alignment bits decide plaintext matches and the ascending
enumeration covers every possible match position, the fold result is the
last plaintext match. -/
theorem rfind_tail (s t strV patV : List Nat) (k : Nat) (ip : Bool)
    (hext : ∀ i < k, (matchBit strV patV ip i == 1) = decide (MatchAt s t i))
    (hcover : ∀ i, MatchAt s t i → i < k) :
    ((match (List.range k).reverse.find? (fun i => matchBit strV patV ip i == 1) with
      | some i => i
      | none => 0),
     (match (List.range k).reverse.find? (fun i => matchBit strV patV ip i == 1) with
      | some _ => 1
      | none => 0))
    = (match clear_rfind s t with
       | some i => (i, 1)
       | none => (0, 0)) := by
  have h1 : (List.range k).reverse.find? (fun i => matchBit strV patV ip i == 1)
      = (List.range k).reverse.find? (fun i => decide (MatchAt s t i)) :=
    rfind?_range_ext k _ _ hext
  have h2 : (List.range k).reverse.find? (fun i => decide (MatchAt s t i))
      = clear_rfind s t := by
    unfold clear_rfind
    apply rfind?_range_congr
    intro i hi
    have hM := of_decide_eq_true hi
    refine ⟨hcover i hM, ?_⟩
    have := hM.1
    omega
  rw [h1, h2]
  cases clear_rfind s t <;> rfl

theorem rfind_undecided (str pat : FheString)
    (h : length_checks str pat = .Undecided) :
    rfind str pat =
      if str.padded = true ∧ pat.padded = true then
        (match is_empty pat with
         | .padding b =>
            (selectN b (lenVal str)
              (compare_shifted_index (contains_cases str pat).1
                (contains_cases str pat).2.1 (contains_cases str pat).2.2
                pat.padded).1,
             (compare_shifted_index (contains_cases str pat).1
                (contains_cases str pat).2.1 (contains_cases str pat).2.2
                pat.padded).2)
         | .noPadding _ =>
            compare_shifted_index (contains_cases str pat).1
              (contains_cases str pat).2.1 (contains_cases str pat).2.2 pat.padded)
      else
        compare_shifted_index (contains_cases str pat).1
          (contains_cases str pat).2.1
          (if str.padded = false ∧ pat.padded = true
            then List.range (str.chars.length + 1)
            else (contains_cases str pat).2.2)
          pat.padded := by
  unfold rfind
  rw [h]

/-- `rfind` on a shaped state with a non-empty plaintext pattern: whenever
the pre-checks pass, the result is the last plaintext match. -/
theorem rfind_spec (r t : List Nat) (m : Nat) (pb : Bool) (q : Nat)
    (hr : ValidChars r) (ht : ValidChars t) (htne : t ≠ [])
    (hpb1 : pb = true → 1 ≤ m ∨ r = [])
    (hpb2 : pb = false → m = 0)
    (hU : length_checks ⟨r ++ List.replicate m 0, pb⟩ (encrypt t q) = .Undecided) :
    rfind ⟨r ++ List.replicate m 0, pb⟩ (encrypt t q)
      = (match clear_rfind r t with
         | some i => (i, 1)
         | none => (0, 0)) := by
  obtain ⟨hP1, hP2, hS1, hS2, hLen⟩ := length_checks_undecided _ _ hU
  have hXa : ∀ i, charAt (⟨r ++ List.replicate m 0, pb⟩ : FheString).chars i
      = if i < r.length then charAt r i else 0 :=
    fun i => charAt_append_replicate r m i
  have hXlen : (⟨r ++ List.replicate m 0, pb⟩ : FheString).chars.length
      = r.length + m := shaped_length r m pb
  have htlen : 1 ≤ t.length := by
    have : t.length ≠ 0 := fun h => htne (List.length_eq_zero.1 h)
    omega
  rw [rfind_undecided _ _ hU]
  by_cases hpf : (encrypt t q).padded = false
  · -- unpadded pattern: exact compare, ascending
    obtain ⟨hq0, -⟩ := (encrypt_padded_false_iff t q).1 hpf
    subst hq0
    have hYc : (encrypt t 0).chars = t := encrypt_chars_zero t
    rw [if_neg (by rw [hpf]; rintro ⟨-, h⟩; cases h)]
    rw [if_neg (by rw [hpf]; rintro ⟨-, h⟩; cases h)]
    rw [contains_cases_unpadded_pat _ _ hpf, hpf, hYc]
    show compare_shifted_index (⟨r ++ List.replicate m 0, pb⟩ : FheString).chars t
      (List.range ((⟨r ++ List.replicate m 0, pb⟩ : FheString).chars.length
        - t.length - (if (⟨r ++ List.replicate m 0, pb⟩ : FheString).padded
          then 1 else 0) + 1)) false = _
    rw [compare_shifted_index_asc]
    by_cases hsp : (⟨r ++ List.replicate m 0, pb⟩ : FheString).padded = true
    · rw [if_pos hsp]
      have hpl : t.length < (⟨r ++ List.replicate m 0, pb⟩ : FheString).chars.length := by
        have := (hLen hpf).2 hsp
        rwa [hYc] at this
      have hsx : r.length < (⟨r ++ List.replicate m 0, pb⟩ : FheString).chars.length := by
        rcases hpb1 hsp with h | h
        · rw [hXlen]
          omega
        · subst h
          rw [hXlen] at hS1 ⊢
          simp only [List.length_nil] at *
          omega
      apply rfind_tail
      · intro i hi
        refine beq_one_eq_decide _ _ (matchBit_zero_or_one _ _ _ _) ?_
        exact matchBit_unpadded_pat r t _ ht hXa htlen i (by omega)
      · intro i hM
        have h1 := hM.1
        omega
    · have hsf : (⟨r ++ List.replicate m 0, pb⟩ : FheString).padded = false := by
        cases h : (⟨r ++ List.replicate m 0, pb⟩ : FheString).padded
        · rfl
        · exact absurd h hsp
      rw [if_neg hsp]
      have hm0 : m = 0 := hpb2 hsf
      have hsl : (⟨r ++ List.replicate m 0, pb⟩ : FheString).chars.length
          = r.length := by
        rw [hXlen, hm0]
        omega
      have hle : t.length ≤ (⟨r ++ List.replicate m 0, pb⟩ : FheString).chars.length := by
        have := (hLen hpf).1 hsf
        rwa [hYc] at this
      apply rfind_tail
      · intro i hi
        refine beq_one_eq_decide _ _ (matchBit_zero_or_one _ _ _ _) ?_
        exact matchBit_unpadded_pat r t _ ht hXa htlen i (by omega)
      · intro i hM
        have h1 := hM.1
        omega
  · -- padded pattern
    have hpp : (encrypt t q).padded = true := by
      cases h : (encrypt t q).padded
      · exact absurd h hpf
      · rfl
    have hq1 : 0 < q := by
      rcases (encrypt_padded_iff t q).1 hpp with h | h
      · exact h
      · exact absurd h htne
    have hPa : ∀ j, charAt ((encrypt t q).chars.take
        ((encrypt t q).chars.length - 1)) j
        = if j < t.length then charAt t j else 0 := by
      have := patView_shape t q hq1
      intro j
      have hc : (encrypt t q).chars = t ++ List.replicate q 0 := encrypt_chars t q
      have hl : (encrypt t q).chars.length = t.length + q := encrypt_length t q
      rw [hc, hl] at *
      exact this j
    have hvle : t.length ≤ ((encrypt t q).chars.take
        ((encrypt t q).chars.length - 1)).length := by
      rw [List.length_take, encrypt_length]
      omega
    by_cases hsp : (⟨r ++ List.replicate m 0, pb⟩ : FheString).padded = true
    · -- both padded: ascending fold, then the empty-pattern select is a no-op
      have hsx : r.length < (⟨r ++ List.replicate m 0, pb⟩ : FheString).chars.length := by
        rcases hpb1 hsp with h | h
        · rw [hXlen]
          omega
        · subst h
          rw [hXlen] at hS1 ⊢
          simp only [List.length_nil] at *
          omega
      rw [if_pos ⟨hsp, hpp⟩, is_empty_encrypt_ne t q ht htne hpp]
      rw [contains_cases_both_padded _ _ hsp hpp, hpp]
      have hfold : compare_shifted_index
          (⟨r ++ List.replicate m 0, pb⟩ : FheString).chars
          ((encrypt t q).chars.take ((encrypt t q).chars.length - 1))
          (List.range ((⟨r ++ List.replicate m 0, pb⟩ : FheString).chars.length - 1))
          true
          = (match clear_rfind r t with
             | some i => (i, 1)
             | none => (0, 0)) := by
        rw [compare_shifted_index_asc]
        apply rfind_tail
        · intro i hi
          refine beq_one_eq_decide _ _ (matchBit_zero_or_one _ _ _ _) ?_
          exact matchBit_ignore_pad r t _ _ ht hXa hsx hPa htlen hvle i (by omega)
        · intro i hM
          have h1 := hM.1
          omega
      show (selectN 0 (lenVal ⟨r ++ List.replicate m 0, pb⟩)
        (compare_shifted_index _ _ _ true).1,
        (compare_shifted_index _ _ _ true).2) = _
      rw [hfold]
      cases hcf : clear_rfind r t <;> rfl
    · -- only the pattern padded: the extended enumeration covers the extra NUL
      have hsf : (⟨r ++ List.replicate m 0, pb⟩ : FheString).padded = false := by
        cases h : (⟨r ++ List.replicate m 0, pb⟩ : FheString).padded
        · rfl
        · exact absurd h hsp
      have hm0 : m = 0 := hpb2 hsf
      have hsl : (⟨r ++ List.replicate m 0, pb⟩ : FheString).chars.length
          = r.length := by
        rw [hXlen, hm0]
        omega
      rw [if_neg (by rintro ⟨h, -⟩; exact hsp h)]
      rw [if_pos ⟨hsf, hpp⟩]
      rw [contains_cases_only_pat_padded _ _ hsf hpp, hpp]
      show compare_shifted_index
        ((⟨r ++ List.replicate m 0, pb⟩ : FheString).chars ++ [0])
        ((encrypt t q).chars.take ((encrypt t q).chars.length - 1))
        (List.range ((⟨r ++ List.replicate m 0, pb⟩ : FheString).chars.length + 1))
        true = _
      rw [compare_shifted_index_asc]
      have hXa0 : ∀ i, charAt
          ((⟨r ++ List.replicate m 0, pb⟩ : FheString).chars ++ [0]) i
          = if i < r.length then charAt r i else 0 := by
        intro i
        show charAt ((r ++ List.replicate m 0) ++ [0]) i = _
        rw [List.append_assoc,
          show (List.replicate m 0 ++ [0] : List Nat) = List.replicate (m + 1) 0 from
            (List.replicate_succ' _ _).symm]
        exact charAt_append_replicate r (m + 1) i
      have hsx0 : r.length
          < ((⟨r ++ List.replicate m 0, pb⟩ : FheString).chars ++ [0]).length := by
        rw [List.length_append, hsl]
        simp
      apply rfind_tail
      · intro i hi
        refine beq_one_eq_decide _ _ (matchBit_zero_or_one _ _ _ _) ?_
        refine matchBit_ignore_pad r t _ _ ht hXa0 hsx0 hPa htlen hvle i ?_
        rw [List.length_append, hsl]
        simp only [List.length_singleton]
        omega
      · intro i hM
        have h1 := hM.1
        omega

/-! ### Plaintext search facts -/

theorem clear_find_sound (s t : List Nat) (i : Nat)
    (h : clear_find s t = some i) : MatchAt s t i := by
  unfold clear_find at h
  have h2 := List.find?_some h
  simpa using h2

theorem clear_rfind_sound (s t : List Nat) (i : Nat)
    (h : clear_rfind s t = some i) : MatchAt s t i := by
  unfold clear_rfind at h
  have h2 := List.find?_some h
  simpa using h2

theorem clear_find_none_iff (s t : List Nat) :
    clear_find s t = none ↔ ∀ i, ¬ MatchAt s t i := by
  unfold clear_find
  rw [List.find?_eq_none]
  constructor
  · intro h i hM
    have hi : i < s.length - t.length + 1 := by
      have := hM.1
      omega
    exact (h i (List.mem_range.2 hi)) (decide_eq_true hM)
  · intro h x hx
    simp only [decide_eq_true_eq]
    exact h x

theorem clear_rfind_none_iff (s t : List Nat) :
    clear_rfind s t = none ↔ ∀ i, ¬ MatchAt s t i := by
  unfold clear_rfind
  rw [List.find?_eq_none]
  constructor
  · intro h i hM
    have hi : i < s.length - t.length + 1 := by
      have := hM.1
      omega
    exact (h i (List.mem_reverse.2 (List.mem_range.2 hi))) (decide_eq_true hM)
  · intro h x hx
    simp only [decide_eq_true_eq]
    exact h x

theorem clear_rfind_none_of_find (s t : List Nat) (h : clear_find s t = none) :
    clear_rfind s t = none := by
  rw [clear_rfind_none_iff]
  exact (clear_find_none_iff s t).1 h

theorem MatchAt_shift (s t : List Nat) (a i : Nat) (htl : 1 ≤ t.length)
    (h : MatchAt (s.drop a) t i) :
    MatchAt s t (a + i) := by
  obtain ⟨hlen, hval⟩ := h
  rw [List.length_drop] at hlen
  refine ⟨by omega, fun j hj => ?_⟩
  have hv := hval j hj
  rw [charAt_drop] at hv
  rw [show a + i + j = a + (i + j) from by omega]
  exact hv

theorem clear_find_none_drop (s t : List Nat) (a : Nat) (htl : 1 ≤ t.length)
    (h : clear_find s t = none) : clear_find (s.drop a) t = none := by
  rw [clear_find_none_iff] at *
  intro i hM
  exact h (a + i) (MatchAt_shift s t a i htl hM)

theorem clear_find_nil_none (t : List Nat) (htne : t ≠ []) :
    clear_find [] t = none := by
  rw [clear_find_none_iff]
  rintro i ⟨hl, -⟩
  simp only [List.length_nil] at hl
  have : t.length ≠ 0 := fun h => htne (List.length_eq_zero.1 h)
  omega

theorem clear_rfind_nil_none (t : List Nat) (htne : t ≠ []) :
    clear_rfind [] t = none :=
  clear_rfind_none_of_find [] t (clear_find_nil_none t htne)

/-- A match splits the string into the prefix, the pattern and the rest. -/
theorem MatchAt_decomp (s t : List Nat) (i : Nat) (h : MatchAt s t i) :
    s = s.take i ++ t ++ s.drop (i + t.length) := by
  obtain ⟨hlen, hval⟩ := h
  have hslice : (s.drop i).take t.length = t := by
    apply eq_of_charAt_eq
    · rw [List.length_take, List.length_drop]
      omega
    · intro j hj
      rw [List.length_take, List.length_drop] at hj
      have hjt : j < t.length := by omega
      rw [charAt_take, if_pos hjt, charAt_drop]
      exact hval j hjt
  calc s = s.take i ++ s.drop i := (List.take_append_drop i s).symm
    _ = s.take i ++ ((s.drop i).take t.length ++ (s.drop i).drop t.length) :=
        congrArg (fun x => s.take i ++ x)
          (List.take_append_drop t.length (s.drop i)).symm
    _ = s.take i ++ (t ++ s.drop (i + t.length)) := by
        rw [hslice, List.drop_drop]
    _ = s.take i ++ t ++ s.drop (i + t.length) := by
        rw [List.append_assoc]

/-! ### `length_checks` values against a really non-empty pattern -/

theorem length_checks_clear_val (X : FheString) (t : List Nat) (q : Nat)
    (ht : ValidChars t) (htne : t ≠ []) (v : Bool)
    (hlc : length_checks X (encrypt t q) = .Clear v) : v = false := by
  have htlen : 1 ≤ t.length := by
    have : t.length ≠ 0 := fun h => htne (List.length_eq_zero.1 h)
    omega
  have hPnot : ¬((encrypt t q).chars.length = 0 ∨
      ((encrypt t q).padded = true ∧ (encrypt t q).chars.length = 1)) := by
    rw [encrypt_length]
    rintro (h | ⟨hp, h⟩)
    · omega
    · rcases (encrypt_padded_iff t q).1 hp with h1 | h1
      · omega
      · exact htne h1
  unfold length_checks at hlc
  rw [if_neg hPnot] at hlc
  by_cases hS : X.chars.length = 0 ∨ (X.padded = true ∧ X.chars.length = 1)
  · rw [if_pos hS] at hlc
    cases hie : is_empty (encrypt t q) with
    | padding w =>
      rw [hie] at hlc
      cases hlc
    | noPadding b =>
      rw [hie] at hlc
      cases hlc
      rfl
  · rw [if_neg hS] at hlc
    by_cases hpf : (encrypt t q).padded = false
    · rw [if_pos hpf] at hlc
      split_ifs at hlc <;> cases hlc <;> rfl
    · rw [if_neg hpf] at hlc
      cases hlc

theorem length_checks_cipher_val (X : FheString) (t : List Nat) (q : Nat)
    (ht : ValidChars t) (htne : t ≠ []) (v : Nat)
    (hlc : length_checks X (encrypt t q) = .Cipher v) : v = 0 := by
  have htlen : 1 ≤ t.length := by
    have : t.length ≠ 0 := fun h => htne (List.length_eq_zero.1 h)
    omega
  have hPnot : ¬((encrypt t q).chars.length = 0 ∨
      ((encrypt t q).padded = true ∧ (encrypt t q).chars.length = 1)) := by
    rw [encrypt_length]
    rintro (h | ⟨hp, h⟩)
    · omega
    · rcases (encrypt_padded_iff t q).1 hp with h1 | h1
      · omega
      · exact htne h1
  unfold length_checks at hlc
  rw [if_neg hPnot] at hlc
  by_cases hS : X.chars.length = 0 ∨ (X.padded = true ∧ X.chars.length = 1)
  · rw [if_pos hS] at hlc
    cases hie : is_empty (encrypt t q) with
    | padding w =>
      rw [hie] at hlc
      by_cases hpp : (encrypt t q).padded = true
      · rw [is_empty_encrypt_ne t q ht htne hpp] at hie
        cases hie
        cases hlc
        rfl
      · have hpf : (encrypt t q).padded = false := by
          cases h : (encrypt t q).padded
          · rfl
          · exact absurd h hpp
        rw [is_empty_encrypt_of_unpadded t q hpf] at hie
        cases hie
    | noPadding b =>
      rw [hie] at hlc
      cases hlc
  · rw [if_neg hS] at hlc
    by_cases hpf : (encrypt t q).padded = false
    · rw [if_pos hpf] at hlc
      split_ifs at hlc <;> cases hlc
    · rw [if_neg hpf] at hlc
      cases hlc

/-- With a non-empty plaintext pattern and no plaintext match, `rfind`
returns `(0, 0)` whatever pre-check branch is taken. -/
theorem rfind_nomatch (r t : List Nat) (m : Nat) (pb : Bool) (q : Nat)
    (hr : ValidChars r) (ht : ValidChars t) (htne : t ≠ [])
    (hpb1 : pb = true → 1 ≤ m ∨ r = [])
    (hpb2 : pb = false → m = 0)
    (hnm : clear_rfind r t = none) :
    rfind ⟨r ++ List.replicate m 0, pb⟩ (encrypt t q) = (0, 0) := by
  cases hlc : length_checks ⟨r ++ List.replicate m 0, pb⟩ (encrypt t q) with
  | Undecided =>
    rw [rfind_spec r t m pb q hr ht htne hpb1 hpb2 hlc, hnm]
  | Clear v =>
    have hv := length_checks_clear_val _ t q ht htne v hlc
    unfold rfind
    rw [hlc, hv]
    rfl
  | Cipher v =>
    have hv := length_checks_cipher_val _ t q ht htne v hlc
    unfold rfind
    rw [hlc, hv]

/-- With an (actually) empty plaintext pattern, `rfind` on a shaped state
returns the true length of the content, with the found bit set. -/
theorem rfind_empty_spec (r : List Nat) (m : Nat) (pb : Bool) (q : Nat)
    (hr : ValidChars r)
    (hpb1 : pb = true → 1 ≤ m ∨ r = [])
    (hpb2 : pb = false → m = 0) :
    rfind ⟨r ++ List.replicate m 0, pb⟩ (encrypt [] q) = (r.length, 1) := by
  have hppat : (encrypt [] q).padded = true := (encrypt_padded_iff [] q).2 (Or.inr rfl)
  have hpm : pb = true ∨ m = 0 := by
    cases pb
    · exact Or.inr (hpb2 rfl)
    · exact Or.inl rfl
  have hlv : lenVal ⟨r ++ List.replicate m 0, pb⟩ = r.length :=
    lenVal_shape r m pb hr hpm
  by_cases hP : (encrypt [] q).chars.length = 0 ∨
      ((encrypt [] q).padded = true ∧ (encrypt [] q).chars.length = 1)
  · have hlc : length_checks ⟨r ++ List.replicate m 0, pb⟩ (encrypt [] q)
        = .Clear true := by
      unfold length_checks
      rw [if_pos hP]
    unfold rfind
    rw [hlc]
    show (lenVal ⟨r ++ List.replicate m 0, pb⟩, 1) = _
    rw [hlv]
  · by_cases hS : (⟨r ++ List.replicate m 0, pb⟩ : FheString).chars.length = 0 ∨
        ((⟨r ++ List.replicate m 0, pb⟩ : FheString).padded = true ∧
          (⟨r ++ List.replicate m 0, pb⟩ : FheString).chars.length = 1)
    · have hr0 : r = [] := by
        rcases hS with h | ⟨hp, h⟩
        · rw [shaped_length] at h
          exact List.length_eq_zero.1 (by omega)
        · rcases hpb1 hp with h1 | h1
          · rw [shaped_length] at h
            exact List.length_eq_zero.1 (by omega)
          · exact h1
      have hlc : length_checks ⟨r ++ List.replicate m 0, pb⟩ (encrypt [] q)
          = .Cipher 1 := by
        unfold length_checks
        rw [if_neg hP, if_pos hS, is_empty_encrypt_nil q]
      unfold rfind
      rw [hlc, hr0]
      rfl
    · have hU : length_checks ⟨r ++ List.replicate m 0, pb⟩ (encrypt [] q)
          = .Undecided := by
        unfold length_checks
        rw [if_neg hP, if_neg hS, if_neg (by rw [hppat]; simp)]
      have hlen0 : (⟨r ++ List.replicate m 0, pb⟩ : FheString).chars.length ≠ 0 :=
        fun h => hS (Or.inl h)
      have hzeros : ∀ y ∈ (encrypt [] q).chars.take ((encrypt [] q).chars.length - 1),
          y = 0 := by
        intro y hy
        have hy2 := List.take_subset _ _ hy
        have hrep : (encrypt [] q).chars = List.replicate q 0 := by
          rw [encrypt_chars]
          rfl
        rw [hrep] at hy2
        exact List.eq_of_mem_replicate hy2
      rw [rfind_undecided _ _ hU]
      by_cases hsp : (⟨r ++ List.replicate m 0, pb⟩ : FheString).padded = true
      · have hLX : 2 ≤ (⟨r ++ List.replicate m 0, pb⟩ : FheString).chars.length := by
          have h2 : (⟨r ++ List.replicate m 0, pb⟩ : FheString).chars.length ≠ 1 :=
            fun h => hS (Or.inr ⟨hsp, h⟩)
          omega
        rw [if_pos ⟨hsp, hppat⟩, is_empty_encrypt_nil q]
        rw [contains_cases_both_padded _ _ hsp hppat, hppat]
        have hall : ∀ i < (⟨r ++ List.replicate m 0, pb⟩ : FheString).chars.length - 1,
            matchBit (⟨r ++ List.replicate m 0, pb⟩ : FheString).chars
              ((encrypt [] q).chars.take ((encrypt [] q).chars.length - 1)) true i
              = 1 :=
          fun i _ => matchBit_ignore_pad_empty _ _ hzeros i
        have hfold := compare_shifted_index_asc_all_one
          (⟨r ++ List.replicate m 0, pb⟩ : FheString).chars
          ((encrypt [] q).chars.take ((encrypt [] q).chars.length - 1))
          ((⟨r ++ List.replicate m 0, pb⟩ : FheString).chars.length - 1) true
          (by omega) hall
        show (selectN 1 (lenVal ⟨r ++ List.replicate m 0, pb⟩)
          (compare_shifted_index _ _ _ true).1,
          (compare_shifted_index _ _ _ true).2) = _
        rw [hfold]
        show (lenVal ⟨r ++ List.replicate m 0, pb⟩, 1) = _
        rw [hlv]
      · have hsf : (⟨r ++ List.replicate m 0, pb⟩ : FheString).padded = false := by
          cases h : (⟨r ++ List.replicate m 0, pb⟩ : FheString).padded
          · rfl
          · exact absurd h hsp
        have hm0 : m = 0 := hpb2 hsf
        rw [if_neg (by rintro ⟨h, -⟩; exact hsp h), if_pos ⟨hsf, hppat⟩]
        rw [contains_cases_only_pat_padded _ _ hsf hppat, hppat]
        show compare_shifted_index
          ((⟨r ++ List.replicate m 0, pb⟩ : FheString).chars ++ [0])
          ((encrypt [] q).chars.take ((encrypt [] q).chars.length - 1))
          (List.range ((⟨r ++ List.replicate m 0, pb⟩ : FheString).chars.length + 1))
          true = _
        have hall : ∀ i < (⟨r ++ List.replicate m 0, pb⟩ : FheString).chars.length + 1,
            matchBit ((⟨r ++ List.replicate m 0, pb⟩ : FheString).chars ++ [0])
              ((encrypt [] q).chars.take ((encrypt [] q).chars.length - 1)) true i
              = 1 :=
          fun i _ => matchBit_ignore_pad_empty _ _ hzeros i
        rw [compare_shifted_index_asc_all_one _ _ _ true (by omega) hall]
        rw [shaped_length, hm0]
        rw [show r.length + 0 + 1 - 1 = r.length from by omega]

/-! ### Driving the split iterator -/

theorem splitNext_split (st pat : FheString) (prev k maxc clt : Nat) :
    splitNext ⟨.Split, st, pat, prev, k, maxc, clt⟩
      = (⟨.Split,
          (split_pat_at_index st pat
            (if 0 < k then add32 (find st pat).1 (pat_is_empty_val pat)
             else (find st pat).1) false).2,
          pat, (find st pat).2, (k + 1) % 2 ^ 16, maxc,
          if k < maxc then 1 else 0⟩,
         (conditional_string (find st pat).2
            (split_pat_at_index st pat
              (if 0 < k then add32 (find st pat).1 (pat_is_empty_val pat)
               else (find st pat).1) false).1 st,
          ((find st pat).2 ||| prev) &&& clt)) := rfl

theorem splitNext_rsplit (st pat : FheString) (prev k maxc clt : Nat) :
    splitNext ⟨.RSplit, st, pat, prev, k, maxc, clt⟩
      = (⟨.RSplit,
          (split_pat_at_index st pat
            (if 0 < k then sub32 (rfind st pat).1 (pat_is_empty_val pat)
             else (rfind st pat).1) false).1,
          pat, (rfind st pat).2, (k + 1) % 2 ^ 16, maxc,
          if k < maxc then 1 else 0⟩,
         (conditional_string (rfind st pat).2
            (split_pat_at_index st pat
              (if 0 < k then sub32 (rfind st pat).1 (pat_is_empty_val pat)
               else (rfind st pat).1) false).2 st,
          ((rfind st pat).2 ||| prev) &&& clt)) := rfl

theorem driveSplit_succ (s : SplitInternalS) (n : Nat) :
    driveSplit s (n + 1) = (splitNext s).2 :: driveSplit (splitNext s).1 n := rfl

theorem yielded_cons_zero (s : FheString) (rest : List (FheString × Nat)) :
    yielded ((s, 0) :: rest) = yielded rest := by
  unfold yielded
  rw [List.filter_cons]
  simp

theorem yielded_cons_one (s : FheString) (rest : List (FheString × Nat)) :
    yielded ((s, 1) :: rest) = decrypt s :: yielded rest := by
  unfold yielded
  rw [List.filter_cons]
  simp

theorem splitRhsChars_shaped (r : List Nat) (m L i : Nat)
    (hN : 1 ≤ r.length + m) :
    ∃ j, j ≤ r.length + m ∧
      splitRhsChars r m L i
        = r.drop j ++ List.replicate (r.length + m - max j r.length + j) 0 := by
  unfold splitRhsChars
  by_cases h : redShift (add32 L i) (r.length + m) < r.length + m
  · refine ⟨redShift (add32 L i) (r.length + m), by omega, ?_⟩
    rw [if_pos h, drop_append_rep0 _ _ _ (by omega), List.append_assoc,
      ← List.replicate_add]
  · refine ⟨r.length + m, by omega, ?_⟩
    rw [if_neg h]
    rw [List.drop_eq_nil_of_le (by omega), List.nil_append]
    congr 1
    omega

/-- Once the previous call reported no match (with a really non-empty
pattern), every further forward-split output is hidden. -/
theorem drive_dead_split (t : List Nat) (q : Nat) (ht : ValidChars t)
    (htne : t ≠ []) (fuel : Nat) :
    ∀ (r : List Nat) (m : Nat) (pb : Bool) (k maxc clt : Nat),
    ValidChars r → (pb = true → 1 ≤ m ∨ r = []) → (pb = false → m = 0) →
    r.length + m + (if pb = true then 0 else 1) < 2 ^ 16 →
    clear_find r t = none →
    yielded (driveSplit ⟨.Split, ⟨r ++ List.replicate m 0, pb⟩, encrypt t q,
      0, k, maxc, clt⟩ fuel) = [] := by
  have htlen : 1 ≤ t.length := by
    have : t.length ≠ 0 := fun h => htne (List.length_eq_zero.1 h)
    omega
  induction fuel with
  | zero =>
    intro r m pb k maxc clt _ _ _ _ _
    rfl
  | succ n ih =>
    intro r m pb k maxc clt hr hpb1 hpb2 hcap hnm
    have hcapN : r.length + m < 2 ^ 16 := by
      by_cases hb : pb = true
      · rw [if_pos hb] at hcap
        omega
      · rw [if_neg hb] at hcap
        omega
    rw [driveSplit_succ, splitNext_split]
    have hfind : find ⟨r ++ List.replicate m 0, pb⟩ (encrypt t q) = (0, 0) :=
      find_nomatch r t m pb q hr ht htne hpb1 hpb2 hnm
    rw [hfind]
    have hpe : pat_is_empty_val (encrypt t q) = 0 := by
      rw [pat_is_empty_val_encrypt t q ht, if_neg htne]
    have hidx : (if 0 < k then add32 ((0, 0) : Nat × Nat).1
        (pat_is_empty_val (encrypt t q)) else ((0, 0) : Nat × Nat).1) = 0 := by
      rw [hpe]
      by_cases hk : 0 < k
      · rw [if_pos hk]
        rfl
      · rw [if_neg hk]
    rw [hidx]
    have hflag : ((((0, 0) : Nat × Nat).2 ||| 0) &&& clt) = 0 := by
      simp
    rw [hflag, yielded_cons_zero]
    by_cases hN : 1 ≤ r.length + m
    · rw [split_pat_at_index_shape r m pb (encrypt t q) 0 hr hN hcapN (by omega)]
      obtain ⟨j, hjle, hj⟩ := splitRhsChars_shaped r m (lenVal (encrypt t q)) 0 hN
      have hdl : (r.drop j).length = r.length - j := List.length_drop j r
      have hr' : ValidChars (r.drop j) := fun c hc => hr c (List.drop_subset _ _ hc)
      have hnm' : clear_find (r.drop j) t = none :=
        clear_find_none_drop r t j htlen hnm
      cases pb with
      | true =>
        rw [if_pos rfl]
        show yielded (driveSplit ⟨.Split, ⟨splitRhsChars r m
          (lenVal (encrypt t q)) 0, true⟩, encrypt t q, 0, (k + 1) % 2 ^ 16,
          maxc, if k < maxc then 1 else 0⟩ n) = []
        rw [hj]
        exact ih (r.drop j) _ true _ maxc _ hr'
          (fun _ => by
            rcases hpb1 rfl with h1 | h1
            · left
              omega
            · right
              rw [h1, List.drop_nil])
          (fun h => by cases h)
          (by
            rw [if_pos rfl]
            omega)
          hnm'
      | false =>
        have hcapF : r.length + m + 1 < 2 ^ 16 := by
          simpa using hcap
        rw [if_neg (by simp)]
        show yielded (driveSplit ⟨.Split, ⟨splitRhsChars r m
          (lenVal (encrypt t q)) 0 ++ [0], true⟩, encrypt t q, 0,
          (k + 1) % 2 ^ 16, maxc, if k < maxc then 1 else 0⟩ n) = []
        rw [hj, List.append_assoc,
          show (List.replicate (r.length + m - max j r.length + j) 0 ++ [0] : List Nat)
            = List.replicate (r.length + m - max j r.length + j + 1) 0 from
            (List.replicate_succ' _ _).symm]
        exact ih (r.drop j) _ true _ maxc _ hr' (fun _ => Or.inl (by omega))
          (fun h => by cases h)
          (by
            rw [if_pos rfl]
            omega)
          hnm'
    · have hr0 : r = [] := by
        cases hlen : r with
        | nil => rfl
        | cons a l =>
          rw [hlen] at hN
          simp at hN
      have hm0 : m = 0 := by omega
      subst hr0
      subst hm0
      rw [show ((⟨[] ++ List.replicate 0 0, pb⟩ : FheString))
        = ⟨[], pb⟩ from rfl]
      rw [split_pat_at_index_nil pb (encrypt t q) 0 false]
      cases pb with
      | true =>
        rw [if_pos rfl]
        show yielded (driveSplit ⟨.Split, ⟨[], true⟩, encrypt t q, 0,
          (k + 1) % 2 ^ 16, maxc, if k < maxc then 1 else 0⟩ n) = []
        have := ih [] 0 true ((k + 1) % 2 ^ 16) maxc
          (if k < maxc then 1 else 0) (fun c hc => absurd hc (List.not_mem_nil c))
          (fun _ => Or.inr rfl) (fun h => by cases h) (by simp)
          (clear_find_nil_none t htne)
        simpa using this
      | false =>
        rw [if_neg (by simp)]
        show yielded (driveSplit ⟨.Split, ⟨[0], true⟩, encrypt t q, 0,
          (k + 1) % 2 ^ 16, maxc, if k < maxc then 1 else 0⟩ n) = []
        have := ih [] 1 true ((k + 1) % 2 ^ 16) maxc
          (if k < maxc then 1 else 0) (fun c hc => absurd hc (List.not_mem_nil c))
          (fun _ => Or.inl (by omega)) (fun h => by cases h) (by simp)
          (clear_find_nil_none t htne)
        simpa using this

theorem splitSegsF_succ (t r : List Nat) (n : Nat) :
    splitSegsF t r (n + 1)
      = match clear_find r t with
        | some i => r.take i :: splitSegsF t (r.drop (i + t.length)) n
        | none => [r] := rfl

theorem splitSegsR_succ (t r : List Nat) (n : Nat) :
    splitSegsR t r (n + 1)
      = match clear_rfind r t with
        | some i => r.drop (i + t.length) :: splitSegsR t (r.take i) n
        | none => [r] := rfl

/-- A plaintext match keeps `length_checks` undecided. -/
theorem length_checks_undecided_of_match (r t : List Nat) (m : Nat) (pb : Bool)
    (q : Nat) (ht : ValidChars t) (htne : t ≠ [])
    (hpb1 : pb = true → 1 ≤ m ∨ r = [])
    (i : Nat) (hM : MatchAt r t i) :
    length_checks ⟨r ++ List.replicate m 0, pb⟩ (encrypt t q) = .Undecided := by
  have htlen : 1 ≤ t.length := by
    have : t.length ≠ 0 := fun h => htne (List.length_eq_zero.1 h)
    omega
  have hM1 := hM.1
  have hrlen : 1 ≤ r.length := by omega
  have hPnot : ¬((encrypt t q).chars.length = 0 ∨
      ((encrypt t q).padded = true ∧ (encrypt t q).chars.length = 1)) := by
    rw [encrypt_length]
    rintro (h | ⟨hp, h⟩)
    · omega
    · rcases (encrypt_padded_iff t q).1 hp with h1 | h1
      · omega
      · exact htne h1
  have hSnot : ¬((⟨r ++ List.replicate m 0, pb⟩ : FheString).chars.length = 0 ∨
      ((⟨r ++ List.replicate m 0, pb⟩ : FheString).padded = true ∧
        (⟨r ++ List.replicate m 0, pb⟩ : FheString).chars.length = 1)) := by
    rintro (h | ⟨hp, h⟩)
    · rw [shaped_length] at h
      omega
    · rw [shaped_length] at h
      rcases hpb1 hp with h1 | h1
      · omega
      · rw [h1] at hrlen
        simp at hrlen
  unfold length_checks
  rw [if_neg hPnot, if_neg hSnot]
  by_cases hpf : (encrypt t q).padded = false
  · rw [if_pos hpf]
    obtain ⟨hq0, -⟩ := (encrypt_padded_false_iff t q).1 hpf
    rw [if_neg (by
      rintro ⟨-, hlt⟩
      rw [shaped_length, encrypt_length, hq0] at hlt
      omega)]
    rw [if_neg (by
      rintro ⟨hp, hle⟩
      rw [shaped_length, encrypt_length, hq0] at hle
      rcases hpb1 hp with h1 | h1
      · omega
      · rw [h1] at hrlen
        simp at hrlen)]
  · rw [if_neg hpf]

/-! Projection forms of the split shapes (for syntactic rewriting). -/

theorem split_shape_fst (r : List Nat) (m : Nat) (pb : Bool) (pat : FheString)
    (i : Nat) (hv : ValidChars r) (hN : 1 ≤ r.length + m)
    (hcap : r.length + m < 2 ^ 16) (hi : i ≤ r.length + m) :
    (split_pat_at_index ⟨r ++ List.replicate m 0, pb⟩ pat i false).1
      = if pb = true
        then ⟨(r ++ List.replicate m 0).take i
            ++ List.replicate (r.length + m - i) 0, true⟩
        else ⟨((r ++ List.replicate m 0).take i
            ++ List.replicate (r.length + m - i) 0) ++ [0], true⟩ := by
  rw [split_pat_at_index_shape r m pb pat i hv hN hcap hi]
  cases pb with
  | true => rw [if_pos rfl, if_pos rfl]
  | false => rw [if_neg (by simp), if_neg (by simp)]

theorem split_shape_snd (r : List Nat) (m : Nat) (pb : Bool) (pat : FheString)
    (i : Nat) (hv : ValidChars r) (hN : 1 ≤ r.length + m)
    (hcap : r.length + m < 2 ^ 16) (hi : i ≤ r.length + m) :
    (split_pat_at_index ⟨r ++ List.replicate m 0, pb⟩ pat i false).2
      = if pb = true
        then ⟨splitRhsChars r m (lenVal pat) i, true⟩
        else ⟨splitRhsChars r m (lenVal pat) i ++ [0], true⟩ := by
  rw [split_pat_at_index_shape r m pb pat i hv hN hcap hi]
  cases pb with
  | true => rw [if_pos rfl, if_pos rfl]
  | false => rw [if_neg (by simp), if_neg (by simp)]

theorem split_nil_fst (pb : Bool) (pat : FheString) (i : Nat) (inc : Bool) :
    (split_pat_at_index ⟨[], pb⟩ pat i inc).1
      = if pb = true then ⟨[], true⟩ else ⟨[0], true⟩ := by
  rw [split_pat_at_index_nil pb pat i inc]
  cases pb with
  | true => rw [if_pos rfl, if_pos rfl]
  | false => rw [if_neg (by simp), if_neg (by simp)]

theorem split_nil_snd (pb : Bool) (pat : FheString) (i : Nat) (inc : Bool) :
    (split_pat_at_index ⟨[], pb⟩ pat i inc).2
      = if pb = true then ⟨[], true⟩ else ⟨[0], true⟩ := by
  rw [split_pat_at_index_nil pb pat i inc]
  cases pb with
  | true => rw [if_pos rfl, if_pos rfl]
  | false => rw [if_neg (by simp), if_neg (by simp)]

theorem split_underflow_fst (r : List Nat) (m : Nat) (pb : Bool)
    (pat : FheString) (hv : ValidChars r) (hL : lenVal pat = 0)
    (hN : 1 ≤ r.length + m) (hcap : r.length + m < 2 ^ 16) :
    (split_pat_at_index ⟨r ++ List.replicate m 0, pb⟩ pat (2 ^ 32 - 1) false).1
      = if pb = true then ⟨List.replicate (r.length + m) 0, true⟩
        else ⟨List.replicate (r.length + m) 0 ++ [0], true⟩ := by
  rw [split_pat_at_index_underflow r m pb pat hv hL hN hcap]
  cases pb with
  | true => rw [if_pos rfl, if_pos rfl]
  | false => rw [if_neg (by simp), if_neg (by simp)]

theorem split_underflow_snd (r : List Nat) (m : Nat) (pb : Bool)
    (pat : FheString) (hv : ValidChars r) (hL : lenVal pat = 0)
    (hN : 1 ≤ r.length + m) (hcap : r.length + m < 2 ^ 16) :
    (split_pat_at_index ⟨r ++ List.replicate m 0, pb⟩ pat (2 ^ 32 - 1) false).2
      = if pb = true then ⟨List.replicate (r.length + m) 0, true⟩
        else ⟨List.replicate (r.length + m) 0 ++ [0], true⟩ := by
  rw [split_pat_at_index_underflow r m pb pat hv hL hN hcap]
  cases pb with
  | true => rw [if_pos rfl, if_pos rfl]
  | false => rw [if_neg (by simp), if_neg (by simp)]

/-- The visible forward-split outputs, while every previous call matched,
are exactly the plaintext forward split segments of the residual content. -/
theorem drive_NE_split (t : List Nat) (q : Nat) (ht : ValidChars t)
    (htne : t ≠ []) (fuel : Nat) :
    ∀ (r : List Nat) (m : Nat) (pb : Bool) (k maxc : Nat),
    ValidChars r → (pb = true → 1 ≤ m ∨ r = []) → (pb = false → m = 0) →
    r.length + m + (if pb = true then 0 else 1) < 2 ^ 16 →
    r.length < fuel → k + r.length ≤ maxc → maxc < 2 ^ 16 →
    yielded (driveSplit ⟨.Split, ⟨r ++ List.replicate m 0, pb⟩, encrypt t q,
      1, k, maxc, 1⟩ fuel)
      = splitSegsF t r fuel := by
  have htlen : 1 ≤ t.length := by
    have : t.length ≠ 0 := fun h => htne (List.length_eq_zero.1 h)
    omega
  induction fuel with
  | zero =>
    intro r m pb k maxc _ _ _ _ hfuel _ _
    exact absurd hfuel (by omega)
  | succ n ih =>
    intro r m pb k maxc hr hpb1 hpb2 hcap hfuel hkmax hmaxcap
    have hcapN : r.length + m < 2 ^ 16 := by
      by_cases hb : pb = true
      · rw [if_pos hb] at hcap
        omega
      · rw [if_neg hb] at hcap
        omega
    have hpe : pat_is_empty_val (encrypt t q) = 0 := by
      rw [pat_is_empty_val_encrypt t q ht, if_neg htne]
    rw [driveSplit_succ, splitNext_split, splitSegsF_succ]
    cases hcf : clear_find r t with
    | none =>
      have hfind : find ⟨r ++ List.replicate m 0, pb⟩ (encrypt t q) = (0, 0) :=
        find_nomatch r t m pb q hr ht htne hpb1 hpb2 hcf
      have hf1 : (find ⟨r ++ List.replicate m 0, pb⟩ (encrypt t q)).1 = 0 := by
        rw [hfind]
      have hf2 : (find ⟨r ++ List.replicate m 0, pb⟩ (encrypt t q)).2 = 0 := by
        rw [hfind]
      rw [hf1, hf2]
      have hidx : (if 0 < k then add32 0 (pat_is_empty_val (encrypt t q))
          else 0) = 0 := by
        rw [hpe]
        by_cases hk : 0 < k
        · rw [if_pos hk]
          rfl
        · rw [if_neg hk]
      have hflag : (((0 : Nat) ||| 1) &&& 1) = 1 := by decide
      rw [hidx, hflag, yielded_cons_one]
      by_cases hN : 1 ≤ r.length + m
      · rw [split_shape_fst r m pb (encrypt t q) 0 hr hN hcapN (by omega),
          split_shape_snd r m pb (encrypt t q) 0 hr hN hcapN (by omega)]
        obtain ⟨j, hjle, hj⟩ :=
          splitRhsChars_shaped r m (lenVal (encrypt t q)) 0 hN
        have hdl : (r.drop j).length = r.length - j := List.length_drop j r
        have hr' : ValidChars (r.drop j) :=
          fun c hc => hr c (List.drop_subset _ _ hc)
        have hnm' : clear_find (r.drop j) t = none :=
          clear_find_none_drop r t j htlen hcf
        cases pb with
        | true =>
          rw [if_pos rfl, if_pos rfl]
          have hhead := decrypt_conditional_string 0
            ⟨(r ++ List.replicate m 0).take 0
              ++ List.replicate (r.length + m - 0) 0, true⟩
            ⟨r ++ List.replicate m 0, true⟩
            [] r (r.length + m - 0) m
            (by rw [List.take_zero])
            rfl
            (fun c hc => absurd hc (List.not_mem_nil c))
            hr
          rw [hhead, if_pos rfl, hj]
          have htail := drive_dead_split t q ht htne n (r.drop j)
            (r.length + m - max j r.length + j) true
            ((k + 1) % 2 ^ 16) maxc (if k < maxc then 1 else 0) hr'
            (fun _ => by
              rcases hpb1 rfl with h1 | h1
              · left
                omega
              · right
                rw [h1, List.drop_nil])
            (fun h => by cases h)
            (by rw [if_pos rfl]; omega)
            hnm'
          rw [htail]
        | false =>
          have hcapF : r.length + m + 1 < 2 ^ 16 := by
            simpa using hcap
          rw [if_neg (by simp), if_neg (by simp)]
          have hhead := decrypt_conditional_string 0
            ⟨((r ++ List.replicate m 0).take 0
              ++ List.replicate (r.length + m - 0) 0) ++ [0], true⟩
            ⟨r ++ List.replicate m 0, false⟩
            [] r (r.length + m - 0 + 1) m
            (by
              rw [List.take_zero, List.nil_append, List.nil_append,
                List.replicate_succ'])
            rfl
            (fun c hc => absurd hc (List.not_mem_nil c))
            hr
          rw [hhead, if_pos rfl, hj, List.append_assoc,
            show (List.replicate (r.length + m - max j r.length + j) 0
                ++ [0] : List Nat)
              = List.replicate (r.length + m - max j r.length + j + 1) 0 from
              (List.replicate_succ' _ _).symm]
          have htail := drive_dead_split t q ht htne n (r.drop j)
            (r.length + m - max j r.length + j + 1) true
            ((k + 1) % 2 ^ 16) maxc (if k < maxc then 1 else 0) hr'
            (fun _ => Or.inl (by omega)) (fun h => by cases h)
            (by rw [if_pos rfl]; omega) hnm'
          rw [htail]
      · have hr0 : r = [] := by
          cases hlen : r with
          | nil => rfl
          | cons a l =>
            rw [hlen] at hN
            simp at hN
        have hm0 : m = 0 := by omega
        subst hr0
        subst hm0
        rw [show ((⟨[] ++ List.replicate 0 0, pb⟩ : FheString))
          = ⟨[], pb⟩ from rfl]
        rw [split_nil_fst pb (encrypt t q) 0 false,
          split_nil_snd pb (encrypt t q) 0 false]
        cases pb with
        | true =>
          rw [if_pos rfl]
          have hhead := decrypt_conditional_string 0
            (⟨[], true⟩ : FheString) (⟨[], true⟩ : FheString) [] [] 0 0
            rfl rfl
            (fun c hc => absurd hc (List.not_mem_nil c))
            (fun c hc => absurd hc (List.not_mem_nil c))
          rw [hhead, if_pos rfl]
          have htail := drive_dead_split t q ht htne n [] 0 true
            ((k + 1) % 2 ^ 16) maxc (if k < maxc then 1 else 0)
            (fun c hc => absurd hc (List.not_mem_nil c))
            (fun _ => Or.inr rfl) (fun h => by cases h) (by simp)
            (clear_find_nil_none t htne)
          have htail2 : yielded (driveSplit ⟨.Split, ⟨[], true⟩, encrypt t q,
              0, (k + 1) % 2 ^ 16, maxc, if k < maxc then 1 else 0⟩ n)
              = [] := by
            simpa using htail
          rw [htail2]
        | false =>
          rw [if_neg (by simp)]
          have hhead := decrypt_conditional_string 0
            (⟨[0], true⟩ : FheString) (⟨[], false⟩ : FheString) [] [] 1 0
            rfl rfl
            (fun c hc => absurd hc (List.not_mem_nil c))
            (fun c hc => absurd hc (List.not_mem_nil c))
          rw [hhead, if_pos rfl]
          have htail := drive_dead_split t q ht htne n [] 1 true
            ((k + 1) % 2 ^ 16) maxc (if k < maxc then 1 else 0)
            (fun c hc => absurd hc (List.not_mem_nil c))
            (fun _ => Or.inl (by omega)) (fun h => by cases h) (by simp)
            (clear_find_nil_none t htne)
          have htail2 : yielded (driveSplit ⟨.Split, ⟨[0], true⟩, encrypt t q,
              0, (k + 1) % 2 ^ 16, maxc, if k < maxc then 1 else 0⟩ n)
              = [] := by
            simpa using htail
          rw [htail2]
    | some i =>
      have hM := clear_find_sound r t i hcf
      have hilen : i + t.length ≤ r.length := hM.1
      have hrlen1 : 1 ≤ r.length := by omega
      have hN : 1 ≤ r.length + m := by omega
      have hU := length_checks_undecided_of_match r t m pb q ht htne hpb1 i hM
      have hfind := find_spec ⟨r ++ List.replicate m 0, pb⟩ r t m q rfl
        hr ht hpb1 hpb2 hU
      rw [hcf] at hfind
      have hf1 : (find ⟨r ++ List.replicate m 0, pb⟩ (encrypt t q)).1 = i := by
        rw [hfind]
      have hf2 : (find ⟨r ++ List.replicate m 0, pb⟩ (encrypt t q)).2 = 1 := by
        rw [hfind]
      rw [hf1, hf2]
      have hidx : (if 0 < k then add32 i (pat_is_empty_val (encrypt t q))
          else i) = i := by
        rw [hpe]
        by_cases hk : 0 < k
        · rw [if_pos hk, add32_small i 0 (by omega)]
          omega
        · rw [if_neg hk]
      have hflag : (((1 : Nat) ||| 1) &&& 1) = 1 := by decide
      rw [hidx, hflag, yielded_cons_one]
      have hk1 : (k + 1) % 2 ^ 16 = k + 1 := Nat.mod_eq_of_lt (by omega)
      have hclt : (if k < maxc then (1 : Nat) else 0) = 1 :=
        if_pos (by omega)
      rw [hk1, hclt]
      have hdl2 : (r.drop (i + t.length)).length = r.length - (i + t.length) :=
        List.length_drop _ r
      have hr2 : ValidChars (r.drop (i + t.length)) :=
        fun c hc => hr c (List.drop_subset _ _ hc)
      have hva' : ValidChars (r.take i) :=
        fun c hc => hr c (List.take_subset _ _ hc)
      have hrhs : splitRhsChars r m (lenVal (encrypt t q)) i
          = r.drop (i + t.length)
            ++ List.replicate (m + (i + t.length)) 0 := by
        rw [lenVal_encrypt t q ht,
          splitRhs_decomp r m t.length i (by omega) hN hcapN,
          show t.length + i = i + t.length from by omega,
          show r.length + m - max (i + t.length) r.length + (i + t.length)
            = m + (i + t.length) from by omega]
      rw [split_shape_fst r m pb (encrypt t q) i hr hN hcapN (by omega),
        split_shape_snd r m pb (encrypt t q) i hr hN hcapN (by omega)]
      cases pb with
      | true =>
        rw [if_pos rfl, if_pos rfl]
        have hhead := decrypt_conditional_string 1
          ⟨(r ++ List.replicate m 0).take i
            ++ List.replicate (r.length + m - i) 0, true⟩
          ⟨r ++ List.replicate m 0, true⟩
          (r.take i) r (r.length + m - min i r.length) m
          (split_lhs_decomp r m i (by omega)) rfl hva' hr
        rw [hhead, if_neg (by omega), hrhs]
        have htail := ih (r.drop (i + t.length)) (m + (i + t.length)) true
          (k + 1) maxc hr2 (fun _ => Or.inl (by omega))
          (fun h => by cases h)
          (by rw [if_pos rfl]; omega)
          (by omega) (by omega) hmaxcap
        rw [htail]
      | false =>
        have hcapF : r.length + m + 1 < 2 ^ 16 := by
          simpa using hcap
        rw [if_neg (by simp), if_neg (by simp)]
        have hhead := decrypt_conditional_string 1
          ⟨((r ++ List.replicate m 0).take i
            ++ List.replicate (r.length + m - i) 0) ++ [0], true⟩
          ⟨r ++ List.replicate m 0, false⟩
          (r.take i) r (r.length + m - min i r.length + 1) m
          (by
            rw [split_lhs_decomp r m i (by omega), List.append_assoc,
              show (List.replicate (r.length + m - min i r.length) 0
                  ++ [0] : List Nat)
                = List.replicate (r.length + m - min i r.length + 1) 0 from
                (List.replicate_succ' _ _).symm])
          rfl hva' hr
        rw [hhead, if_neg (by omega), hrhs, List.append_assoc,
          show (List.replicate (m + (i + t.length)) 0 ++ [0] : List Nat)
            = List.replicate (m + (i + t.length) + 1) 0 from
            (List.replicate_succ' _ _).symm]
        have htail := ih (r.drop (i + t.length)) (m + (i + t.length) + 1) true
          (k + 1) maxc hr2 (fun _ => Or.inl (by omega))
          (fun h => by cases h)
          (by rw [if_pos rfl]; omega)
          (by omega) (by omega) hmaxcap
        rw [htail]

/-- Once the previous call reported no match (with a really non-empty
pattern), every further reverse-split output is hidden. -/
theorem drive_dead_rsplit (t : List Nat) (q : Nat) (ht : ValidChars t)
    (htne : t ≠ []) (fuel : Nat) :
    ∀ (r : List Nat) (m : Nat) (pb : Bool) (k maxc clt : Nat),
    ValidChars r → (pb = true → 1 ≤ m ∨ r = []) → (pb = false → m = 0) →
    r.length + m + (if pb = true then 0 else 1) < 2 ^ 16 →
    clear_rfind r t = none →
    yielded (driveSplit ⟨.RSplit, ⟨r ++ List.replicate m 0, pb⟩, encrypt t q,
      0, k, maxc, clt⟩ fuel) = [] := by
  induction fuel with
  | zero =>
    intro r m pb k maxc clt _ _ _ _ _
    rfl
  | succ n ih =>
    intro r m pb k maxc clt hr hpb1 hpb2 hcap hnm
    have hcapN : r.length + m < 2 ^ 16 := by
      by_cases hb : pb = true
      · rw [if_pos hb] at hcap
        omega
      · rw [if_neg hb] at hcap
        omega
    rw [driveSplit_succ, splitNext_rsplit]
    have hfind : rfind ⟨r ++ List.replicate m 0, pb⟩ (encrypt t q) = (0, 0) :=
      rfind_nomatch r t m pb q hr ht htne hpb1 hpb2 hnm
    have hf1 : (rfind ⟨r ++ List.replicate m 0, pb⟩ (encrypt t q)).1 = 0 := by
      rw [hfind]
    have hf2 : (rfind ⟨r ++ List.replicate m 0, pb⟩ (encrypt t q)).2 = 0 := by
      rw [hfind]
    rw [hf1, hf2]
    have hpe : pat_is_empty_val (encrypt t q) = 0 := by
      rw [pat_is_empty_val_encrypt t q ht, if_neg htne]
    have hidx : (if 0 < k then sub32 0 (pat_is_empty_val (encrypt t q))
        else 0) = 0 := by
      rw [hpe]
      by_cases hk : 0 < k
      · rw [if_pos hk]
        rfl
      · rw [if_neg hk]
    rw [hidx]
    have hflag : (((0 : Nat) ||| 0) &&& clt) = 0 := by
      simp
    rw [hflag, yielded_cons_zero]
    by_cases hN : 1 ≤ r.length + m
    · rw [split_shape_fst r m pb (encrypt t q) 0 hr hN hcapN (by omega)]
      cases pb with
      | true =>
        rw [if_pos rfl, split_lhs_decomp r m 0 (by omega), List.take_zero,
          show r.length + m - min 0 r.length = r.length + m from by omega]
        exact ih [] (r.length + m) true _ maxc _
          (fun c hc => absurd hc (List.not_mem_nil c))
          (fun _ => Or.inl (by omega)) (fun h => by cases h) (by simp; omega)
          (clear_rfind_nil_none t htne)
      | false =>
        have hcapF : r.length + m + 1 < 2 ^ 16 := by
          simpa using hcap
        rw [if_neg (by simp), split_lhs_decomp r m 0 (by omega), List.take_zero,
          show r.length + m - min 0 r.length = r.length + m from by omega,
          List.nil_append,
          show (List.replicate (r.length + m) 0 ++ [0] : List Nat)
            = List.replicate (r.length + m + 1) 0 from
            (List.replicate_succ' _ _).symm]
        have htail := ih [] (r.length + m + 1) true ((k + 1) % 2 ^ 16) maxc
          (if k < maxc then 1 else 0)
          (fun c hc => absurd hc (List.not_mem_nil c))
          (fun _ => Or.inl (by omega)) (fun h => by cases h) (by simp; omega)
          (clear_rfind_nil_none t htne)
        simpa using htail
    · have hr0 : r = [] := by
        cases hlen : r with
        | nil => rfl
        | cons a l =>
          rw [hlen] at hN
          simp at hN
      have hm0 : m = 0 := by omega
      subst hr0
      subst hm0
      rw [show ((⟨[] ++ List.replicate 0 0, pb⟩ : FheString))
        = ⟨[], pb⟩ from rfl]
      rw [split_nil_fst pb (encrypt t q) 0 false]
      cases pb with
      | true =>
        rw [if_pos rfl]
        have htail := ih [] 0 true ((k + 1) % 2 ^ 16) maxc
          (if k < maxc then 1 else 0)
          (fun c hc => absurd hc (List.not_mem_nil c))
          (fun _ => Or.inr rfl) (fun h => by cases h) (by simp)
          (clear_rfind_nil_none t htne)
        simpa using htail
      | false =>
        rw [if_neg (by simp)]
        have htail := ih [] 1 true ((k + 1) % 2 ^ 16) maxc
          (if k < maxc then 1 else 0)
          (fun c hc => absurd hc (List.not_mem_nil c))
          (fun _ => Or.inl (by omega)) (fun h => by cases h) (by simp)
          (clear_rfind_nil_none t htne)
        simpa using htail

/-- The visible reverse-split outputs, while every previous call matched,
are exactly the plaintext reverse split segments of the residual content. -/
theorem drive_NE_rsplit (t : List Nat) (q : Nat) (ht : ValidChars t)
    (htne : t ≠ []) (fuel : Nat) :
    ∀ (r : List Nat) (m : Nat) (pb : Bool) (k maxc : Nat),
    ValidChars r → (pb = true → 1 ≤ m ∨ r = []) → (pb = false → m = 0) →
    r.length + m + (if pb = true then 0 else 1) < 2 ^ 16 →
    r.length < fuel → k + r.length ≤ maxc → maxc < 2 ^ 16 →
    yielded (driveSplit ⟨.RSplit, ⟨r ++ List.replicate m 0, pb⟩, encrypt t q,
      1, k, maxc, 1⟩ fuel)
      = splitSegsR t r fuel := by
  have htlen : 1 ≤ t.length := by
    have : t.length ≠ 0 := fun h => htne (List.length_eq_zero.1 h)
    omega
  induction fuel with
  | zero =>
    intro r m pb k maxc _ _ _ _ hfuel _ _
    exact absurd hfuel (by omega)
  | succ n ih =>
    intro r m pb k maxc hr hpb1 hpb2 hcap hfuel hkmax hmaxcap
    have hcapN : r.length + m < 2 ^ 16 := by
      by_cases hb : pb = true
      · rw [if_pos hb] at hcap
        omega
      · rw [if_neg hb] at hcap
        omega
    have hpe : pat_is_empty_val (encrypt t q) = 0 := by
      rw [pat_is_empty_val_encrypt t q ht, if_neg htne]
    rw [driveSplit_succ, splitNext_rsplit, splitSegsR_succ]
    cases hcf : clear_rfind r t with
    | none =>
      have hfind : rfind ⟨r ++ List.replicate m 0, pb⟩ (encrypt t q) = (0, 0) :=
        rfind_nomatch r t m pb q hr ht htne hpb1 hpb2 hcf
      have hf1 : (rfind ⟨r ++ List.replicate m 0, pb⟩ (encrypt t q)).1 = 0 := by
        rw [hfind]
      have hf2 : (rfind ⟨r ++ List.replicate m 0, pb⟩ (encrypt t q)).2 = 0 := by
        rw [hfind]
      rw [hf1, hf2]
      have hidx : (if 0 < k then sub32 0 (pat_is_empty_val (encrypt t q))
          else 0) = 0 := by
        rw [hpe]
        by_cases hk : 0 < k
        · rw [if_pos hk]
          rfl
        · rw [if_neg hk]
      have hflag : (((0 : Nat) ||| 1) &&& 1) = 1 := by decide
      rw [hidx, hflag, yielded_cons_one]
      by_cases hN : 1 ≤ r.length + m
      · rw [split_shape_fst r m pb (encrypt t q) 0 hr hN hcapN (by omega),
          split_shape_snd r m pb (encrypt t q) 0 hr hN hcapN (by omega)]
        obtain ⟨j, hjle, hj⟩ :=
          splitRhsChars_shaped r m (lenVal (encrypt t q)) 0 hN
        have hr' : ValidChars (r.drop j) :=
          fun c hc => hr c (List.drop_subset _ _ hc)
        cases pb with
        | true =>
          rw [if_pos rfl, if_pos rfl, hj]
          have hhead := decrypt_conditional_string 0
            ⟨r.drop j ++ List.replicate (r.length + m - max j r.length + j) 0,
              true⟩
            ⟨r ++ List.replicate m 0, true⟩
            (r.drop j) r (r.length + m - max j r.length + j) m
            rfl rfl hr' hr
          rw [hhead, if_pos rfl, split_lhs_decomp r m 0 (by omega),
            List.take_zero,
            show r.length + m - min 0 r.length = r.length + m from by omega]
          have htail := drive_dead_rsplit t q ht htne n [] (r.length + m) true
            ((k + 1) % 2 ^ 16) maxc (if k < maxc then 1 else 0)
            (fun c hc => absurd hc (List.not_mem_nil c))
            (fun _ => Or.inl (by omega)) (fun h => by cases h) (by simp; omega)
            (clear_rfind_nil_none t htne)
          rw [htail]
        | false =>
          have hcapF : r.length + m + 1 < 2 ^ 16 := by
            simpa using hcap
          rw [if_neg (by simp), if_neg (by simp), hj]
          have hhead := decrypt_conditional_string 0
            ⟨(r.drop j
              ++ List.replicate (r.length + m - max j r.length + j) 0) ++ [0],
              true⟩
            ⟨r ++ List.replicate m 0, false⟩
            (r.drop j) r (r.length + m - max j r.length + j + 1) m
            (by
              rw [List.append_assoc,
                show (List.replicate (r.length + m - max j r.length + j) 0
                    ++ [0] : List Nat)
                  = List.replicate (r.length + m - max j r.length + j + 1) 0
                  from (List.replicate_succ' _ _).symm])
            rfl hr' hr
          rw [hhead, if_pos rfl, split_lhs_decomp r m 0 (by omega),
            List.take_zero,
            show r.length + m - min 0 r.length = r.length + m from by omega,
            List.nil_append,
            show (List.replicate (r.length + m) 0 ++ [0] : List Nat)
              = List.replicate (r.length + m + 1) 0 from
              (List.replicate_succ' _ _).symm]
          have htail := drive_dead_rsplit t q ht htne n []
            (r.length + m + 1) true
            ((k + 1) % 2 ^ 16) maxc (if k < maxc then 1 else 0)
            (fun c hc => absurd hc (List.not_mem_nil c))
            (fun _ => Or.inl (by omega)) (fun h => by cases h) (by simp; omega)
            (clear_rfind_nil_none t htne)
          have htail2 : yielded (driveSplit ⟨.RSplit,
              ⟨List.replicate (r.length + m + 1) 0, true⟩, encrypt t q,
              0, (k + 1) % 2 ^ 16, maxc, if k < maxc then 1 else 0⟩ n)
              = [] := by
            simpa using htail
          rw [htail2]
      · have hr0 : r = [] := by
          cases hlen : r with
          | nil => rfl
          | cons a l =>
            rw [hlen] at hN
            simp at hN
        have hm0 : m = 0 := by omega
        subst hr0
        subst hm0
        rw [show ((⟨[] ++ List.replicate 0 0, pb⟩ : FheString))
          = ⟨[], pb⟩ from rfl]
        rw [split_nil_fst pb (encrypt t q) 0 false,
          split_nil_snd pb (encrypt t q) 0 false]
        cases pb with
        | true =>
          rw [if_pos rfl]
          have hhead := decrypt_conditional_string 0
            (⟨[], true⟩ : FheString) (⟨[], true⟩ : FheString) [] [] 0 0
            rfl rfl
            (fun c hc => absurd hc (List.not_mem_nil c))
            (fun c hc => absurd hc (List.not_mem_nil c))
          rw [hhead, if_pos rfl]
          have htail := drive_dead_rsplit t q ht htne n [] 0 true
            ((k + 1) % 2 ^ 16) maxc (if k < maxc then 1 else 0)
            (fun c hc => absurd hc (List.not_mem_nil c))
            (fun _ => Or.inr rfl) (fun h => by cases h) (by simp)
            (clear_rfind_nil_none t htne)
          have htail2 : yielded (driveSplit ⟨.RSplit, ⟨[], true⟩, encrypt t q,
              0, (k + 1) % 2 ^ 16, maxc, if k < maxc then 1 else 0⟩ n)
              = [] := by
            simpa using htail
          rw [htail2]
        | false =>
          rw [if_neg (by simp)]
          have hhead := decrypt_conditional_string 0
            (⟨[0], true⟩ : FheString) (⟨[], false⟩ : FheString) [] [] 1 0
            rfl rfl
            (fun c hc => absurd hc (List.not_mem_nil c))
            (fun c hc => absurd hc (List.not_mem_nil c))
          rw [hhead, if_pos rfl]
          have htail := drive_dead_rsplit t q ht htne n [] 1 true
            ((k + 1) % 2 ^ 16) maxc (if k < maxc then 1 else 0)
            (fun c hc => absurd hc (List.not_mem_nil c))
            (fun _ => Or.inl (by omega)) (fun h => by cases h) (by simp)
            (clear_rfind_nil_none t htne)
          have htail2 : yielded (driveSplit ⟨.RSplit, ⟨[0], true⟩, encrypt t q,
              0, (k + 1) % 2 ^ 16, maxc, if k < maxc then 1 else 0⟩ n)
              = [] := by
            simpa using htail
          rw [htail2]
    | some i =>
      have hM := clear_rfind_sound r t i hcf
      have hilen : i + t.length ≤ r.length := hM.1
      have hrlen1 : 1 ≤ r.length := by omega
      have hN : 1 ≤ r.length + m := by omega
      have hU := length_checks_undecided_of_match r t m pb q ht htne hpb1 i hM
      have hfind := rfind_spec r t m pb q hr ht htne hpb1 hpb2 hU
      rw [hcf] at hfind
      have hf1 : (rfind ⟨r ++ List.replicate m 0, pb⟩ (encrypt t q)).1 = i := by
        rw [hfind]
      have hf2 : (rfind ⟨r ++ List.replicate m 0, pb⟩ (encrypt t q)).2 = 1 := by
        rw [hfind]
      rw [hf1, hf2]
      have hidx : (if 0 < k then sub32 i (pat_is_empty_val (encrypt t q))
          else i) = i := by
        rw [hpe]
        by_cases hk : 0 < k
        · rw [if_pos hk, sub32_eq i 0 (by omega) (by omega)]
          omega
        · rw [if_neg hk]
      have hflag : (((1 : Nat) ||| 1) &&& 1) = 1 := by decide
      rw [hidx, hflag, yielded_cons_one]
      have hk1 : (k + 1) % 2 ^ 16 = k + 1 := Nat.mod_eq_of_lt (by omega)
      have hclt : (if k < maxc then (1 : Nat) else 0) = 1 :=
        if_pos (by omega)
      rw [hk1, hclt]
      have hdl2 : (r.take i).length = i := by
        rw [List.length_take]
        omega
      have hr2 : ValidChars (r.drop (i + t.length)) :=
        fun c hc => hr c (List.drop_subset _ _ hc)
      have hva' : ValidChars (r.take i) :=
        fun c hc => hr c (List.take_subset _ _ hc)
      have hrhs : splitRhsChars r m (lenVal (encrypt t q)) i
          = r.drop (i + t.length)
            ++ List.replicate (m + (i + t.length)) 0 := by
        rw [lenVal_encrypt t q ht,
          splitRhs_decomp r m t.length i (by omega) hN hcapN,
          show t.length + i = i + t.length from by omega,
          show r.length + m - max (i + t.length) r.length + (i + t.length)
            = m + (i + t.length) from by omega]
      rw [split_shape_fst r m pb (encrypt t q) i hr hN hcapN (by omega),
        split_shape_snd r m pb (encrypt t q) i hr hN hcapN (by omega)]
      cases pb with
      | true =>
        rw [if_pos rfl, if_pos rfl, hrhs]
        have hhead := decrypt_conditional_string 1
          ⟨r.drop (i + t.length)
            ++ List.replicate (m + (i + t.length)) 0, true⟩
          ⟨r ++ List.replicate m 0, true⟩
          (r.drop (i + t.length)) r (m + (i + t.length)) m
          rfl rfl hr2 hr
        rw [hhead, if_neg (by omega), split_lhs_decomp r m i (by omega)]
        have htail := ih (r.take i) (r.length + m - min i r.length) true
          (k + 1) maxc hva' (fun _ => Or.inl (by omega))
          (fun h => by cases h)
          (by rw [if_pos rfl]; omega)
          (by omega) (by omega) hmaxcap
        rw [htail]
      | false =>
        have hcapF : r.length + m + 1 < 2 ^ 16 := by
          simpa using hcap
        rw [if_neg (by simp), if_neg (by simp), hrhs]
        have hhead := decrypt_conditional_string 1
          ⟨(r.drop (i + t.length)
            ++ List.replicate (m + (i + t.length)) 0) ++ [0], true⟩
          ⟨r ++ List.replicate m 0, false⟩
          (r.drop (i + t.length)) r (m + (i + t.length) + 1) m
          (by
            rw [List.append_assoc,
              show (List.replicate (m + (i + t.length)) 0 ++ [0] : List Nat)
                = List.replicate (m + (i + t.length) + 1) 0 from
                (List.replicate_succ' _ _).symm])
          rfl hr2 hr
        rw [hhead, if_neg (by omega), split_lhs_decomp r m i (by omega),
          List.append_assoc,
          show (List.replicate (r.length + m - min i r.length) 0
              ++ [0] : List Nat)
            = List.replicate (r.length + m - min i r.length + 1) 0 from
            (List.replicate_succ' _ _).symm]
        have htail := ih (r.take i) (r.length + m - min i r.length + 1) true
          (k + 1) maxc hva' (fun _ => Or.inl (by omega))
          (fun h => by cases h)
          (by rw [if_pos rfl]; omega)
          (by omega) (by omega) hmaxcap
        rw [htail]


/-! ### Reconstruction of the plaintext from the split segments -/

theorem joinWith_cons_ne (sep a : List Nat) (rest : List (List Nat))
    (h : rest ≠ []) :
    joinWith sep (a :: rest) = a ++ sep ++ joinWith sep rest := by
  cases rest with
  | nil => exact absurd rfl h
  | cons b xs => rfl

theorem joinWith_append_singleton (sep y : List Nat) :
    ∀ (xs : List (List Nat)), xs ≠ [] →
    joinWith sep (xs ++ [y]) = joinWith sep xs ++ sep ++ y := by
  intro xs
  induction xs with
  | nil =>
    intro h
    exact absurd rfl h
  | cons a l ih =>
    intro _
    cases l with
    | nil => rfl
    | cons b xs2 =>
      rw [List.cons_append,
        joinWith_cons_ne sep a ((b :: xs2) ++ [y]) (by simp),
        ih (by simp),
        joinWith_cons_ne sep a (b :: xs2) (by simp),
        List.append_assoc (a ++ sep), List.append_assoc (a ++ sep)]

theorem splitSegsF_ne_nil (t r : List Nat) (n : Nat) (hn : 1 ≤ n) :
    splitSegsF t r n ≠ [] := by
  cases n with
  | zero => omega
  | succ k =>
    rw [splitSegsF_succ]
    cases clear_find r t with
    | some i => simp
    | none => simp

theorem splitSegsR_ne_nil (t r : List Nat) (n : Nat) (hn : 1 ≤ n) :
    splitSegsR t r n ≠ [] := by
  cases n with
  | zero => omega
  | succ k =>
    rw [splitSegsR_succ]
    cases clear_rfind r t with
    | some i => simp
    | none => simp

/-- Joining the plaintext forward split segments with the pattern
reconstructs the string. -/
theorem joinWith_splitSegsF (t : List Nat) (htne : t ≠ []) (fuel : Nat) :
    ∀ r : List Nat, r.length < fuel →
    joinWith t (splitSegsF t r fuel) = r := by
  have htlen : 1 ≤ t.length := by
    have : t.length ≠ 0 := fun h => htne (List.length_eq_zero.1 h)
    omega
  induction fuel with
  | zero =>
    intro r hfuel
    exact absurd hfuel (by omega)
  | succ n ih =>
    intro r hfuel
    rw [splitSegsF_succ]
    cases hcf : clear_find r t with
    | none => rfl
    | some i =>
      have hM := clear_find_sound r t i hcf
      have hilen : i + t.length ≤ r.length := hM.1
      have hn1 : 1 ≤ n := by omega
      rw [joinWith_cons_ne t (r.take i) _
        (splitSegsF_ne_nil t (r.drop (i + t.length)) n hn1)]
      rw [ih (r.drop (i + t.length)) (by rw [List.length_drop]; omega)]
      exact (MatchAt_decomp r t i hM).symm

/-- Joining the reversed plaintext reverse-split segments with the pattern
reconstructs the string. -/
theorem joinWith_splitSegsR (t : List Nat) (htne : t ≠ []) (fuel : Nat) :
    ∀ r : List Nat, r.length < fuel →
    joinWith t ((splitSegsR t r fuel).reverse) = r := by
  have htlen : 1 ≤ t.length := by
    have : t.length ≠ 0 := fun h => htne (List.length_eq_zero.1 h)
    omega
  induction fuel with
  | zero =>
    intro r hfuel
    exact absurd hfuel (by omega)
  | succ n ih =>
    intro r hfuel
    rw [splitSegsR_succ]
    cases hcf : clear_rfind r t with
    | none => rfl
    | some i =>
      have hM := clear_rfind_sound r t i hcf
      have hilen : i + t.length ≤ r.length := hM.1
      have hn1 : 1 ≤ n := by omega
      rw [List.reverse_cons,
        joinWith_append_singleton t (r.drop (i + t.length))
          ((splitSegsR t (r.take i) n).reverse)
          (by
            intro hrev
            exact splitSegsR_ne_nil t (r.take i) n hn1
              (List.reverse_eq_nil_iff.1 hrev)),
        ih (r.take i) (by rw [List.length_take]; omega)]
      exact (MatchAt_decomp r t i hM).symm


/-! ### The empty-pattern (char-by-char) split regime -/

theorem validChars_nil : ValidChars ([] : List Nat) :=
  fun c hc => absurd hc (List.not_mem_nil c)

theorem add32_zero_one : add32 0 1 = 1 := rfl

theorem sub32_zero_one : sub32 0 1 = 2 ^ 32 - 1 := rfl

theorem pat_is_empty_val_nil (q : Nat) :
    pat_is_empty_val (encrypt [] q) = 1 := by
  rw [pat_is_empty_val_encrypt [] q validChars_nil, if_pos rfl]

theorem lenVal_encrypt_nil (q : Nat) : lenVal (encrypt [] q) = 0 := by
  rw [lenVal_encrypt [] q validChars_nil, List.length_nil]

theorem joinWith_nil_join : ∀ xs : List (List Nat),
    joinWith [] xs = xs.flatten := by
  intro xs
  induction xs with
  | nil => rfl
  | cons a l ih =>
    cases l with
    | nil =>
      rw [List.flatten_cons, List.flatten_nil, List.append_nil]
      rfl
    | cons b xs2 =>
      rw [joinWith_cons_ne [] a (b :: xs2) (by simp), ih]
      simp

theorem rev_join_cons (x : List Nat) (l : List (List Nat)) :
    ((x :: l).reverse).flatten = (l.reverse).flatten ++ x := by
  rw [List.reverse_cons, List.flatten_append, List.flatten_cons, List.flatten_nil,
    List.append_nil]

/-- With an empty pattern and the visibility window closed, every further
forward-split output is hidden (the counter does not wrap within fuel). -/
theorem drive_A_dead_split (q : Nat) (fuel : Nat) :
    ∀ (r : List Nat) (m : Nat) (pb : Bool) (k maxc : Nat),
    ValidChars r → (pb = true → 1 ≤ m ∨ r = []) → (pb = false → m = 0) →
    r.length + m + (if pb = true then 0 else 1) < 2 ^ 16 →
    1 ≤ k → maxc ≤ k → k + fuel < 2 ^ 16 →
    yielded (driveSplit ⟨.Split, ⟨r ++ List.replicate m 0, pb⟩, encrypt [] q,
      1, k, maxc, 0⟩ fuel) = [] := by
  induction fuel with
  | zero =>
    intro r m pb k maxc _ _ _ _ _ _ _
    rfl
  | succ n ih =>
    intro r m pb k maxc hr hpb1 hpb2 hcap h1k hmk hkcap
    have hcapN : r.length + m < 2 ^ 16 := by
      by_cases hb : pb = true
      · rw [if_pos hb] at hcap
        omega
      · rw [if_neg hb] at hcap
        omega
    rw [driveSplit_succ, splitNext_split]
    have hfind := find_empty_spec r m pb q hr hpb1 hpb2
    have hf1 : (find ⟨r ++ List.replicate m 0, pb⟩ (encrypt [] q)).1 = 0 := by
      rw [hfind]
    have hf2 : (find ⟨r ++ List.replicate m 0, pb⟩ (encrypt [] q)).2 = 1 := by
      rw [hfind]
    rw [hf1, hf2]
    have hidx : (if 0 < k then add32 0 (pat_is_empty_val (encrypt [] q))
        else 0) = 1 := by
      rw [pat_is_empty_val_nil q, if_pos (show 0 < k from by omega),
        add32_zero_one]
    have hflag : (((1 : Nat) ||| 1) &&& 0) = 0 := by decide
    rw [hidx, hflag, yielded_cons_zero]
    have hk1 : (k + 1) % 2 ^ 16 = k + 1 := Nat.mod_eq_of_lt (by omega)
    have hclt : (if k < maxc then (1 : Nat) else 0) = 0 := if_neg (by omega)
    rw [hk1, hclt]
    by_cases hN : 1 ≤ r.length + m
    · rw [split_shape_snd r m pb (encrypt [] q) 1 hr hN hcapN (by omega)]
      obtain ⟨j, hjle, hj⟩ :=
        splitRhsChars_shaped r m (lenVal (encrypt [] q)) 1 hN
      have hdl : (r.drop j).length = r.length - j := List.length_drop j r
      have hr' : ValidChars (r.drop j) :=
        fun c hc => hr c (List.drop_subset _ _ hc)
      cases pb with
      | true =>
        rw [if_pos rfl, hj]
        exact ih (r.drop j) _ true (k + 1) maxc hr'
          (fun _ => by
            rcases hpb1 rfl with h1 | h1
            · left
              omega
            · right
              rw [h1, List.drop_nil])
          (fun h => by cases h)
          (by rw [if_pos rfl]; omega)
          (by omega) (by omega) (by omega)
      | false =>
        have hcapF : r.length + m + 1 < 2 ^ 16 := by
          simpa using hcap
        rw [if_neg (by simp), hj, List.append_assoc,
          show (List.replicate (r.length + m - max j r.length + j) 0
              ++ [0] : List Nat)
            = List.replicate (r.length + m - max j r.length + j + 1) 0 from
            (List.replicate_succ' _ _).symm]
        exact ih (r.drop j) _ true (k + 1) maxc hr'
          (fun _ => Or.inl (by omega)) (fun h => by cases h)
          (by rw [if_pos rfl]; omega)
          (by omega) (by omega) (by omega)
    · have hr0 : r = [] := by
        cases hlen : r with
        | nil => rfl
        | cons a l =>
          rw [hlen] at hN
          simp at hN
      have hm0 : m = 0 := by omega
      subst hr0
      subst hm0
      rw [show ((⟨[] ++ List.replicate 0 0, pb⟩ : FheString))
        = ⟨[], pb⟩ from rfl]
      rw [split_nil_snd pb (encrypt [] q) 1 false]
      cases pb with
      | true =>
        rw [if_pos rfl]
        have htail := ih [] 0 true (k + 1) maxc validChars_nil
          (fun _ => Or.inr rfl) (fun h => by cases h) (by simp)
          (by omega) (by omega) (by omega)
        simpa using htail
      | false =>
        rw [if_neg (by simp)]
        have htail := ih [] 1 true (k + 1) maxc validChars_nil
          (fun _ => Or.inl (by omega)) (fun h => by cases h) (by simp)
          (by omega) (by omega) (by omega)
        simpa using htail

/-- With an empty pattern, the concatenation of the visible forward-split
outputs is the residual content: one character is peeled per call, empty
segments appear at the edges, and later outputs are hidden. -/
theorem drive_A_split (q : Nat) (fuel : Nat) :
    ∀ (r : List Nat) (m : Nat) (pb : Bool) (k maxc : Nat),
    ValidChars r → (pb = true → 1 ≤ m ∨ r = []) → (pb = false → m = 0) →
    r.length + m + (if pb = true then 0 else 1) < 2 ^ 16 →
    1 ≤ k → k + r.length ≤ maxc + 1 → r.length ≤ fuel → k + fuel < 2 ^ 16 →
    (yielded (driveSplit ⟨.Split, ⟨r ++ List.replicate m 0, pb⟩,
      encrypt [] q, 1, k, maxc, 1⟩ fuel)).flatten = r := by
  induction fuel with
  | zero =>
    intro r m pb k maxc _ _ _ _ _ _ hfl _
    have hr0 : r = [] := List.length_eq_zero.1 (by omega)
    subst hr0
    rfl
  | succ n ih =>
    intro r m pb k maxc hr hpb1 hpb2 hcap h1k hflush hfl hkcap
    have hcapN : r.length + m < 2 ^ 16 := by
      by_cases hb : pb = true
      · rw [if_pos hb] at hcap
        omega
      · rw [if_neg hb] at hcap
        omega
    rw [driveSplit_succ, splitNext_split]
    have hfind := find_empty_spec r m pb q hr hpb1 hpb2
    have hf1 : (find ⟨r ++ List.replicate m 0, pb⟩ (encrypt [] q)).1 = 0 := by
      rw [hfind]
    have hf2 : (find ⟨r ++ List.replicate m 0, pb⟩ (encrypt [] q)).2 = 1 := by
      rw [hfind]
    rw [hf1, hf2]
    have hidx : (if 0 < k then add32 0 (pat_is_empty_val (encrypt [] q))
        else 0) = 1 := by
      rw [pat_is_empty_val_nil q, if_pos (show 0 < k from by omega),
        add32_zero_one]
    have hflag : (((1 : Nat) ||| 1) &&& 1) = 1 := by decide
    rw [hidx, hflag, yielded_cons_one, List.flatten_cons]
    have hk1 : (k + 1) % 2 ^ 16 = k + 1 := Nat.mod_eq_of_lt (by omega)
    rw [hk1]
    by_cases hN : 1 ≤ r.length + m
    · rw [split_shape_fst r m pb (encrypt [] q) 1 hr hN hcapN (by omega),
        split_shape_snd r m pb (encrypt [] q) 1 hr hN hcapN (by omega)]
      have hrhs1 : splitRhsChars r m (lenVal (encrypt [] q)) 1
          = r.drop 1
            ++ List.replicate (r.length + m - max 1 r.length + 1) 0 := by
        rw [lenVal_encrypt_nil q, splitRhs_decomp r m 0 1 (by omega) hN hcapN,
          Nat.zero_add]
      have hdl : (r.drop 1).length = r.length - 1 := List.length_drop 1 r
      have hr' : ValidChars (r.drop 1) :=
        fun c hc => hr c (List.drop_subset _ _ hc)
      have hvt : ValidChars (r.take 1) :=
        fun c hc => hr c (List.take_subset _ _ hc)
      have htk1 : r.take 1 ++ r.drop 1 = r := List.take_append_drop 1 r
      cases pb with
      | true =>
        rw [if_pos rfl, if_pos rfl]
        have hhead := decrypt_conditional_string 1
          ⟨(r ++ List.replicate m 0).take 1
            ++ List.replicate (r.length + m - 1) 0, true⟩
          ⟨r ++ List.replicate m 0, true⟩
          (r.take 1) r (r.length + m - min 1 r.length) m
          (split_lhs_decomp r m 1 (by omega)) rfl hvt hr
        rw [hhead, if_neg (by omega), hrhs1]
        by_cases hkm : k < maxc
        · rw [if_pos hkm]
          have htail := ih (r.drop 1)
            (r.length + m - max 1 r.length + 1) true (k + 1) maxc hr'
            (fun _ => Or.inl (by omega)) (fun h => by cases h)
            (by rw [if_pos rfl]; omega)
            (by omega) (by omega) (by omega) (by omega)
          rw [htail]
          exact htk1
        · rw [if_neg hkm]
          have htail := drive_A_dead_split q n (r.drop 1)
            (r.length + m - max 1 r.length + 1) true (k + 1) maxc hr'
            (fun _ => Or.inl (by omega)) (fun h => by cases h)
            (by rw [if_pos rfl]; omega)
            (by omega) (by omega) (by omega)
          rw [htail, List.flatten_nil, List.append_nil]
          exact List.take_of_length_le (by omega)
      | false =>
        have hcapF : r.length + m + 1 < 2 ^ 16 := by
          simpa using hcap
        rw [if_neg (by simp), if_neg (by simp)]
        have hhead := decrypt_conditional_string 1
          ⟨((r ++ List.replicate m 0).take 1
            ++ List.replicate (r.length + m - 1) 0) ++ [0], true⟩
          ⟨r ++ List.replicate m 0, false⟩
          (r.take 1) r (r.length + m - min 1 r.length + 1) m
          (by
            rw [split_lhs_decomp r m 1 (by omega), List.append_assoc,
              show (List.replicate (r.length + m - min 1 r.length) 0
                  ++ [0] : List Nat)
                = List.replicate (r.length + m - min 1 r.length + 1) 0 from
                (List.replicate_succ' _ _).symm])
          rfl hvt hr
        rw [hhead, if_neg (by omega), hrhs1, List.append_assoc,
          show (List.replicate (r.length + m - max 1 r.length + 1) 0
              ++ [0] : List Nat)
            = List.replicate (r.length + m - max 1 r.length + 1 + 1) 0 from
            (List.replicate_succ' _ _).symm]
        by_cases hkm : k < maxc
        · rw [if_pos hkm]
          have htail := ih (r.drop 1)
            (r.length + m - max 1 r.length + 1 + 1) true (k + 1) maxc hr'
            (fun _ => Or.inl (by omega)) (fun h => by cases h)
            (by rw [if_pos rfl]; omega)
            (by omega) (by omega) (by omega) (by omega)
          rw [htail]
          exact htk1
        · rw [if_neg hkm]
          have htail := drive_A_dead_split q n (r.drop 1)
            (r.length + m - max 1 r.length + 1 + 1) true (k + 1) maxc hr'
            (fun _ => Or.inl (by omega)) (fun h => by cases h)
            (by rw [if_pos rfl]; omega)
            (by omega) (by omega) (by omega)
          rw [htail, List.flatten_nil, List.append_nil]
          exact List.take_of_length_le (by omega)
    · have hr0 : r = [] := by
        cases hlen : r with
        | nil => rfl
        | cons a l =>
          rw [hlen] at hN
          simp at hN
      have hm0 : m = 0 := by omega
      subst hr0
      subst hm0
      rw [show ((⟨[] ++ List.replicate 0 0, pb⟩ : FheString))
        = ⟨[], pb⟩ from rfl]
      rw [split_nil_fst pb (encrypt [] q) 1 false,
        split_nil_snd pb (encrypt [] q) 1 false]
      cases pb with
      | true =>
        rw [if_pos rfl]
        have hhead := decrypt_conditional_string 1
          (⟨[], true⟩ : FheString) (⟨[], true⟩ : FheString) [] [] 0 0
          rfl rfl validChars_nil validChars_nil
        rw [hhead, if_neg (by omega), List.nil_append]
        by_cases hkm : k < maxc
        · rw [if_pos hkm]
          have htail := ih [] 0 true (k + 1) maxc validChars_nil
            (fun _ => Or.inr rfl) (fun h => by cases h) (by simp)
            (by omega) (by simp; omega) (by simp) (by omega)
          have htail2 : (yielded (driveSplit ⟨.Split, ⟨[], true⟩,
              encrypt [] q, 1, k + 1, maxc, 1⟩ n)).flatten = [] := by
            simpa using htail
          rw [htail2]
        · rw [if_neg hkm]
          have htail := drive_A_dead_split q n [] 0 true (k + 1) maxc
            validChars_nil (fun _ => Or.inr rfl) (fun h => by cases h)
            (by simp) (by omega) (by omega) (by omega)
          have htail2 : yielded (driveSplit ⟨.Split, ⟨[], true⟩,
              encrypt [] q, 1, k + 1, maxc, 0⟩ n) = [] := by
            simpa using htail
          rw [htail2, List.flatten_nil]
      | false =>
        rw [if_neg (by simp)]
        have hhead := decrypt_conditional_string 1
          (⟨[0], true⟩ : FheString) (⟨[], false⟩ : FheString) [] [] 1 0
          rfl rfl validChars_nil validChars_nil
        rw [hhead, if_neg (by omega), List.nil_append]
        by_cases hkm : k < maxc
        · rw [if_pos hkm]
          have htail := ih [] 1 true (k + 1) maxc validChars_nil
            (fun _ => Or.inl (by omega)) (fun h => by cases h) (by simp)
            (by omega) (by simp; omega) (by simp) (by omega)
          have htail2 : (yielded (driveSplit ⟨.Split, ⟨[0], true⟩,
              encrypt [] q, 1, k + 1, maxc, 1⟩ n)).flatten = [] := by
            simpa using htail
          rw [htail2]
        · rw [if_neg hkm]
          have htail := drive_A_dead_split q n [] 1 true (k + 1) maxc
            validChars_nil (fun _ => Or.inl (by omega)) (fun h => by cases h)
            (by simp) (by omega) (by omega) (by omega)
          have htail2 : yielded (driveSplit ⟨.Split, ⟨[0], true⟩,
              encrypt [] q, 1, k + 1, maxc, 0⟩ n) = [] := by
            simpa using htail
          rw [htail2, List.flatten_nil]


/-- With an empty pattern and the visibility window closed, every further
reverse-split output is hidden (the counter does not wrap within fuel). -/
theorem drive_A_dead_rsplit (q : Nat) (fuel : Nat) :
    ∀ (r : List Nat) (m : Nat) (pb : Bool) (k maxc : Nat),
    ValidChars r → (pb = true → 1 ≤ m ∨ r = []) → (pb = false → m = 0) →
    r.length + m + (if pb = true then 0 else 1) < 2 ^ 16 →
    1 ≤ k → maxc ≤ k → k + fuel < 2 ^ 16 →
    yielded (driveSplit ⟨.RSplit, ⟨r ++ List.replicate m 0, pb⟩,
      encrypt [] q, 1, k, maxc, 0⟩ fuel) = [] := by
  induction fuel with
  | zero =>
    intro r m pb k maxc _ _ _ _ _ _ _
    rfl
  | succ n ih =>
    intro r m pb k maxc hr hpb1 hpb2 hcap h1k hmk hkcap
    have hcapN : r.length + m < 2 ^ 16 := by
      by_cases hb : pb = true
      · rw [if_pos hb] at hcap
        omega
      · rw [if_neg hb] at hcap
        omega
    rw [driveSplit_succ, splitNext_rsplit]
    have hfind := rfind_empty_spec r m pb q hr hpb1 hpb2
    have hf1 : (rfind ⟨r ++ List.replicate m 0, pb⟩ (encrypt [] q)).1
        = r.length := by
      rw [hfind]
    have hf2 : (rfind ⟨r ++ List.replicate m 0, pb⟩ (encrypt [] q)).2 = 1 := by
      rw [hfind]
    rw [hf1, hf2]
    have hflag : (((1 : Nat) ||| 1) &&& 0) = 0 := by decide
    rw [hflag, yielded_cons_zero]
    have hk1 : (k + 1) % 2 ^ 16 = k + 1 := Nat.mod_eq_of_lt (by omega)
    have hclt : (if k < maxc then (1 : Nat) else 0) = 0 := if_neg (by omega)
    rw [hk1, hclt]
    by_cases hrl : 1 ≤ r.length
    · have hidx : (if 0 < k
          then sub32 r.length (pat_is_empty_val (encrypt [] q))
          else r.length) = r.length - 1 := by
        rw [pat_is_empty_val_nil q, if_pos (show 0 < k from by omega),
          sub32_eq r.length 1 (by omega) (by omega)]
      rw [hidx]
      have hN : 1 ≤ r.length + m := by omega
      rw [split_shape_fst r m pb (encrypt [] q) (r.length - 1)
        hr hN hcapN (by omega)]
      have hvt : ValidChars (r.take (r.length - 1)) :=
        fun c hc => hr c (List.take_subset _ _ hc)
      have hdlT : (r.take (r.length - 1)).length = r.length - 1 := by
        rw [List.length_take]
        omega
      cases pb with
      | true =>
        rw [if_pos rfl, split_lhs_decomp r m (r.length - 1) (by omega)]
        exact ih (r.take (r.length - 1))
          (r.length + m - min (r.length - 1) r.length) true (k + 1) maxc hvt
          (fun _ => Or.inl (by omega)) (fun h => by cases h)
          (by rw [if_pos rfl]; omega)
          (by omega) (by omega) (by omega)
      | false =>
        have hcapF : r.length + m + 1 < 2 ^ 16 := by
          simpa using hcap
        rw [if_neg (by simp), split_lhs_decomp r m (r.length - 1) (by omega),
          List.append_assoc,
          show (List.replicate (r.length + m - min (r.length - 1) r.length) 0
              ++ [0] : List Nat)
            = List.replicate
                (r.length + m - min (r.length - 1) r.length + 1) 0 from
            (List.replicate_succ' _ _).symm]
        exact ih (r.take (r.length - 1))
          (r.length + m - min (r.length - 1) r.length + 1) true (k + 1) maxc
          hvt (fun _ => Or.inl (by omega)) (fun h => by cases h)
          (by rw [if_pos rfl]; omega)
          (by omega) (by omega) (by omega)
    · have hr0 : r = [] := List.length_eq_zero.1 (by omega)
      subst hr0
      have hidx : (if 0 < k
          then sub32 ([] : List Nat).length (pat_is_empty_val (encrypt [] q))
          else ([] : List Nat).length) = 2 ^ 32 - 1 := by
        rw [pat_is_empty_val_nil q, if_pos (show 0 < k from by omega),
          List.length_nil, sub32_zero_one]
      rw [hidx]
      by_cases hm : 1 ≤ m
      · have hN : 1 ≤ ([] : List Nat).length + m := by
          simp
          omega
        rw [split_underflow_fst [] m pb (encrypt [] q) validChars_nil
          (lenVal_encrypt_nil q) hN hcapN]
        cases pb with
        | true =>
          rw [if_pos rfl]
          have htail := ih [] (([] : List Nat).length + m) true (k + 1) maxc validChars_nil
            (fun _ => Or.inl (by simp; omega)) (fun h => by cases h)
            (by simp; omega) (by omega) (by omega) (by omega)
          have htail2 : yielded (driveSplit ⟨.RSplit,
              ⟨List.replicate (([] : List Nat).length + m) 0, true⟩, encrypt [] q,
              1, k + 1, maxc, 0⟩ n) = [] := by
            simpa using htail
          rw [htail2]
        | false =>
          exact absurd (hpb2 rfl) (by omega)
      · have hm0 : m = 0 := by omega
        subst hm0
        rw [show ((⟨[] ++ List.replicate 0 0, pb⟩ : FheString))
          = ⟨[], pb⟩ from rfl]
        rw [split_nil_fst pb (encrypt [] q) (2 ^ 32 - 1) false]
        cases pb with
        | true =>
          rw [if_pos rfl]
          have htail := ih [] 0 true (k + 1) maxc validChars_nil
            (fun _ => Or.inr rfl) (fun h => by cases h) (by simp)
            (by omega) (by omega) (by omega)
          simpa using htail
        | false =>
          rw [if_neg (by simp)]
          have htail := ih [] 1 true (k + 1) maxc validChars_nil
            (fun _ => Or.inl (by omega)) (fun h => by cases h) (by simp)
            (by omega) (by omega) (by omega)
          simpa using htail

/-- With an empty pattern, the reversed concatenation of the visible
reverse-split outputs is the residual content: one character is peeled from
the end per call. -/
theorem drive_A_rsplit (q : Nat) (fuel : Nat) :
    ∀ (r : List Nat) (m : Nat) (pb : Bool) (k maxc : Nat),
    ValidChars r → (pb = true → 1 ≤ m ∨ r = []) → (pb = false → m = 0) →
    r.length + m + (if pb = true then 0 else 1) < 2 ^ 16 →
    1 ≤ k → k + r.length ≤ maxc + 1 → r.length ≤ fuel → k + fuel < 2 ^ 16 →
    ((yielded (driveSplit ⟨.RSplit, ⟨r ++ List.replicate m 0, pb⟩,
      encrypt [] q, 1, k, maxc, 1⟩ fuel)).reverse).flatten = r := by
  induction fuel with
  | zero =>
    intro r m pb k maxc _ _ _ _ _ _ hfl _
    have hr0 : r = [] := List.length_eq_zero.1 (by omega)
    subst hr0
    rfl
  | succ n ih =>
    intro r m pb k maxc hr hpb1 hpb2 hcap h1k hflush hfl hkcap
    have hcapN : r.length + m < 2 ^ 16 := by
      by_cases hb : pb = true
      · rw [if_pos hb] at hcap
        omega
      · rw [if_neg hb] at hcap
        omega
    rw [driveSplit_succ, splitNext_rsplit]
    have hfind := rfind_empty_spec r m pb q hr hpb1 hpb2
    have hf1 : (rfind ⟨r ++ List.replicate m 0, pb⟩ (encrypt [] q)).1
        = r.length := by
      rw [hfind]
    have hf2 : (rfind ⟨r ++ List.replicate m 0, pb⟩ (encrypt [] q)).2 = 1 := by
      rw [hfind]
    rw [hf1, hf2]
    have hflag : (((1 : Nat) ||| 1) &&& 1) = 1 := by decide
    rw [hflag, yielded_cons_one, rev_join_cons]
    have hk1 : (k + 1) % 2 ^ 16 = k + 1 := Nat.mod_eq_of_lt (by omega)
    rw [hk1]
    by_cases hrl : 1 ≤ r.length
    · have hidx : (if 0 < k
          then sub32 r.length (pat_is_empty_val (encrypt [] q))
          else r.length) = r.length - 1 := by
        rw [pat_is_empty_val_nil q, if_pos (show 0 < k from by omega),
          sub32_eq r.length 1 (by omega) (by omega)]
      rw [hidx]
      have hN : 1 ≤ r.length + m := by omega
      rw [split_shape_fst r m pb (encrypt [] q) (r.length - 1)
        hr hN hcapN (by omega),
        split_shape_snd r m pb (encrypt [] q) (r.length - 1)
        hr hN hcapN (by omega)]
      have hrhsR : splitRhsChars r m (lenVal (encrypt [] q)) (r.length - 1)
          = r.drop (r.length - 1)
            ++ List.replicate
              (r.length + m - max (r.length - 1) r.length + (r.length - 1))
              0 := by
        rw [lenVal_encrypt_nil q,
          splitRhs_decomp r m 0 (r.length - 1) (by omega) hN hcapN,
          Nat.zero_add]
      have hvt : ValidChars (r.take (r.length - 1)) :=
        fun c hc => hr c (List.take_subset _ _ hc)
      have hvd : ValidChars (r.drop (r.length - 1)) :=
        fun c hc => hr c (List.drop_subset _ _ hc)
      have hdlT : (r.take (r.length - 1)).length = r.length - 1 := by
        rw [List.length_take]
        omega
      have htk1 : r.take (r.length - 1) ++ r.drop (r.length - 1) = r :=
        List.take_append_drop (r.length - 1) r
      cases pb with
      | true =>
        rw [if_pos rfl, if_pos rfl, hrhsR]
        have hhead := decrypt_conditional_string 1
          ⟨r.drop (r.length - 1)
            ++ List.replicate
              (r.length + m - max (r.length - 1) r.length + (r.length - 1))
              0, true⟩
          ⟨r ++ List.replicate m 0, true⟩
          (r.drop (r.length - 1)) r
          (r.length + m - max (r.length - 1) r.length + (r.length - 1)) m
          rfl rfl hvd hr
        rw [hhead, if_neg (show ¬(1 = 0) from by omega),
          split_lhs_decomp r m (r.length - 1) (by omega)]
        by_cases hkm : k < maxc
        · rw [if_pos hkm]
          have htail := ih (r.take (r.length - 1))
            (r.length + m - min (r.length - 1) r.length) true (k + 1) maxc
            hvt (fun _ => Or.inl (by omega)) (fun h => by cases h)
            (by rw [if_pos rfl]; omega)
            (by omega) (by omega) (by omega) (by omega)
          rw [htail]
          exact htk1
        · rw [if_neg hkm]
          have htail := drive_A_dead_rsplit q n (r.take (r.length - 1))
            (r.length + m - min (r.length - 1) r.length) true (k + 1) maxc
            hvt (fun _ => Or.inl (by omega)) (fun h => by cases h)
            (by rw [if_pos rfl]; omega)
            (by omega) (by omega) (by omega)
          rw [htail, List.reverse_nil, List.flatten_nil, List.nil_append]
          have h1 : r.length = 1 := by omega
          rw [h1, show (1 : Nat) - 1 = 0 from rfl, List.drop_zero]
      | false =>
        have hcapF : r.length + m + 1 < 2 ^ 16 := by
          simpa using hcap
        rw [if_neg (show ¬(false = true) from by simp),
          if_neg (show ¬(false = true) from by simp), hrhsR]
        have hhead := decrypt_conditional_string 1
          ⟨(r.drop (r.length - 1)
            ++ List.replicate
              (r.length + m - max (r.length - 1) r.length + (r.length - 1))
              0) ++ [0], true⟩
          ⟨r ++ List.replicate m 0, false⟩
          (r.drop (r.length - 1)) r
          (r.length + m - max (r.length - 1) r.length + (r.length - 1) + 1) m
          (by
            rw [List.append_assoc,
              show (List.replicate
                  (r.length + m - max (r.length - 1) r.length
                    + (r.length - 1)) 0
                  ++ [0] : List Nat)
                = List.replicate
                  (r.length + m - max (r.length - 1) r.length
                    + (r.length - 1) + 1) 0 from
                (List.replicate_succ' _ _).symm])
          rfl hvd hr
        rw [hhead, if_neg (show ¬(1 = 0) from by omega),
          split_lhs_decomp r m (r.length - 1) (by omega), List.append_assoc,
          show (List.replicate (r.length + m - min (r.length - 1) r.length) 0
              ++ [0] : List Nat)
            = List.replicate
                (r.length + m - min (r.length - 1) r.length + 1) 0 from
            (List.replicate_succ' _ _).symm]
        by_cases hkm : k < maxc
        · rw [if_pos hkm]
          have htail := ih (r.take (r.length - 1))
            (r.length + m - min (r.length - 1) r.length + 1) true (k + 1)
            maxc hvt (fun _ => Or.inl (by omega)) (fun h => by cases h)
            (by rw [if_pos rfl]; omega)
            (by omega) (by omega) (by omega) (by omega)
          rw [htail]
          exact htk1
        · rw [if_neg hkm]
          have htail := drive_A_dead_rsplit q n (r.take (r.length - 1))
            (r.length + m - min (r.length - 1) r.length + 1) true (k + 1)
            maxc hvt (fun _ => Or.inl (by omega)) (fun h => by cases h)
            (by rw [if_pos rfl]; omega)
            (by omega) (by omega) (by omega)
          rw [htail, List.reverse_nil, List.flatten_nil, List.nil_append]
          have h1 : r.length = 1 := by omega
          rw [h1, show (1 : Nat) - 1 = 0 from rfl, List.drop_zero]
    · have hr0 : r = [] := List.length_eq_zero.1 (by omega)
      subst hr0
      have hidx : (if 0 < k
          then sub32 ([] : List Nat).length (pat_is_empty_val (encrypt [] q))
          else ([] : List Nat).length) = 2 ^ 32 - 1 := by
        rw [pat_is_empty_val_nil q, if_pos (show 0 < k from by omega),
          List.length_nil, sub32_zero_one]
      rw [hidx]
      by_cases hm : 1 ≤ m
      · have hN : 1 ≤ ([] : List Nat).length + m := by
          simp
          omega
        rw [split_underflow_fst [] m pb (encrypt [] q) validChars_nil
          (lenVal_encrypt_nil q) hN hcapN,
          split_underflow_snd [] m pb (encrypt [] q) validChars_nil
          (lenVal_encrypt_nil q) hN hcapN]
        cases pb with
        | true =>
          rw [if_pos rfl]
          have hhead := decrypt_conditional_string 1
            ⟨List.replicate (([] : List Nat).length + m) 0, true⟩
            (⟨[] ++ List.replicate m 0, true⟩ : FheString)
            [] [] (([] : List Nat).length + m) m
            (by rw [List.nil_append]) rfl validChars_nil validChars_nil
          rw [hhead, if_neg (show ¬(1 = 0) from by omega), List.append_nil]
          by_cases hkm : k < maxc
          · rw [if_pos hkm]
            have htail := ih [] (([] : List Nat).length + m) true (k + 1) maxc
              validChars_nil (fun _ => Or.inl (by simp; omega))
              (fun h => by cases h) (by simp; omega)
              (by omega) (by simp; omega) (by simp) (by omega)
            have htail2 : ((yielded (driveSplit ⟨.RSplit,
                ⟨List.replicate (([] : List Nat).length + m) 0, true⟩, encrypt [] q,
                1, k + 1, maxc, 1⟩ n)).reverse).flatten = [] := by
              simpa using htail
            rw [htail2]
          · rw [if_neg hkm]
            have htail := drive_A_dead_rsplit q n [] (([] : List Nat).length + m) true
              (k + 1) maxc validChars_nil (fun _ => Or.inl (by simp; omega))
              (fun h => by cases h) (by simp; omega)
              (by omega) (by omega) (by omega)
            have htail2 : yielded (driveSplit ⟨.RSplit,
                ⟨List.replicate (([] : List Nat).length + m) 0, true⟩, encrypt [] q,
                1, k + 1, maxc, 0⟩ n) = [] := by
              simpa using htail
            rw [htail2, List.reverse_nil, List.flatten_nil]
        | false =>
          exact absurd (hpb2 rfl) (by omega)
      · have hm0 : m = 0 := by omega
        subst hm0
        rw [show ((⟨[] ++ List.replicate 0 0, pb⟩ : FheString))
          = ⟨[], pb⟩ from rfl]
        rw [split_nil_fst pb (encrypt [] q) (2 ^ 32 - 1) false,
          split_nil_snd pb (encrypt [] q) (2 ^ 32 - 1) false]
        cases pb with
        | true =>
          rw [if_pos rfl]
          have hhead := decrypt_conditional_string 1
            (⟨[], true⟩ : FheString) (⟨[], true⟩ : FheString) [] [] 0 0
            rfl rfl validChars_nil validChars_nil
          rw [hhead, if_neg (show ¬(1 = 0) from by omega), List.append_nil]
          by_cases hkm : k < maxc
          · rw [if_pos hkm]
            have htail := ih [] 0 true (k + 1) maxc validChars_nil
              (fun _ => Or.inr rfl) (fun h => by cases h) (by simp)
              (by omega) (by simp; omega) (by simp) (by omega)
            have htail2 : ((yielded (driveSplit ⟨.RSplit, ⟨[], true⟩,
                encrypt [] q, 1, k + 1, maxc, 1⟩ n)).reverse).flatten
                = [] := by
              simpa using htail
            rw [htail2]
          · rw [if_neg hkm]
            have htail := drive_A_dead_rsplit q n [] 0 true (k + 1) maxc
              validChars_nil (fun _ => Or.inr rfl) (fun h => by cases h)
              (by simp) (by omega) (by omega) (by omega)
            have htail2 : yielded (driveSplit ⟨.RSplit, ⟨[], true⟩,
                encrypt [] q, 1, k + 1, maxc, 0⟩ n) = [] := by
              simpa using htail
            rw [htail2, List.reverse_nil, List.flatten_nil]
        | false =>
          rw [if_neg (by simp)]
          have hhead := decrypt_conditional_string 1
            (⟨[0], true⟩ : FheString) (⟨[], false⟩ : FheString) [] [] 1 0
            rfl rfl validChars_nil validChars_nil
          rw [hhead, if_neg (show ¬(1 = 0) from by omega), List.append_nil]
          by_cases hkm : k < maxc
          · rw [if_pos hkm]
            have htail := ih [] 1 true (k + 1) maxc validChars_nil
              (fun _ => Or.inl (by omega)) (fun h => by cases h) (by simp)
              (by omega) (by simp; omega) (by simp) (by omega)
            have htail2 : ((yielded (driveSplit ⟨.RSplit, ⟨[0], true⟩,
                encrypt [] q, 1, k + 1, maxc, 1⟩ n)).reverse).flatten
                = [] := by
              simpa using htail
            rw [htail2]
          · rw [if_neg hkm]
            have htail := drive_A_dead_rsplit q n [] 1 true (k + 1) maxc
              validChars_nil (fun _ => Or.inl (by omega))
              (fun h => by cases h) (by simp) (by omega) (by omega) (by omega)
            have htail2 : yielded (driveSplit ⟨.RSplit, ⟨[0], true⟩,
                encrypt [] q, 1, k + 1, maxc, 0⟩ n) = [] := by
              simpa using htail
            rw [htail2, List.reverse_nil, List.flatten_nil]


/-- C2: driving the split iterator capacity-plus-one times and joining the
visible segments with the pattern plaintext reconstructs the string; the
reverse variant reconstructs it after reversing the segment order. -/
theorem claim2_split_round_trip (w t : List Nat) (p q : Nat)
    (hw : ValidChars w) (ht : ValidChars t)
    (hcap : 2 * w.length + p + 4 < 2 ^ 16) :
    joinWith t (yielded (driveSplit
        (split_internal (encrypt w p) (encrypt t q) .Split)
        ((encrypt w p).chars.length + 1))) = w
    ∧ joinWith t ((yielded (driveSplit
        (split_internal (encrypt w p) (encrypt t q) .RSplit)
        ((encrypt w p).chars.length + 1))).reverse) = w := by
  have hlen : (encrypt w p).chars.length = w.length + p := encrypt_length w p
  have hmaxc : add32 (lenVal (encrypt w p)) 1 = w.length + 1 := by
    rw [lenVal_encrypt w p hw, add32_small w.length 1 (by omega)]
  have hpb1 : (decide (0 < p) || decide (w = [])) = true
      → 1 ≤ p ∨ w = [] := by
    intro h
    simp only [Bool.or_eq_true, decide_eq_true_eq] at h
    rcases h with h | h
    · left
      omega
    · right
      exact h
  have hpb2 : (decide (0 < p) || decide (w = [])) = false → p = 0 := by
    intro h
    simp only [Bool.or_eq_false_iff, decide_eq_false_iff_not] at h
    omega
  have hcapif : w.length + p
      + (if (decide (0 < p) || decide (w = [])) = true then 0 else 1)
      < 2 ^ 16 := by
    by_cases hb : (decide (0 < p) || decide (w = [])) = true
    · rw [if_pos hb]
      omega
    · rw [if_neg hb]
      omega
  rw [hlen,
    show split_internal (encrypt w p) (encrypt t q) .Split
      = ⟨.Split, encrypt w p, encrypt t q, 1, 0,
          add32 (lenVal (encrypt w p)) 1, 1⟩ from rfl,
    show split_internal (encrypt w p) (encrypt t q) .RSplit
      = ⟨.RSplit, encrypt w p, encrypt t q, 1, 0,
          add32 (lenVal (encrypt w p)) 1, 1⟩ from rfl,
    hmaxc,
    show encrypt w p = ⟨w ++ List.replicate p 0,
      decide (0 < p) || decide (w = [])⟩ from rfl]
  by_cases htn : t = []
  · subst htn
    have hclt0 : (if 0 < w.length + 1 then (1 : Nat) else 0) = 1 :=
      if_pos (by omega)
    have hk01 : ((0 : Nat) + 1) % 2 ^ 16 = 1 := by decide
    constructor
    · -- forward split with an empty pattern
      rw [joinWith_nil_join, driveSplit_succ, splitNext_split]
      have hfind := find_empty_spec w p _ q hw hpb1 hpb2
      have hf1 : (find ⟨w ++ List.replicate p 0,
          decide (0 < p) || decide (w = [])⟩ (encrypt [] q)).1 = 0 := by
        rw [hfind]
      have hf2 : (find ⟨w ++ List.replicate p 0,
          decide (0 < p) || decide (w = [])⟩ (encrypt [] q)).2 = 1 := by
        rw [hfind]
      rw [hf1, hf2]
      have hidx0 : (if 0 < 0
          then add32 0 (pat_is_empty_val (encrypt [] q)) else 0) = 0 :=
        if_neg (by omega)
      have hflag : (((1 : Nat) ||| 1) &&& 1) = 1 := by decide
      rw [hidx0, hflag, yielded_cons_one, List.flatten_cons, hk01, hclt0]
      by_cases hN0 : 1 ≤ w.length + p
      · rw [split_shape_fst w p _ (encrypt [] q) 0 hw hN0 (by omega)
          (by omega),
          split_shape_snd w p _ (encrypt [] q) 0 hw hN0 (by omega) (by omega)]
        have hrhs0 : splitRhsChars w p (lenVal (encrypt [] q)) 0
            = w ++ List.replicate p 0 := by
          rw [lenVal_encrypt_nil q,
            splitRhs_decomp w p 0 0 (by omega) hN0 (by omega),
            show (0 : Nat) + 0 = 0 from rfl, List.drop_zero,
            show w.length + p - max 0 w.length + 0 = p from by omega]
        cases hpbE : (decide (0 < p) || decide (w = [])) with
        | true =>
          rw [if_pos rfl, if_pos rfl]
          have hhead := decrypt_conditional_string 1
            ⟨(w ++ List.replicate p 0).take 0
              ++ List.replicate (w.length + p - 0) 0, true⟩
            ⟨w ++ List.replicate p 0, true⟩
            [] w (w.length + p - 0) p
            (by rw [List.take_zero]) rfl validChars_nil hw
          rw [hhead, if_neg (show ¬(1 = 0) from by omega), List.nil_append,
            hrhs0]
          exact drive_A_split q (w.length + p) w p true 1 (w.length + 1) hw
            (fun _ => hpb1 hpbE) (fun h => by cases h)
            (by rw [if_pos rfl]; omega)
            (by omega) (by omega) (by omega) (by omega)
        | false =>
          have hp0 : p = 0 := hpb2 hpbE
          subst hp0
          rw [if_neg (by simp), if_neg (by simp)]
          have hhead := decrypt_conditional_string 1
            ⟨((w ++ List.replicate 0 0).take 0
              ++ List.replicate (w.length + 0 - 0) 0) ++ [0], true⟩
            ⟨w ++ List.replicate 0 0, false⟩
            [] w (w.length + 0 - 0 + 1) 0
            (by
              rw [List.take_zero, List.nil_append, List.nil_append,
                List.replicate_succ'])
            rfl validChars_nil hw
          rw [hhead, if_neg (show ¬(1 = 0) from by omega), List.nil_append,
            hrhs0, List.append_assoc,
            show (List.replicate 0 0 ++ [0] : List Nat)
              = List.replicate 1 0 from rfl]
          exact drive_A_split q (w.length + 0) w 1 true 1 (w.length + 1) hw
            (fun _ => Or.inl (by omega)) (fun h => by cases h)
            (by rw [if_pos rfl]; omega)
            (by omega) (by omega) (by omega) (by omega)
      · have hw0 : w = [] := by
          cases hlw : w with
          | nil => rfl
          | cons a l =>
            rw [hlw] at hN0
            simp at hN0
        have hp0 : p = 0 := by omega
        subst hw0
        subst hp0
        cases hpbE : (decide (0 < 0) || decide (([] : List Nat) = [])) with
        | false => exact absurd hpbE (by simp)
        | true =>
          rw [show ((⟨[] ++ List.replicate 0 0, true⟩ : FheString))
            = ⟨[], true⟩ from rfl]
          rw [split_nil_fst true (encrypt [] q) 0 false,
            split_nil_snd true (encrypt [] q) 0 false, if_pos rfl]
          have hhead := decrypt_conditional_string 1
            (⟨[], true⟩ : FheString) (⟨[], true⟩ : FheString) [] [] 0 0
            rfl rfl validChars_nil validChars_nil
          rw [hhead, if_neg (show ¬(1 = 0) from by omega), List.nil_append]
          have htail := drive_A_split q (([] : List Nat).length + 0) [] 0
            true 1 (([] : List Nat).length + 1) validChars_nil
            (fun _ => Or.inr rfl) (fun h => by cases h) (by simp)
            (by omega) (by simp) (by simp) (by simp)
          have htail2 : (yielded (driveSplit ⟨.Split, ⟨[], true⟩,
              encrypt [] q, 1, 1, ([] : List Nat).length + 1, 1⟩
              (([] : List Nat).length + 0))).flatten = [] := by
            simpa using htail
          rw [htail2]
    · -- reverse split with an empty pattern
      rw [joinWith_nil_join, driveSplit_succ, splitNext_rsplit]
      have hfind := rfind_empty_spec w p _ q hw hpb1 hpb2
      have hf1 : (rfind ⟨w ++ List.replicate p 0,
          decide (0 < p) || decide (w = [])⟩ (encrypt [] q)).1 = w.length := by
        rw [hfind]
      have hf2 : (rfind ⟨w ++ List.replicate p 0,
          decide (0 < p) || decide (w = [])⟩ (encrypt [] q)).2 = 1 := by
        rw [hfind]
      rw [hf1, hf2]
      have hidx0 : (if 0 < 0
          then sub32 w.length (pat_is_empty_val (encrypt [] q))
          else w.length) = w.length :=
        if_neg (by omega)
      have hflag : (((1 : Nat) ||| 1) &&& 1) = 1 := by decide
      rw [hidx0, hflag, yielded_cons_one, rev_join_cons, hk01, hclt0]
      by_cases hN0 : 1 ≤ w.length + p
      · rw [split_shape_fst w p _ (encrypt [] q) w.length hw hN0 (by omega)
          (by omega),
          split_shape_snd w p _ (encrypt [] q) w.length hw hN0 (by omega)
          (by omega)]
        have hrhsW : splitRhsChars w p (lenVal (encrypt [] q)) w.length
            = List.replicate (p + w.length) 0 := by
          rw [lenVal_encrypt_nil q,
            splitRhs_decomp w p 0 w.length (by omega) hN0 (by omega),
            Nat.zero_add, List.drop_length,
            show w.length + p - max w.length w.length + w.length
              = p + w.length from by omega, List.nil_append]
        cases hpbE : (decide (0 < p) || decide (w = [])) with
        | true =>
          rw [if_pos rfl, if_pos rfl, hrhsW]
          have hhead := decrypt_conditional_string 1
            ⟨List.replicate (p + w.length) 0, true⟩
            ⟨w ++ List.replicate p 0, true⟩
            [] w (p + w.length) p
            (by rw [List.nil_append]) rfl validChars_nil hw
          rw [hhead, if_neg (show ¬(1 = 0) from by omega), List.append_nil,
            split_lhs_decomp w p w.length (by omega), List.take_length,
            show w.length + p - min w.length w.length = p from by omega]
          exact drive_A_rsplit q (w.length + p) w p true 1 (w.length + 1) hw
            (fun _ => hpb1 hpbE) (fun h => by cases h)
            (by rw [if_pos rfl]; omega)
            (by omega) (by omega) (by omega) (by omega)
        | false =>
          have hp0 : p = 0 := hpb2 hpbE
          subst hp0
          rw [if_neg (show ¬(false = true) from by simp),
            if_neg (show ¬(false = true) from by simp), hrhsW,
            show (List.replicate (0 + w.length) 0 ++ [0] : List Nat)
              = List.replicate (0 + w.length + 1) 0 from
              (List.replicate_succ' _ _).symm]
          have hhead := decrypt_conditional_string 1
            ⟨List.replicate (0 + w.length + 1) 0, true⟩
            ⟨w ++ List.replicate 0 0, false⟩
            [] w (0 + w.length + 1) 0
            (by rw [List.nil_append]) rfl validChars_nil hw
          rw [hhead, if_neg (show ¬(1 = 0) from by omega), List.append_nil,
            split_lhs_decomp w 0 w.length (by omega), List.take_length,
            show w.length + 0 - min w.length w.length = 0 from by omega,
            List.append_assoc,
            show (List.replicate 0 0 ++ [0] : List Nat)
              = List.replicate 1 0 from rfl]
          exact drive_A_rsplit q (w.length + 0) w 1 true 1 (w.length + 1) hw
            (fun _ => Or.inl (by omega)) (fun h => by cases h)
            (by rw [if_pos rfl]; omega)
            (by omega) (by omega) (by omega) (by omega)
      · have hw0 : w = [] := by
          cases hlw : w with
          | nil => rfl
          | cons a l =>
            rw [hlw] at hN0
            simp at hN0
        have hp0 : p = 0 := by omega
        subst hw0
        subst hp0
        cases hpbE : (decide (0 < 0) || decide (([] : List Nat) = [])) with
        | false => exact absurd hpbE (by simp)
        | true =>
          rw [show ((⟨[] ++ List.replicate 0 0, true⟩ : FheString))
            = ⟨[], true⟩ from rfl]
          rw [split_nil_fst true (encrypt [] q) (([] : List Nat).length) false,
            split_nil_snd true (encrypt [] q) (([] : List Nat).length) false,
            if_pos rfl]
          have hhead := decrypt_conditional_string 1
            (⟨[], true⟩ : FheString) (⟨[], true⟩ : FheString) [] [] 0 0
            rfl rfl validChars_nil validChars_nil
          rw [hhead, if_neg (show ¬(1 = 0) from by omega), List.append_nil]
          have htail := drive_A_rsplit q (([] : List Nat).length + 0) [] 0
            true 1 (([] : List Nat).length + 1) validChars_nil
            (fun _ => Or.inr rfl) (fun h => by cases h) (by simp)
            (by omega) (by simp) (by simp) (by simp)
          have htail2 : ((yielded (driveSplit ⟨.RSplit, ⟨[], true⟩,
              encrypt [] q, 1, 1, ([] : List Nat).length + 1, 1⟩
              (([] : List Nat).length + 0))).reverse).flatten = [] := by
            simpa using htail
          rw [htail2]
  · constructor
    · rw [drive_NE_split t q ht htn (w.length + p + 1) w p _ 0 (w.length + 1)
        hw hpb1 hpb2 hcapif (by omega) (by omega) (by omega)]
      exact joinWith_splitSegsF t htn (w.length + p + 1) w (by omega)
    · rw [drive_NE_rsplit t q ht htn (w.length + p + 1) w p _ 0 (w.length + 1)
        hw hpb1 hpb2 hcapif (by omega) (by omega) (by omega)]
      exact joinWith_splitSegsR t htn (w.length + p + 1) w (by omega)

theorem claim2_split_round_trip_witness :
    (joinWith [105] (yielded (driveSplit
        (split_internal (encrypt [104, 105] 1) (encrypt [105] 0) .Split)
        ((encrypt [104, 105] 1).chars.length + 1))) = [104, 105]
    ∧ joinWith [105] ((yielded (driveSplit
        (split_internal (encrypt [104, 105] 1) (encrypt [105] 0) .RSplit)
        ((encrypt [104, 105] 1).chars.length + 1))).reverse) = [104, 105]) :=
  claim2_split_round_trip [104, 105] [105] 1 0 (by decide) (by decide)
    (by decide)


end Fhe
